import Mathlib

/-!
# TaskLab (mtsp/ferret, `src/v03/tasklab.{h,cpp}`): task-graph engine

A shallow embedding of the task-graph generator (`TaskGraph::create_tasks`,
`TaskGraph::describe_deps`), the trace state machine (`TaskGraph::add_task`),
the dispatch verifier (`TaskLab::microtask`, `TaskLab::f`) and the session
operations `TaskLab::empty`, `TaskLab::init_run`, `TaskLab::run` and
`TaskLab::restore`.

Modelling conventions.
* `uint32_t` / `uint64_t` / `uint8_t` values are natural numbers. The counters
  `ntasks`, `ndeps`, `nvar` only ever count list nodes that are resident in
  memory, so they are taken to stay below `2^32`; no wrap-around is modelled.
* `std::vector` and `std::list` are `List`; `std::map<K, V>` is a function
  `K → Option V` (`find(k) != end()` is `≠ none`).
* `rand()` reads the next element of an explicit list of draws; running out of
  draws stands for a rejection loop that has not finished.
* `float` values are not computed with: `exec` keeps the signed integer
  `± (rand() % 100)` from which the source derives the load factor.
* The external runtime is a parameter: which of the four symbols `dlsym`
  resolves, and the order in which the task bodies run. A call through a null
  function pointer has no result (`none`).
* A file is a parameter too: `none` when it cannot be opened, else the graph
  its archive holds.
-/

namespace TaskLab

open Relation

/-! ## Data model (`tasklab.h`) -/

/-- Dependency type `IN = 1` of `enum Type`. -/
abbrev IN : Nat := 1
/-- Dependency type `OUT = 2` of `enum Type`. -/
abbrev OUT : Nat := 2
/-- Dependency type `INOUT = 3` of `enum Type`. -/
abbrev INOUT : Nat := 3

/-- Public `dep` (`struct dep_s`): one dependency record of a submission. -/
structure dep_s where
  varptr : Nat
  mode : Nat
  deriving DecidableEq

/-- Public `task` (`struct task_s`): one submission. `deparr` holds the `ndeps`
records that `add_task` walks over. -/
structure task_s where
  tID : Nat
  WDPtr : Nat
  deparr : List dep_s
  deriving DecidableEq

/-- Internal `_dep` (`struct dep_i`). -/
structure dep_i where
  task : Nat
  type : Nat
  dID : Nat
  var : Nat
  deriving DecidableEq, Inhabited

/-- Internal `_task` (`struct task_i`). The member `npred` is never read or
written by the builders and is left out; `serialize` carries its value
separately. -/
structure task_i where
  predecessors : List dep_i
  successors : List dep_i
  tID : Nat
  exec : Int
  deriving DecidableEq, Inhabited

/-- Class `TaskGraph`. -/
structure TaskGraph where
  tasks : List task_i
  ntasks : Nat
  ndeps : Nat
  nvar : Nat
  dep_r : Nat
  exec_t : Nat
  max_r : ℚ
  in_map : Nat → Option (List dep_i)
  out_map : Nat → Option dep_i
  ll : List Nat

/-- A value-initialised `_task`, as produced by `tasks.resize(n)`. -/
def task_i.zero : task_i := ⟨[], [], 0, 0⟩

/-- Constructor `TaskGraph::TaskGraph(n, d, t, r)`. -/
def TaskGraph.new (n d t : Nat) (r : ℚ) : TaskGraph :=
  { tasks := List.replicate n task_i.zero
    ntasks := n
    ndeps := 0
    nvar := 0
    dep_r := d
    exec_t := t
    max_r := r
    in_map := fun _ => none
    out_map := fun _ => none
    ll := [] }

/-- Default constructor `TaskGraph::TaskGraph()`. -/
def TaskGraph.empty : TaskGraph := TaskGraph.new 0 10 1000000 (1 / 4)

/-- Update of one key of a `std::map`. -/
def mapSet {β : Type} (m : Nat → Option β) (k : Nat) (v : Option β) : Nat → Option β :=
  fun a => if a = k then v else m a

/-! ## Tracer (`TaskGraph::add_task`) -/

/-- Loop `for (it = in_map[cur_ptr].begin(), cur_var = it->var; ...)` of the
writer branch: every reader becomes a predecessor; in each iteration `cur_var`
is reloaded from `out_map[cur_ptr].var`, and `operator[]` yields a
value-initialised `_dep` (all fields `0`) when the address has no writer yet.
`wvar` is that value. The initial `cur_var = it->var` dereferences `begin()`;
for an empty vector (which the builders never store) the old `cur_var` is kept. -/
def readers_loop (cur_mode wvar : Nat) :
    List dep_i → Nat × List dep_i → Nat × List dep_i
  | [], acc => acc
  | r :: rs, (_, preds) =>
      readers_loop cur_mode wvar rs (wvar, preds ++ [⟨r.task, cur_mode, r.dID, wvar⟩])

/-- Body of the `for (c = 0; c < t.ndeps; ++c)` loop of `TaskGraph::add_task`:
the graph fields `ndeps`, `nvar`, `in_map`, `out_map` and the task `f_t` under
construction are updated for one dependency record. -/
def add_dep (st : TaskGraph × task_i) (d : dep_s) : TaskGraph × task_i :=
  let g := st.1
  let f_t := st.2
  let cur_ptr := d.varptr
  let cur_mode := d.mode
  let cur_var := g.nvar
  let cur_dep := g.ndeps
  -- (cur_var, f_t.predecessors, in_map, out_map) after the hazard analysis
  let r : Nat × List dep_i × (Nat → Option (List dep_i)) × (Nat → Option dep_i) :=
    if cur_mode ≠ IN then
      let r1 : Nat × List dep_i :=
        match g.in_map cur_ptr with
        | some readers =>
            let wvar := match g.out_map cur_ptr with
              | some w => w.var
              | none => 0
            let cur_var0 := match readers.head? with
              | some r0 => r0.var
              | none => cur_var
            readers_loop cur_mode wvar readers (cur_var0, f_t.predecessors)
        | none =>
            match g.out_map cur_ptr with
            | some w => (w.var, f_t.predecessors ++ [⟨w.task, cur_mode, w.dID, w.var⟩])
            | none => (cur_var, f_t.predecessors)
      (r1.1, r1.2, mapSet g.in_map cur_ptr none,
        mapSet g.out_map cur_ptr (some ⟨f_t.tID, cur_mode, cur_dep, r1.1⟩))
    else
      let r1 : Nat × List dep_i :=
        match g.out_map cur_ptr with
        | some w => (w.var, f_t.predecessors ++ [⟨w.task, cur_mode, w.dID, w.var⟩])
        | none => (cur_var, f_t.predecessors)
      let old := match g.in_map cur_ptr with
        | some readers => readers
        | none => []
      (r1.1, r1.2,
        mapSet g.in_map cur_ptr (some (old ++ [⟨f_t.tID, cur_mode, cur_dep, r1.1⟩])),
        g.out_map)
  let cur_var1 := r.1
  ({ g with
      ndeps := g.ndeps + 1
      nvar := if cur_var1 = g.nvar then g.nvar + 1 else g.nvar
      in_map := r.2.2.1
      out_map := r.2.2.2 },
   { f_t with
      predecessors := r.2.1
      successors := f_t.successors ++ [⟨0, cur_mode, cur_dep, cur_var1⟩] })

/-- The task `f_t` as `add_task` initialises it. -/
def new_f_t (g : TaskGraph) : task_i := ⟨[], [], g.ntasks, 0⟩

/-- State of `add_task` after the records `recs` of the submission have been
processed. -/
def add_deps (g : TaskGraph) (recs : List dep_s) : TaskGraph × task_i :=
  recs.foldl add_dep (g, new_f_t g)

/-- Method `TaskGraph::add_task`. -/
def TaskGraph.add_task (g : TaskGraph) (t : task_s) : TaskGraph :=
  let st := add_deps g t.deparr
  { st.1 with tasks := st.1.tasks ++ [st.2], ntasks := st.1.ntasks + 1 }

/-- The graph traced from a stream of submissions, starting from the empty
graph. -/
def trace (ts : List task_s) : TaskGraph :=
  ts.foldl TaskGraph.add_task TaskGraph.empty

/-! ## Generator (`TaskGraph::create_tasks`, `TaskGraph::describe_deps`) -/

/-- One call of `rand()`: the next draw, if any is left. -/
def rand : List Nat → Option (Nat × List Nat)
  | [] => none
  | r :: rs => some (r, rs)

/-- The rejection loop
`do { it->task = min + (rand() % (max - min)); } while (find(results, it->task) != end)`
of `describe_deps`. The caller has checked `max - min ≠ 0`. -/
def pick_task (min max : Nat) (results : List Nat) : List Nat → Option (Nat × List Nat)
  | [] => none
  | r :: rs =>
      let c := min + r % (max - min)
      if c ∈ results then pick_task min max results rs else some (c, rs)

/-- State threaded through the generator loops: the task vector, the running
`dep_id` and the remaining draws. -/
structure GenState where
  tasks : List task_i
  dep_id : Nat
  draws : List Nat

/-- Loop of `describe_deps` over the predecessor entries of `tasks[tID]`:
`todo` are the entries still to be filled in, `done` the entries already filled
in, `results` the task ids picked so far. A zero divisor in
`rand() % (max - min)` aborts the program (`none`). -/
def describe_loop (tID min max : Nat) :
    List dep_i → List dep_i → List Nat → GenState → Option GenState
  | [], _, _, s => some s
  | _ :: todo, done, results, s =>
      if max - min = 0 then none else
      match pick_task min max results s.draws with
      | none => none
      | some (p, draws1) =>
        match rand draws1 with
        | none => none
        | some (r, draws2) =>
          let it : dep_i := ⟨p, r % 2, s.dep_id, s.dep_id⟩
          let c_dep : dep_i := ⟨0, it.type, s.dep_id, s.dep_id⟩
          let b_dep : dep_i := ⟨tID, OUT, s.dep_id, s.dep_id⟩
          let tasks1 := s.tasks.modify
            (fun t => { t with predecessors := done ++ it :: todo
                               successors := t.successors ++ [c_dep] }) tID
          let tasks2 := tasks1.modify
            (fun t => { t with successors := t.successors ++ [b_dep] }) p
          describe_loop tID min max todo (done ++ [it]) (results ++ [p])
            ⟨tasks2, s.dep_id + 1, draws2⟩

/-- Method `TaskGraph::describe_deps`. -/
def describe_deps (tID min max : Nat) (s : GenState) : Option GenState :=
  match s.tasks[tID]? with
  | none => none
  | some t => describe_loop tID min max t.predecessors [] [] s

/-- Method `std::list::resize(n)` with value-initialised new elements. -/
def resize (l : List dep_i) (n : Nat) : List dep_i :=
  l.take n ++ List.replicate (n - l.length) ⟨0, 0, 0, 0⟩

/-- The two draws that set `tasks[i].exec`: a sign and a magnitude
`rand() % 100` (the source scales the product by `max_r / 100`). -/
def draw_exec (draws : List Nat) : Option (Int × List Nat) :=
  match rand draws with
  | none => none
  | some (a, d1) =>
    match rand d1 with
    | none => none
    | some (b, d2) => some ((if a % 2 = 0 then 1 else -1) * ((b % 100 : Nat) : Int), d2)

/-- Window lower bound `range_min` of `create_tasks` for task `i`. -/
def range_min (dep_r i : Nat) : Nat := if i < dep_r then 0 else i - dep_r

/-- Window upper bound `range_max` of `create_tasks` for task `i`. -/
def range_max (dep_r i : Nat) : Nat :=
  if range_min dep_r i + dep_r ≥ i then i else range_min dep_r i + dep_r

/-- The clamped `cur_dep` of `create_tasks` for task `i`. -/
def cur_dep (max_dep dep_r i : Nat) : Nat :=
  min (if i ≤ max_dep then i - 1 else max_dep) (range_max dep_r i - range_min dep_r i)

/-- State of `create_tasks`: the graph, the local `dep_id` and the draws. -/
structure CreateState where
  g : TaskGraph
  dep_id : Nat
  draws : List Nat

/-- Body of the loop `for (i = 1; i < ntasks; i++)` of `create_tasks`. -/
def create_step (max_dep i : Nat) (s : CreateState) : Option CreateState :=
  let g := s.g
  match draw_exec s.draws with
  | none => none
  | some (e, d1) =>
    let cd := cur_dep max_dep g.dep_r i
    let np : Option (Nat × List Nat) :=
      if cd = 0 then some (1, d1) else
        match rand d1 with
        | none => none
        | some (r, d2) => some (r % cd + 1, d2)
    match np with
    | none => none
    | some (npred, d2) =>
      let tasks1 := g.tasks.modify
        (fun t => { t with tID := i, exec := e
                           predecessors := resize t.predecessors npred }) i
      match describe_deps i (range_min g.dep_r i) (range_max g.dep_r i)
              ⟨tasks1, s.dep_id, d2⟩ with
      | none => none
      | some s1 =>
        some ⟨{ g with tasks := s1.tasks
                       ndeps := g.ndeps + npred
                       nvar := g.ndeps + npred }, s1.dep_id, s1.draws⟩

/-- The loop `for (i = 1; i < ntasks; i++)` of `create_tasks`, with `k`
iterations left. -/
def create_loop (max_dep : Nat) : Nat → Nat → CreateState → Option CreateState
  | 0, _, s => some s
  | k + 1, i, s =>
      match create_step max_dep i s with
      | none => none
      | some s1 => create_loop max_dep k (i + 1) s1

/-- Method `TaskGraph::create_tasks`. The result is `none` when the draws run
out, when a zero divisor is hit, or when `tasks[0]` does not exist. -/
def TaskGraph.create_tasks (g : TaskGraph) (max_dep : Nat) (draws : List Nat) :
    Option TaskGraph :=
  match g.tasks with
  | [] => none
  | _ :: _ =>
    match draw_exec draws with
    | none => none
    | some (e, d1) =>
      let tasks0 := g.tasks.modify (fun t => { t with tID := 0, exec := e }) 0
      match create_loop max_dep (g.ntasks - 1) 1 ⟨{ g with tasks := tasks0 }, 0, d1⟩ with
      | none => none
      | some s => some s.g

/-- Method `TaskLab::generate` (the graph it leaves in the session). -/
def generate (n m d t : Nat) (r : ℚ) (draws : List Nat) : Option TaskGraph :=
  (TaskGraph.new n d t r).create_tasks m draws

/-! ## Dispatcher (`TaskLab::microtask`, `TaskLab::f`) -/

/-- Addresses handed to the runtime: a cell of the parameter arena `params` or
a cell of the variable arena `varptr`. -/
inductive Addr where
  | params (i : Nat)
  | varptr (i : Nat)
  deriving DecidableEq

/-- One `kmp_depend_info` entry: `base_addr`, `flags.in`, `flags.out`. -/
structure kmp_depend_info where
  base_addr : Addr
  flag_in : Bool
  flag_out : Bool
  deriving DecidableEq

/-- The array `dep_list` that `microtask` builds for one task: slot 0 is the
parameter block, then one slot per successor edge. -/
def dep_list (t : task_i) : List kmp_depend_info :=
  ⟨Addr.params t.tID, true, false⟩ ::
    t.successors.map (fun d => ⟨Addr.varptr d.var, d.type != OUT, d.type != IN⟩)

/-- Structure `tparam_t`: `pred` and `succ` hold the indices of the `dep_chk`
cells the task reads and writes. -/
structure tparam_t where
  tID : Nat
  pred : List Nat
  succ : List Nat
  exec : Int
  deriving DecidableEq

/-- The parameter block `params[cur_task]` that `microtask` fills in. -/
def mk_param (t : task_i) : tparam_t :=
  ⟨t.tID, t.predecessors.map (fun d => d.dID), t.successors.map (fun d => d.dID), t.exec⟩

/-- Loop `for (i = 0; cur && i < pred_s; i++) cur = cur && *pred[i]` of `f`. -/
def check_preds (dep_chk : Nat → Bool) : List Nat → Bool
  | [] => true
  | p :: ps => if dep_chk p then check_preds dep_chk ps else false

/-- Loop `for (i = 0; i < succ_s; i++) *succ[i] = cur` of `f`. -/
def set_succs (cur : Bool) : List Nat → (Nat → Bool) → (Nat → Bool)
  | [], dc => dc
  | s :: ss, dc => set_succs cur ss (fun k => if k = s then cur else dc k)

/-- Shared state of a run: the array `dep_chk`, the flag `r_error`, and (as an
observation) the value of `cur` computed by each body run so far. -/
structure RunState where
  dep_chk : Nat → Bool
  r_error : Bool
  curs : List (Nat × Bool)

/-- Function `TaskLab::f` (the CPU burn has no effect on the state). -/
def f (param : tparam_t) (s : RunState) : RunState :=
  let cur := check_preds s.dep_chk param.pred
  { dep_chk := set_succs cur param.succ s.dep_chk
    r_error := if !cur then true else s.r_error
    curs := s.curs ++ [(param.tID, cur)] }

/-- State at the moment `microtask` has submitted every task: `dep_chk` is
all `false`, `r_error` was cleared by `run`. -/
def RunState.init : RunState := ⟨fun _ => false, false, []⟩

/-- The task bodies run in the order `order` (a list of task ids); the body of
task `i` receives `params[i]`. -/
def run_bodies (g : TaskGraph) (order : List Nat) (s : RunState) : RunState :=
  order.foldl (fun s i =>
    match g.tasks[i]? with
    | some t => f (mk_param t) s
    | none => s) s

/-- Verdict of `TaskLab::run` once the parallel region is over. -/
def run_verdict (s : RunState) : Bool := !s.r_error

/-- Two tasks declare a slot on the same address, and one of the two slots is
an output slot. -/
def conflict (a b : task_i) : Bool :=
  (dep_list a).any (fun x => (dep_list b).any (fun y =>
    decide (x.base_addr = y.base_addr) && (x.flag_out || y.flag_out)))

/-- Task `i` runs before task `j` in `order`. -/
def before (order : List Nat) (i j : Nat) : Prop :=
  order.indexOf i < order.indexOf j

instance (order : List Nat) (i j : Nat) : Decidable (before order i j) := by
  unfold before; infer_instance

/-- The order honours the declared dependencies: of two conflicting tasks the
one submitted first runs first. -/
def honours (g : TaskGraph) (order : List Nat) : Prop :=
  ∀ j < g.tasks.length, ∀ i < j,
    conflict (g.tasks.getD i default) (g.tasks.getD j default) = true → before order i j

instance (g : TaskGraph) (order : List Nat) : Decidable (honours g order) := by
  unfold honours; infer_instance

/-! ## Session (`class TaskLab`): `empty`, `init_run`, `run`, `restore` -/

/-- Event `HTASK = 1` of `enum Event`. -/
abbrev HTASK : Nat := 1

/-- Event `LTASK = 2` of `enum Event`. -/
abbrev LTASK : Nat := 2

/-- Constant `NONE` (`-1`) as the `uint8_t` default argument of `empty`. -/
abbrev NONE : Nat := 255

/-- Constant `EVENT_S`. -/
abbrev EVENT_S : Nat := 3

/-- Runtime `RT::MTSP = 1`. -/
abbrev MTSP : Nat := 1

/-- The four file-level function pointers `fork_call`, `omp_task_alloc`,
`omp_task_with_deps`, `omp_taskwait`; `true` stands for a non-null pointer. The
same type describes what `dlsym` returns for the four symbol names. -/
structure Bindings where
  fork_call : Bool
  omp_task_alloc : Bool
  omp_task_with_deps : Bool
  omp_taskwait : Bool
  deriving DecidableEq

/-- State of a session: the members `tg` and `t_e` of `class TaskLab`, its
static members `tg_t` and `r_error`, and the file-level function pointers. -/
structure Lab where
  tg : Option TaskGraph
  t_e : List Bool
  tg_t : Option TaskGraph
  r_error : Bool
  binds : Bindings

/-- Constructor `TaskLab::TaskLab()` in a fresh process. -/
def Lab.new : Lab := ⟨none, [false, false, false], none, false, ⟨false, false, false, false⟩⟩

/-- Method `TaskLab::empty`. -/
def empty (lab : Lab) (evt : Nat) : Bool :=
  match lab.tg with
  | none => true
  | some g =>
      if evt = HTASK then g.tasks.isEmpty
      else if evt = LTASK then g.ll.isEmpty
      else false

/-- Method `TaskLab::init_run`: `env` tells which of the four symbols `dlsym`
resolves; the result is the return value and the function pointers. -/
def init_run (rt : Nat) (env : Bindings) (b : Bindings) : Bool × Bindings :=
  let b1 := if rt = MTSP then env else b
  if b1.omp_task_alloc = false || b1.omp_task_with_deps = false || b1.omp_taskwait = false
  then (false, b1)
  else (true, b1)

/-- What a call of `TaskLab::run` leaves behind: the return value, the session,
whether the parallel region was entered, and the `cur` values computed by the
task bodies of this run. -/
structure RunResult where
  ret : Bool
  lab : Lab
  entered : Bool
  curs : List (Nat × Bool)

/-- End of `TaskLab::run`: `tg_t` is cleared and the verdict is read off
`r_error`, which is reset when it was set. -/
def run_finish (lab : Lab) (entered : Bool) (curs : List (Nat × Bool)) : RunResult :=
  if lab.r_error then ⟨false, { lab with tg_t := none, r_error := false }, entered, curs⟩
  else ⟨true, { lab with tg_t := none }, entered, curs⟩

/-- Method `TaskLab::run`. The runtime is described by `env` (the symbols that
resolve) and by `order` (the order in which it runs the task bodies once
`microtask` has submitted them). The result is `none` when `fork_call` is
called through a null pointer. -/
def run (lab : Lab) (rt : Nat) (env : Bindings) (order : List Nat) : Option RunResult :=
  if empty lab HTASK then some ⟨false, lab, false, []⟩
  else
    let lab1 : Lab := { lab with tg_t := lab.tg, r_error := false }
    let ir := init_run rt env lab1.binds
    let lab2 : Lab := { lab1 with binds := ir.2 }
    if !ir.1 then some ⟨false, lab2, false, []⟩
    else if rt = MTSP then
      if lab2.binds.fork_call = false then none
      else
        match lab2.tg_t with
        | none => none
        | some g =>
            let s := run_bodies g order ⟨fun _ => false, lab2.r_error, []⟩
            some (run_finish { lab2 with r_error := s.r_error } true s.curs)
    else some (run_finish lab2 false [])

/-- Method `TaskLab::restore`: `archive` is `none` when the file cannot be
opened, else the graph that the archive holds. -/
def restore (lab : Lab) (archive : Option TaskGraph) : Bool × Lab :=
  let lab1 : Lab := if !(empty lab NONE) then { lab with tg := none } else lab
  let lab2 : Lab := { lab1 with tg := some TaskGraph.empty }
  match archive with
  | some g => (true, { lab2 with tg := some g })
  | none => (false, { lab2 with tg := none })

/-! ## Event bus (`hasEvent`, `watchEvent`, `eventOccurred`) and the submissions of `microtask` -/

/-- Method `TaskLab::hasEvent`. -/
def hasEvent (lab : Lab) (event : Nat) : Bool :=
  if event < EVENT_S then lab.t_e.getD event false else false

/-- Method `TaskLab::watchEvent`. -/
def watchEvent (lab : Lab) (event : Nat) : Lab :=
  if event < EVENT_S then { lab with t_e := lab.t_e.set event true } else lab

/-- The memory behind the argument `t_p` of `eventOccurred`, as the two views
the method takes of it: `*(task*) t_p` and `*(uint64_t*) t_p`. -/
structure event_payload where
  task : task_s
  word : Nat

/-- Method `TaskLab::eventOccurred`. -/
def eventOccurred (lab : Lab) (event : Nat) (t_p : event_payload) : Lab :=
  if event = HTASK then
    let lab1 : Lab := if empty lab NONE then { lab with tg := some TaskGraph.empty } else lab
    match lab1.tg with
    | some g => { lab1 with tg := some (g.add_task t_p.task) }
    | none => lab1
  else if event = LTASK then
    let lab1 : Lab := if empty lab NONE then { lab with tg := some TaskGraph.empty } else lab
    match lab1.tg with
    | some g => { lab1 with tg := some { g with ll := g.ll ++ [t_p.word] } }
    | none => lab1
  else lab

/-- The calls `omp_task_with_deps(NULL, 0, task, n_dep + 1, dep_list, 0, NULL)`
that `microtask` makes, in the order it makes them: one array `dep_list` per
task of the vector. -/
def microtask_submissions (g : TaskGraph) : List (List kmp_depend_info) :=
  g.tasks.map dep_list

/-! ## Persistence (`serialize`, `TaskLab::save`, `TaskLab::restore`) -/

/-- Modelled from the Boost.Serialization documentation: one primitive value
in an archive. A text archive is a sequence of values; a value that is saved is
loaded back unchanged. `nat` carries the unsigned members, `int` the member
`exec` and `rat` the member `max_r`, as this development represents them. -/
inductive Tok where
  | nat (n : Nat)
  | int (z : Int)
  | rat (q : ℚ)

/-- Modelled from the Boost.Serialization documentation: the content of an
archive file, in the order the values were saved. -/
abbrev Archive : Type := List Tok

/-- Modelled from the Boost.Serialization documentation: loading an unsigned
member; a value of another kind is a stream error. -/
def load_nat : Archive → Option (Nat × Archive)
  | Tok.nat n :: a => some (n, a)
  | _ => none

/-- Modelled from the Boost.Serialization documentation: the elements of a
sequence container are saved one after the other, in container order. -/
def save_items {α : Type} (put : α → Archive) : List α → Archive
  | [] => []
  | x :: xs => put x ++ save_items put xs

/-- Modelled from the Boost.Serialization documentation: loading `n` elements
into a cleared container. -/
def load_items {α : Type} (get : Archive → Option (α × Archive)) :
    Nat → Archive → Option (List α × Archive)
  | 0, a => some ([], a)
  | n + 1, a =>
      match get a with
      | none => none
      | some (x, a1) =>
          match load_items get n a1 with
          | none => none
          | some (xs, a2) => some (x :: xs, a2)

/-- Modelled from the Boost.Serialization documentation: a container
(`std::vector`, `std::list`) is saved as its element count followed by its
elements. -/
def save_collection {α : Type} (put : α → Archive) (l : List α) : Archive :=
  Tok.nat l.length :: save_items put l

/-- Modelled from the Boost.Serialization documentation: loading a container
reads the count, clears the container and loads that many elements. -/
def load_collection {α : Type} (get : Archive → Option (α × Archive)) (a : Archive) :
    Option (List α × Archive) :=
  match load_nat a with
  | none => none
  | some (n, a1) => load_items get n a1

/-- The entries of a `std::map` in iteration order: `keys` lists the keys in
that order, an entry exists where the map is defined. -/
def map_entries {β : Type} (keys : List Nat) (m : Nat → Option β) : List (Nat × β) :=
  keys.filterMap (fun k => (m k).map (fun v => (k, v)))

/-- Method `std::map::insert`: an entry whose key is present is not replaced. -/
def map_insert {β : Type} (m : Nat → Option β) (p : Nat × β) : Nat → Option β :=
  if (m p.1).isSome then m else mapSet m p.1 (some p.2)

/-- Modelled from the Boost.Serialization documentation: an entry of a
`std::map` is saved as its key followed by its value. -/
def save_entry {β : Type} (put : β → Archive) (p : Nat × β) : Archive :=
  Tok.nat p.1 :: put p.2

/-- Modelled from the Boost.Serialization documentation: loading one entry of
a `std::map`, key then value. -/
def load_entry {β : Type} (get : Archive → Option (β × Archive)) (a : Archive) :
    Option ((Nat × β) × Archive) :=
  match load_nat a with
  | none => none
  | some (k, a1) =>
      match get a1 with
      | none => none
      | some (v, a2) => some ((k, v), a2)

/-- Modelled from the Boost.Serialization documentation: a `std::map` is saved
as its entry count followed by its entries. -/
def save_map {β : Type} (put : β → Archive) (keys : List Nat) (m : Nat → Option β) :
    Archive :=
  save_collection (save_entry put) (map_entries keys m)

/-- Modelled from the Boost.Serialization documentation: loading a `std::map`
reads the count, clears the map and inserts that many entries. -/
def load_map {β : Type} (get : Archive → Option (β × Archive)) (a : Archive) :
    Option ((Nat → Option β) × Archive) :=
  match load_collection (load_entry get) a with
  | none => none
  | some (ps, a1) => some (ps.foldl map_insert (fun _ => none), a1)

/-- Method `_dep::serialize` on an output archive: `task`, `type`, `dID`,
`var`. -/
def dep_i.serialize_save (d : dep_i) : Archive :=
  [Tok.nat d.task, Tok.nat d.type, Tok.nat d.dID, Tok.nat d.var]

/-- Method `_dep::serialize` on an input archive. -/
def dep_i.serialize_load : Archive → Option (dep_i × Archive)
  | Tok.nat a :: Tok.nat b :: Tok.nat c :: Tok.nat e :: rest => some (⟨a, b, c, e⟩, rest)
  | _ => none

/-- Method `_task::serialize` on an output archive: `predecessors`,
`successors`, `tID`, `npred`, `exec`. The member `npred` is not part of
`task_i` here; `npred` is the value it holds in the saved object. -/
def task_i.serialize_save (npred : Nat) (t : task_i) : Archive :=
  save_collection dep_i.serialize_save t.predecessors ++
    save_collection dep_i.serialize_save t.successors ++
    [Tok.nat t.tID, Tok.nat npred, Tok.int t.exec]

/-- Method `_task::serialize` on an input archive; the loaded `npred` has no
place in `task_i` and is dropped. -/
def task_i.serialize_load (a : Archive) : Option (task_i × Archive) :=
  match load_collection dep_i.serialize_load a with
  | none => none
  | some (ps, a1) =>
      match load_collection dep_i.serialize_load a1 with
      | none => none
      | some (ss, a2) =>
          match a2 with
          | Tok.nat tID :: Tok.nat _ :: Tok.int exec :: a3 => some (⟨ps, ss, tID, exec⟩, a3)
          | _ => none

/-- The elements of the vector `tasks` on an output archive; `np i` is the
member `npred` of `tasks[i]`. -/
def save_tasks (np : Nat → Nat) : Nat → List task_i → Archive
  | _, [] => []
  | i, t :: ts => task_i.serialize_save (np i) t ++ save_tasks np (i + 1) ts

/-- One `uint64_t` element of the vector `ll` on an output archive. -/
def save_word (w : Nat) : Archive := [Tok.nat w]

/-- Method `TaskGraph::serialize` on an output archive: `tasks`, `ntasks`,
`ndeps`, `nvar`, `dep_r`, `exec_t`, `max_r`, `in_map`, `out_map`, `ll`.
`keys` lists the keys of the two maps in iteration order. -/
def TaskGraph.serialize_save (keys : List Nat) (np : Nat → Nat) (g : TaskGraph) : Archive :=
  (Tok.nat g.tasks.length :: save_tasks np 0 g.tasks) ++
    [Tok.nat g.ntasks, Tok.nat g.ndeps, Tok.nat g.nvar, Tok.nat g.dep_r, Tok.nat g.exec_t,
      Tok.rat g.max_r] ++
    save_map (save_collection dep_i.serialize_save) keys g.in_map ++
    save_map dep_i.serialize_save keys g.out_map ++
    save_collection save_word g.ll

/-- Method `TaskGraph::serialize` on an input archive, into a
default-constructed graph: every member is assigned from the archive. -/
def TaskGraph.serialize_load (a : Archive) : Option (TaskGraph × Archive) :=
  match load_collection task_i.serialize_load a with
  | none => none
  | some (tasks, a1) =>
      match a1 with
      | Tok.nat ntasks :: Tok.nat ndeps :: Tok.nat nvar :: Tok.nat dep_r :: Tok.nat exec_t ::
          Tok.rat max_r :: a2 =>
          match load_map (load_collection dep_i.serialize_load) a2 with
          | none => none
          | some (in_map, a3) =>
              match load_map dep_i.serialize_load a3 with
              | none => none
              | some (out_map, a4) =>
                  match load_collection load_nat a4 with
                  | none => none
                  | some (ll, a5) =>
                      some (⟨tasks, ntasks, ndeps, nvar, dep_r, exec_t, max_r, in_map,
                        out_map, ll⟩, a5)
      | _ => none

/-- Method `TaskLab::save`: `writable` tells whether the file can be opened;
the result is the return value and the content written, if any. -/
def save (lab : Lab) (writable : Bool) (keys : List Nat) (np : Nat → Nat) :
    Bool × Option Archive :=
  if empty lab NONE then (false, none)
  else if writable then
    match lab.tg with
    | some g => (true, some (g.serialize_save keys np))
    | none => (false, none)
  else (false, none)

/-- Method `TaskLab::restore` on the content of the file: `file` is `none`
when the file cannot be opened; an archive that cannot be loaded raises an
exception out of `restore` (`none`). -/
def restore_archive (lab : Lab) (file : Option Archive) : Option (Bool × Lab) :=
  match file with
  | none => some (restore lab none)
  | some a =>
      match TaskGraph.serialize_load a with
      | none => none
      | some (g, _) => some (restore lab (some g))

/-! ## Auxiliary definitions used by the proofs -/

/-- The map entries a new record becomes dependent on: the readers of the
address for a writer (if there are any), else the last writer. -/
def hazard_srcs (g : TaskGraph) (d : dep_s) : List dep_i :=
  if d.mode ≠ IN then
    match g.in_map d.varptr with
    | some rs => rs
    | none => (g.out_map d.varptr).toList
  else (g.out_map d.varptr).toList

/-- The value of `cur_var` at the end of the loop body of `add_task`. -/
def rec_var (g : TaskGraph) (d : dep_s) : Nat :=
  if d.mode ≠ IN then
    match g.in_map d.varptr with
    | some rs =>
        if rs = [] then g.nvar
        else match g.out_map d.varptr with
          | some w => w.var
          | none => 0
    | none =>
        match g.out_map d.varptr with
        | some w => w.var
        | none => g.nvar
  else
    match g.out_map d.varptr with
    | some w => w.var
    | none => g.nvar

/-- Last step of `add_task`: the finished `f_t` is appended to the task vector. -/
def push (st : TaskGraph × task_i) : TaskGraph :=
  { st.1 with tasks := st.1.tasks ++ [st.2], ntasks := st.1.ntasks + 1 }

/-- States of the tracer reachable from the empty graph, together with the
records processed so far: the head of the history holds the records of the
submission in progress (latest first), its tail the finished submissions
(latest first). -/
inductive Reach : List (List dep_s) → TaskGraph × task_i → Prop
  | init : Reach [[]] (TaskGraph.empty, new_f_t TaskGraph.empty)
  | step {cur : List dep_s} {done : List (List dep_s)} {st : TaskGraph × task_i}
      (d : dep_s) : Reach (cur :: done) st → Reach ((d :: cur) :: done) (add_dep st d)
  | next {h : List (List dep_s)} {st : TaskGraph × task_i} :
      Reach h st → Reach ([] :: h) (push st, new_f_t (push st))

/-- The task vector together with the task under construction. -/
def allT (st : TaskGraph × task_i) : List task_i := st.1.tasks ++ [st.2]

/-- Task `q` carries a successor edge with dependency id `k`. -/
def Owned (T : List task_i) (q k : Nat) : Prop :=
  ∃ tp, T[q]? = some tp ∧ ∃ s ∈ tp.successors, s.dID = k

/-- Invariant of the tracer. -/
structure TInv (st : TaskGraph × task_i) : Prop where
  len : st.1.ntasks = st.1.tasks.length
  tid : ∀ (q : Nat) (tq : task_i), (allT st)[q]? = some tq → tq.tID = q
  out_var : ∀ (A : Nat) (w : dep_i), st.1.out_map A = some w → w.var < st.1.nvar
  in_ne : ∀ (A : Nat) (rs : List dep_i), st.1.in_map A = some rs → rs ≠ [] ∧ 0 < st.1.nvar
  succ_lt : ∀ (q : Nat) (tq : task_i) (s : dep_i), (allT st)[q]? = some tq →
    s ∈ tq.successors → s.dID < st.1.ndeps
  succ_uniq : ∀ (q q' : Nat) (tq tq' : task_i) (s s' : dep_i), (allT st)[q]? = some tq →
    (allT st)[q']? = some tq' → s ∈ tq.successors → s' ∈ tq'.successors →
    s.dID = s'.dID → q = q'
  pred_own : ∀ (t : Nat) (tt : task_i) (d : dep_i), (allT st)[t]? = some tt →
    d ∈ tt.predecessors → Owned (allT st) d.task d.dID
  out_own : ∀ (A : Nat) (w : dep_i), st.1.out_map A = some w → Owned (allT st) w.task w.dID
  in_own : ∀ (A : Nat) (rs : List dep_i) (r : dep_i), st.1.in_map A = some rs → r ∈ rs →
    Owned (allT st) r.task r.dID

/-- Predecessor edge relation of a task vector: task `j` has a predecessor
edge that names task `i`. -/
def predEdge (T : List task_i) (j i : Nat) : Prop :=
  ∃ tj, T[j]? = some tj ∧ ∃ d ∈ tj.predecessors, d.task = i

/-- Records of task `k` in a history (latest submission first). -/
def recsOf (h : List (List dep_s)) (k : Nat) : List dep_s := h.reverse.getD k []

/-- Task `k` has processed a writer record on address `A`. -/
def Wr (h : List (List dep_s)) (A k : Nat) : Prop :=
  ∃ r ∈ recsOf h k, r.varptr = A ∧ r.mode ≠ IN

/-- Task `k` has processed a reader record on address `A`. -/
def Rd (h : List (List dep_s)) (A k : Nat) : Prop :=
  ∃ r ∈ recsOf h k, r.varptr = A ∧ r.mode = IN

/-- Reachability invariant of the tracer. -/
structure RInv (h : List (List dep_s)) (st : TaskGraph × task_i) : Prop where
  hlen : h.length = st.1.tasks.length + 1
  rd : ∀ (A : Nat) (rs : List dep_i) (r w : dep_i), st.1.in_map A = some rs → r ∈ rs →
    st.1.out_map A = some w → ReflTransGen (predEdge (allT st)) r.task w.task
  wr : ∀ (A k : Nat), Wr h A k →
    ∃ w, st.1.out_map A = some w ∧ ReflTransGen (predEdge (allT st)) w.task k
  re : ∀ (A k : Nat), Rd h A k →
    (∃ rs, st.1.in_map A = some rs ∧ ∃ r ∈ rs, r.task = k) ∨
    (∃ w, st.1.out_map A = some w ∧ ReflTransGen (predEdge (allT st)) w.task k)
  haz : ∀ (A i j : Nat), i < j →
    (Wr h A i ∧ (Wr h A j ∨ Rd h A j)) ∨ (Rd h A i ∧ Wr h A j) →
    TransGen (predEdge (allT st)) j i

/-- Scenario 3 of the specification: `T0` writes `A`, `T1` reads `A`, `T2`
writes `A`. -/
def scenario3 : List task_s :=
  [⟨0, 0, [⟨7, OUT⟩]⟩, ⟨1, 0, [⟨7, IN⟩]⟩, ⟨2, 0, [⟨7, OUT⟩]⟩]

/-- Scenario 4 of the specification before its last submission: `T0` writes
`A`, `T1` and `T2` read `A`. -/
def scenario4_readers : List task_s :=
  [⟨0, 0, [⟨7, OUT⟩]⟩, ⟨1, 0, [⟨7, IN⟩]⟩, ⟨2, 0, [⟨7, IN⟩]⟩]

/-- One task body: the body of task `i` runs `f` on `params[i]`. -/
def body (g : TaskGraph) (s : RunState) (i : Nat) : RunState :=
  match g.tasks[i]? with
  | some t => f (mk_param t) s
  | none => s

/-- The successor edge that the log entry `e = (consumer, predecessor edge)`
contributes to task `q`: the consumer's own copy (`c_dep`) or the producer's
backward edge (`b_dep`). -/
def succ_of (q : Nat) (e : Nat × dep_i) : Option dep_i :=
  if e.1 = q then some ⟨0, e.2.type, e.2.dID, e.2.dID⟩
  else if e.2.task = q then some ⟨e.1, OUT, e.2.dID, e.2.dID⟩
  else none

/-- Invariant of the generator: the task vector is determined by the log `E`
of the edges created so far; `i` is the task being described and `todo` its
predecessor entries that are not filled in yet. -/
structure GInv (dep_r i : Nat) (todo : List dep_i) (tasks : List task_i) (D : Nat)
    (E : List (Nat × dep_i)) : Prop where
  ids : E.map (fun e => e.2.dID) = List.range D
  edge : ∀ e ∈ E, e.2.task < e.1 ∧ e.1 - dep_r ≤ e.2.task ∧ e.1 ≤ i ∧
    e.2.var = e.2.dID ∧ e.2.type < 2
  preds : ∀ (q : Nat) (tq : task_i), tasks[q]? = some tq →
    tq.predecessors =
      (E.filter (fun e => decide (e.1 = q))).map (fun e => e.2) ++ (if q = i then todo else [])
  succs : ∀ (q : Nat) (tq : task_i), tasks[q]? = some tq →
    tq.successors = E.filterMap (succ_of q)
  tid : ∀ (q : Nat) (tq : task_i), tasks[q]? = some tq → q ≤ i → tq.tID = q

/-- Invariant of `create_tasks` between two iterations: tasks `0 .. i` are
described, the counters agree with the log. -/
structure CInv (n i : Nat) (s : CreateState) (E : List (Nat × dep_i)) : Prop where
  ginv : GInv s.g.dep_r i [] s.g.tasks s.dep_id E
  len : s.g.tasks.length = n
  ntasks : s.g.ntasks = n
  ndeps : s.g.ndeps = s.dep_id
  nvar : s.g.nvar = s.g.ndeps

/-- A submission that names the same address twice: a write, then a read. -/
def write_then_read : List task_s := [⟨0, 0, [⟨100, OUT⟩, ⟨100, IN⟩]⟩]

/-- Three submissions: `T0` reads `A`, `T1` reads `B`, `T2` writes `B`; no
address has a writer before `T2`. -/
def readers_first : List task_s :=
  [⟨0, 0, [⟨100, IN⟩]⟩, ⟨1, 0, [⟨200, IN⟩]⟩, ⟨2, 0, [⟨200, OUT⟩]⟩]

/-- Draws for a three-task graph with `m = 1`, `d = 1`. -/
def draws3 : List Nat := [0, 5, 1, 7, 3, 1, 0, 9, 4, 0, 1]

/-- The chain `0 ← 1 ← 2` that `generate 3 1 1` builds from `draws3`. -/
def gen3 : TaskGraph :=
  { tasks :=
      [⟨[], [⟨1, OUT, 0, 0⟩], 0, 5⟩,
       ⟨[⟨0, IN, 0, 0⟩], [⟨0, IN, 0, 0⟩, ⟨2, OUT, 1, 1⟩], 1, -7⟩,
       ⟨[⟨1, IN, 1, 1⟩], [⟨0, IN, 1, 1⟩], 2, 9⟩]
    ntasks := 3
    ndeps := 2
    nvar := 2
    dep_r := 1
    exec_t := 1000000
    max_r := 1 / 4
    in_map := fun _ => none
    out_map := fun _ => none
    ll := [] }

/-- Further properties of the edge log kept by `create_tasks`: the log is
ordered by consumer, the producers of one consumer are pairwise distinct, and
every described task `1 .. i` has between `1` and `max 1 m` entries. -/
structure LInv (m i : Nat) (E : List (Nat × dep_i)) : Prop where
  sorted : E.Pairwise (fun a b => a.1 ≤ b.1)
  distinct : ∀ (q : Nat),
    ((E.filter (fun e => decide (e.1 = q))).map (fun e => e.2.task)).Nodup
  fanin : ∀ (q : Nat), 1 ≤ q → q ≤ i →
    1 ≤ (E.filter (fun e => decide (e.1 = q))).length ∧
    (E.filter (fun e => decide (e.1 = q))).length ≤ max 1 m

/-- Draws for a two-task graph. -/
def draws2 : List Nat := [0, 5, 1, 7, 3, 1]

/-- The graph that `generate 2 0 1` builds from `draws2`: with `m = 0` task 1
still has one predecessor. -/
def gen2_m0 : TaskGraph :=
  { tasks :=
      [⟨[], [⟨1, OUT, 0, 0⟩], 0, 5⟩,
       ⟨[⟨0, IN, 0, 0⟩], [⟨0, IN, 0, 0⟩], 1, -7⟩]
    ntasks := 2
    ndeps := 1
    nvar := 1
    dep_r := 1
    exec_t := 1000000
    max_r := 1 / 4
    in_map := fun _ => none
    out_map := fun _ => none
    ll := [] }

/-- Draws for a two-task graph whose only edge draws an even type. -/
def draws2_even : List Nat := [0, 5, 1, 7, 3, 0]

/-- Var-id invariant of the tracer: every edge carries a var id below `nvar`,
every value below `nvar` is carried by a successor edge, and `nvar ≤ ndeps`. -/
structure VInv (st : TaskGraph × task_i) : Prop where
  below : ∀ (q : Nat) (tq : task_i) (e : dep_i), (allT st)[q]? = some tq →
    e ∈ tq.predecessors ∨ e ∈ tq.successors → e.var < st.1.nvar
  used : ∀ (v : Nat), v < st.1.nvar →
    ∃ (q : Nat) (tq : task_i), (allT st)[q]? = some tq ∧ ∃ s ∈ tq.successors, s.var = v
  le : st.1.nvar ≤ st.1.ndeps

/-- A session that holds the generated graph `gen3`. -/
def lab3 : Lab := { Lab.new with tg := some gen3 }

/-- A runtime in which only `fork_call` does not resolve. -/
def env_no_fork : Bindings := ⟨false, true, true, true⟩

/-- A runtime in which the four entry points resolve. -/
def env_ok : Bindings := ⟨true, true, true, true⟩

/-- A session whose graph holds only low-level trace words. -/
def lab_ll : Lab := { Lab.new with tg := some { TaskGraph.empty with ll := [42] } }

/-- Events watched after a sequence of `watchEvent` calls on a session. -/
def watch_all (lab : Lab) (ks : List Nat) : Lab := ks.foldl watchEvent lab

/-- Draws for the three-task chain: fifteen zeros. -/
def draws_chain : List Nat := List.replicate 15 0

/-- States of the tracer that follow a given state: any number of records
processed and submissions finished after it. -/
inductive Steps : TaskGraph × task_i → TaskGraph × task_i → Prop
  | refl (st : TaskGraph × task_i) : Steps st st
  | step {st st1 : TaskGraph × task_i} (d : dep_s) : Steps st st1 → Steps st (add_dep st1 d)
  | next {st st1 : TaskGraph × task_i} :
      Steps st st1 → Steps st (push st1, new_f_t (push st1))

/-- Provenance of the hazard maps: the last writer of an address is a task
that has processed a writer record on it, and every reader in the reader set
of an address is a task that has processed an `IN` record on it. -/
structure MInv (h : List (List dep_s)) (st : TaskGraph × task_i) : Prop where
  out : ∀ (A : Nat) (w : dep_i), st.1.out_map A = some w → Wr h A w.task
  inn : ∀ (A : Nat) (rs : List dep_i) (r : dep_i), st.1.in_map A = some rs → r ∈ rs →
    Rd h A r.task

/-! ## Theorems -/

/-! ### Tracer: effect of one record -/

theorem readers_loop_eq (cur_mode wvar : Nat) (rs : List dep_i) (c : Nat) (preds : List dep_i) :
    readers_loop cur_mode wvar rs (c, preds) =
      (if rs = [] then c else wvar,
        preds ++ rs.map (fun r => (⟨r.task, cur_mode, r.dID, wvar⟩ : dep_i))) := by
  induction rs generalizing c preds with
  | nil => simp [readers_loop]
  | cons r rs ih =>
      simp only [readers_loop, ih, List.map_cons, List.append_assoc, List.singleton_append]
      by_cases h : rs = [] <;> simp [h]

theorem add_dep_fst (g : TaskGraph) (f_t : task_i) (d : dep_s) :
    (add_dep (g, f_t) d).1 =
      { g with
        ndeps := g.ndeps + 1
        nvar := if rec_var g d = g.nvar then g.nvar + 1 else g.nvar
        in_map := if d.mode ≠ IN then mapSet g.in_map d.varptr none
          else mapSet g.in_map d.varptr
            (some (((g.in_map d.varptr).getD []) ++ [⟨f_t.tID, d.mode, g.ndeps, rec_var g d⟩]))
        out_map := if d.mode ≠ IN then
            mapSet g.out_map d.varptr (some ⟨f_t.tID, d.mode, g.ndeps, rec_var g d⟩)
          else g.out_map } := by
  unfold add_dep rec_var
  by_cases hm : d.mode ≠ IN
  · simp only [hm, if_true]
    cases hi : g.in_map d.varptr with
    | none => cases ho : g.out_map d.varptr <;> simp [hm]
    | some rs =>
        cases rs with
        | nil => simp [readers_loop, hm]
        | cons r rs => cases ho : g.out_map d.varptr <;> simp [readers_loop_eq, hm]
  · simp only [hm, if_false]
    cases hi : g.in_map d.varptr <;> cases ho : g.out_map d.varptr <;> simp [hm]

theorem add_dep_snd (g : TaskGraph) (f_t : task_i) (d : dep_s) :
    (add_dep (g, f_t) d).2 =
      { f_t with
        predecessors := f_t.predecessors ++
          (hazard_srcs g d).map (fun r => (⟨r.task, d.mode, r.dID, rec_var g d⟩ : dep_i))
        successors := f_t.successors ++ [⟨0, d.mode, g.ndeps, rec_var g d⟩] } := by
  unfold add_dep rec_var hazard_srcs
  by_cases hm : d.mode ≠ IN
  · simp only [hm, if_true]
    cases hi : g.in_map d.varptr with
    | none => cases ho : g.out_map d.varptr <;> simp [hm]
    | some rs =>
        cases rs with
        | nil => simp [readers_loop, hm]
        | cons r rs => cases ho : g.out_map d.varptr <;> simp [readers_loop_eq, hm]
  · simp only [hm, if_false]
    cases hi : g.in_map d.varptr <;> cases ho : g.out_map d.varptr <;> simp [hm]

/-! ### Tracer: reachable states and the ownership invariant -/

theorem add_task_eq (g : TaskGraph) (t : task_s) :
    g.add_task t = push (add_deps g t.deparr) := rfl

theorem add_deps_snoc (g : TaskGraph) (recs : List dep_s) (d : dep_s) :
    add_deps g (recs ++ [d]) = add_dep (add_deps g recs) d := by
  simp [add_deps, List.foldl_append]

theorem trace_snoc (ts : List task_s) (t : task_s) :
    trace (ts ++ [t]) = (trace ts).add_task t := by
  simp [trace, List.foldl_append]

theorem reach_add_deps (ts : List task_s) (recs : List dep_s) :
    Reach (recs.reverse :: (ts.map (fun t => t.deparr.reverse)).reverse)
      (add_deps (trace ts) recs) := by
  induction ts using List.reverseRecOn generalizing recs with
  | nil =>
      induction recs using List.reverseRecOn with
      | nil => exact Reach.init
      | append_singleton recs d ih =>
          rw [add_deps_snoc, List.reverse_append]
          exact Reach.step d ih
  | append_singleton ts t iht =>
      induction recs using List.reverseRecOn with
      | nil =>
          have h := Reach.next (iht t.deparr)
          rw [trace_snoc, add_task_eq]
          simpa [add_deps] using h
      | append_singleton recs d ih =>
          rw [add_deps_snoc, List.reverse_append]
          exact Reach.step d ih

theorem getElem?_snoc_iff {α : Type} (l : List α) (x t : α) (q : Nat) :
    (l ++ [x])[q]? = some t ↔ l[q]? = some t ∨ (q = l.length ∧ x = t) := by
  rcases Nat.lt_trichotomy q l.length with h | h | h
  · rw [List.getElem?_append_left h]
    constructor
    · exact Or.inl
    · rintro (h1 | ⟨h1, _⟩)
      · exact h1
      · omega
  · subst h
    rw [List.getElem?_concat_length]
    constructor
    · intro h1; right; exact ⟨rfl, Option.some.inj h1⟩
    · rintro (h1 | ⟨_, h1⟩)
      · rw [List.getElem?_eq_none (le_refl _)] at h1; cases h1
      · rw [h1]
  · rw [List.getElem?_eq_none (by simp; omega)]
    constructor
    · intro h1; cases h1
    · rintro (h1 | ⟨h1, _⟩)
      · rw [List.getElem?_eq_none (by omega)] at h1; cases h1
      · omega

theorem hazard_srcs_mem (g : TaskGraph) (d : dep_s) (r : dep_i) (h : r ∈ hazard_srcs g d) :
    (∃ rs, g.in_map d.varptr = some rs ∧ r ∈ rs) ∨ g.out_map d.varptr = some r := by
  unfold hazard_srcs at h
  split at h
  · split at h
    · next rs hrs => exact Or.inl ⟨rs, hrs, h⟩
    · right; simpa [Option.mem_toList] using h
  · right; simpa [Option.mem_toList] using h

theorem rec_var_le (st : TaskGraph × task_i) (hI : TInv st) (d : dep_s) :
    rec_var st.1 d ≤ st.1.nvar := by
  unfold rec_var
  split
  · split
    · next rs hrs =>
        split
        · exact le_refl _
        · split
          · next w hw => exact le_of_lt (hI.out_var _ _ hw)
          · exact Nat.zero_le _
    · split
      · next w hw => exact le_of_lt (hI.out_var _ _ hw)
      · exact le_refl _
  · split
    · next w hw => exact le_of_lt (hI.out_var _ _ hw)
    · exact le_refl _

theorem Owned_step (g : TaskGraph) (f_t f_t' : task_i) (q k : Nat)
    (hsub : ∀ s ∈ f_t.successors, s ∈ f_t'.successors)
    (h : Owned (g.tasks ++ [f_t]) q k) : Owned (g.tasks ++ [f_t']) q k := by
  obtain ⟨tp, htp, s, hs, hk⟩ := h
  rcases (getElem?_snoc_iff _ _ _ _).1 htp with h1 | ⟨h1, h2⟩
  · exact ⟨tp, (getElem?_snoc_iff _ _ _ _).2 (Or.inl h1), s, hs, hk⟩
  · subst h2
    exact ⟨f_t', (getElem?_snoc_iff _ _ _ _).2 (Or.inr ⟨h1, rfl⟩), s, hsub s hs, hk⟩

theorem TInv_init : TInv (TaskGraph.empty, new_f_t TaskGraph.empty) := by
  refine ⟨rfl, ?_, ?_, ?_, ?_, ?_, ?_, ?_, ?_⟩
  · intro q tq h
    simp only [allT, TaskGraph.empty, TaskGraph.new, List.replicate, List.nil_append] at h
    cases q with
    | zero => simp [new_f_t] at h; rw [← h]
    | succ q => simp at h
  · intro A w h; simp [TaskGraph.empty, TaskGraph.new] at h
  · intro A rs h; simp [TaskGraph.empty, TaskGraph.new] at h
  · intro q tq s h hs
    simp only [allT, TaskGraph.empty, TaskGraph.new, List.replicate, List.nil_append] at h
    cases q with
    | zero => simp [new_f_t] at h; rw [← h] at hs; simp at hs
    | succ q => simp at h
  · intro q q' tq tq' s s' h _ hs
    simp only [allT, TaskGraph.empty, TaskGraph.new, List.replicate, List.nil_append] at h
    cases q with
    | zero => simp [new_f_t] at h; rw [← h] at hs; simp at hs
    | succ q => simp at h
  · intro q tq s h hs
    simp only [allT, TaskGraph.empty, TaskGraph.new, List.replicate, List.nil_append] at h
    cases q with
    | zero => simp [new_f_t] at h; rw [← h] at hs; simp at hs
    | succ q => simp at h
  · intro A w h; simp [TaskGraph.empty, TaskGraph.new] at h
  · intro A rs r h; simp [TaskGraph.empty, TaskGraph.new] at h

theorem add_dep_tasks (st : TaskGraph × task_i) (d : dep_s) :
    (add_dep st d).1.tasks = st.1.tasks := by
  obtain ⟨g, f_t⟩ := st; rw [add_dep_fst]

theorem add_dep_ntasks (st : TaskGraph × task_i) (d : dep_s) :
    (add_dep st d).1.ntasks = st.1.ntasks := by
  obtain ⟨g, f_t⟩ := st; rw [add_dep_fst]

theorem add_dep_ndeps (st : TaskGraph × task_i) (d : dep_s) :
    (add_dep st d).1.ndeps = st.1.ndeps + 1 := by
  obtain ⟨g, f_t⟩ := st; rw [add_dep_fst]

theorem add_dep_nvar (st : TaskGraph × task_i) (d : dep_s) :
    (add_dep st d).1.nvar =
      if rec_var st.1 d = st.1.nvar then st.1.nvar + 1 else st.1.nvar := by
  obtain ⟨g, f_t⟩ := st; rw [add_dep_fst]

theorem add_dep_in_map (st : TaskGraph × task_i) (d : dep_s) :
    (add_dep st d).1.in_map =
      if d.mode ≠ IN then mapSet st.1.in_map d.varptr none
      else mapSet st.1.in_map d.varptr
        (some (((st.1.in_map d.varptr).getD []) ++
          [⟨st.2.tID, d.mode, st.1.ndeps, rec_var st.1 d⟩])) := by
  obtain ⟨g, f_t⟩ := st; rw [add_dep_fst]

theorem add_dep_out_map (st : TaskGraph × task_i) (d : dep_s) :
    (add_dep st d).1.out_map =
      if d.mode ≠ IN then
        mapSet st.1.out_map d.varptr (some ⟨st.2.tID, d.mode, st.1.ndeps, rec_var st.1 d⟩)
      else st.1.out_map := by
  obtain ⟨g, f_t⟩ := st; rw [add_dep_fst]

theorem add_dep_successors (st : TaskGraph × task_i) (d : dep_s) :
    (add_dep st d).2.successors =
      st.2.successors ++ [⟨0, d.mode, st.1.ndeps, rec_var st.1 d⟩] := by
  obtain ⟨g, f_t⟩ := st; rw [add_dep_snd]

theorem add_dep_predecessors (st : TaskGraph × task_i) (d : dep_s) :
    (add_dep st d).2.predecessors =
      st.2.predecessors ++
        (hazard_srcs st.1 d).map (fun r => (⟨r.task, d.mode, r.dID, rec_var st.1 d⟩ : dep_i)) := by
  obtain ⟨g, f_t⟩ := st; rw [add_dep_snd]

theorem add_dep_tID (st : TaskGraph × task_i) (d : dep_s) :
    (add_dep st d).2.tID = st.2.tID := by
  obtain ⟨g, f_t⟩ := st; rw [add_dep_snd]

theorem allT_add_dep (st : TaskGraph × task_i) (d : dep_s) :
    allT (add_dep st d) = st.1.tasks ++ [(add_dep st d).2] := by
  simp [allT, add_dep_tasks]

theorem mapSet_eq_some {β : Type} (m : Nat → Option β) (k : Nat) (v : Option β) (a : Nat)
    (x : β) (h : mapSet m k v a = some x) : (a = k ∧ v = some x) ∨ (a ≠ k ∧ m a = some x) := by
  unfold mapSet at h
  by_cases hk : a = k
  · rw [if_pos hk] at h; exact Or.inl ⟨hk, h⟩
  · rw [if_neg hk] at h; exact Or.inr ⟨hk, h⟩

theorem f_t_last (st : TaskGraph × task_i) : (allT st)[st.1.tasks.length]? = some st.2 := by
  simp [allT]

theorem nvar_mono (st : TaskGraph × task_i) (d : dep_s) :
    st.1.nvar ≤ (add_dep st d).1.nvar := by
  rw [add_dep_nvar]; split <;> omega

theorem rec_var_lt (st : TaskGraph × task_i) (hI : TInv st) (d : dep_s) :
    rec_var st.1 d < (add_dep st d).1.nvar := by
  have h := rec_var_le st hI d
  rw [add_dep_nvar]; split <;> omega

theorem Owned_new (st : TaskGraph × task_i) (hI : TInv st) (d : dep_s) :
    Owned (allT (add_dep st d)) st.2.tID st.1.ndeps := by
  have ht : st.2.tID = st.1.tasks.length := hI.tid _ _ (f_t_last st)
  refine ⟨(add_dep st d).2, ?_, ⟨0, d.mode, st.1.ndeps, rec_var st.1 d⟩, ?_, rfl⟩
  · rw [allT_add_dep, ht]; simp
  · rw [add_dep_successors]; simp

theorem Owned_add_dep (st : TaskGraph × task_i) (d : dep_s) (q k : Nat)
    (h : Owned (allT st) q k) : Owned (allT (add_dep st d)) q k := by
  rw [allT_add_dep]
  refine Owned_step st.1 st.2 _ q k ?_ h
  intro s hs; rw [add_dep_successors]; simp [hs]

theorem TInv_step (st : TaskGraph × task_i) (d : dep_s) (hI : TInv st) :
    TInv (add_dep st d) := by
  have hlast := f_t_last st
  refine ⟨?_, ?_, ?_, ?_, ?_, ?_, ?_, ?_, ?_⟩
  · rw [add_dep_ntasks, add_dep_tasks]; exact hI.len
  · intro q tq h
    rw [allT_add_dep] at h
    rcases (getElem?_snoc_iff _ _ _ _).1 h with h1 | ⟨h1, h2⟩
    · exact hI.tid q tq ((getElem?_snoc_iff _ _ _ _).2 (Or.inl h1))
    · rw [← h2, add_dep_tID, h1]; exact hI.tid _ _ hlast
  · intro A w h
    rw [add_dep_out_map] at h
    split at h
    · rcases mapSet_eq_some _ _ _ _ _ h with ⟨_, h2⟩ | ⟨_, h2⟩
      · cases h2; exact rec_var_lt st hI d
      · exact lt_of_lt_of_le (hI.out_var A w h2) (nvar_mono st d)
    · exact lt_of_lt_of_le (hI.out_var A w h) (nvar_mono st d)
  · intro A rs h
    rw [add_dep_in_map] at h
    split at h
    · rcases mapSet_eq_some _ _ _ _ _ h with ⟨_, h2⟩ | ⟨_, h2⟩
      · cases h2
      · exact ⟨(hI.in_ne A rs h2).1, lt_of_lt_of_le (hI.in_ne A rs h2).2 (nvar_mono st d)⟩
    · rcases mapSet_eq_some _ _ _ _ _ h with ⟨_, h2⟩ | ⟨_, h2⟩
      · cases h2
        exact ⟨by simp, lt_of_le_of_lt (Nat.zero_le _) (rec_var_lt st hI d)⟩
      · exact ⟨(hI.in_ne A rs h2).1, lt_of_lt_of_le (hI.in_ne A rs h2).2 (nvar_mono st d)⟩
  · intro q tq s h hs
    rw [add_dep_ndeps]
    rw [allT_add_dep] at h
    rcases (getElem?_snoc_iff _ _ _ _).1 h with h1 | ⟨h1, h2⟩
    · exact Nat.lt_succ_of_lt
        (hI.succ_lt q tq s ((getElem?_snoc_iff _ _ _ _).2 (Or.inl h1)) hs)
    · rw [← h2, add_dep_successors, List.mem_append, List.mem_singleton] at hs
      rcases hs with hs | hs
      · exact Nat.lt_succ_of_lt (hI.succ_lt _ _ s hlast hs)
      · rw [hs]; exact Nat.lt_succ_self _
  · intro q q' tq tq' s s' h h' hs hs' he
    rw [allT_add_dep] at h h'
    rcases (getElem?_snoc_iff _ _ _ _).1 h with h1 | ⟨h1, h2⟩ <;>
      rcases (getElem?_snoc_iff _ _ _ _).1 h' with h1' | ⟨h1', h2'⟩
    · exact hI.succ_uniq q q' tq tq' s s' ((getElem?_snoc_iff _ _ _ _).2 (Or.inl h1))
        ((getElem?_snoc_iff _ _ _ _).2 (Or.inl h1')) hs hs' he
    · have hq := hI.succ_lt q tq s ((getElem?_snoc_iff _ _ _ _).2 (Or.inl h1)) hs
      rw [← h2', add_dep_successors, List.mem_append, List.mem_singleton] at hs'
      rcases hs' with hs' | hs'
      · rw [h1']
        exact hI.succ_uniq q _ tq st.2 s s' ((getElem?_snoc_iff _ _ _ _).2 (Or.inl h1))
          hlast hs hs' he
      · rw [hs'] at he; simp only at he; omega
    · have hq := hI.succ_lt q' tq' s' ((getElem?_snoc_iff _ _ _ _).2 (Or.inl h1')) hs'
      rw [← h2, add_dep_successors, List.mem_append, List.mem_singleton] at hs
      rcases hs with hs | hs
      · rw [h1]
        exact hI.succ_uniq _ q' st.2 tq' s s' hlast
          ((getElem?_snoc_iff _ _ _ _).2 (Or.inl h1')) hs hs' he
      · rw [hs] at he; simp only at he; omega
    · rw [h1, h1']
  · intro t tt e h he
    rw [allT_add_dep] at h
    rcases (getElem?_snoc_iff _ _ _ _).1 h with h1 | ⟨h1, h2⟩
    · exact Owned_add_dep st d _ _
        (hI.pred_own t tt e ((getElem?_snoc_iff _ _ _ _).2 (Or.inl h1)) he)
    · rw [← h2, add_dep_predecessors, List.mem_append, List.mem_map] at he
      rcases he with he | ⟨r, hr, he⟩
      · exact Owned_add_dep st d _ _ (hI.pred_own _ _ e hlast he)
      · rw [← he]
        rcases hazard_srcs_mem _ _ _ hr with ⟨rs, hrs, hmem⟩ | ho
        · exact Owned_add_dep st d _ _ (hI.in_own _ rs r hrs hmem)
        · exact Owned_add_dep st d _ _ (hI.out_own _ r ho)
  · intro A w h
    rw [add_dep_out_map] at h
    split at h
    · rcases mapSet_eq_some _ _ _ _ _ h with ⟨_, h2⟩ | ⟨_, h2⟩
      · cases h2; exact Owned_new st hI d
      · exact Owned_add_dep st d _ _ (hI.out_own A w h2)
    · exact Owned_add_dep st d _ _ (hI.out_own A w h)
  · intro A rs r h hr
    rw [add_dep_in_map] at h
    split at h
    · rcases mapSet_eq_some _ _ _ _ _ h with ⟨_, h2⟩ | ⟨_, h2⟩
      · cases h2
      · exact Owned_add_dep st d _ _ (hI.in_own A rs r h2 hr)
    · rcases mapSet_eq_some _ _ _ _ _ h with ⟨h1, h2⟩ | ⟨_, h2⟩
      · cases h2
        rw [List.mem_append, List.mem_singleton] at hr
        rcases hr with hr | hr
        · cases hi : st.1.in_map d.varptr with
          | none => rw [hi] at hr; simp at hr
          | some rs0 =>
              rw [hi] at hr
              exact Owned_add_dep st d _ _ (hI.in_own _ rs0 r hi hr)
        · rw [hr]; exact Owned_new st hI d
      · exact Owned_add_dep st d _ _ (hI.in_own A rs r h2 hr)

theorem TInv_next (st : TaskGraph × task_i) (hI : TInv st) :
    TInv (push st, new_f_t (push st)) := by
  have hall : allT (push st, new_f_t (push st)) = allT st ++ [new_f_t (push st)] := rfl
  have hlen : (allT st).length = st.1.ntasks + 1 := by simp [allT, hI.len]
  have hold : ∀ q k, Owned (allT st) q k → Owned (allT (push st, new_f_t (push st))) q k := by
    intro q k ⟨tp, htp, hs⟩
    exact ⟨tp, by rw [hall]; exact (getElem?_snoc_iff _ _ _ _).2 (Or.inl htp), hs⟩
  refine ⟨?_, ?_, ?_, ?_, ?_, ?_, ?_, ?_, ?_⟩
  · simp [push, hI.len]
  · intro q tq h
    rw [hall] at h
    rcases (getElem?_snoc_iff _ _ _ _).1 h with h1 | ⟨h1, h2⟩
    · exact hI.tid q tq h1
    · rw [← h2, h1, hlen]; rfl
  · exact hI.out_var
  · exact hI.in_ne
  · intro q tq s h hs
    rw [hall] at h
    rcases (getElem?_snoc_iff _ _ _ _).1 h with h1 | ⟨h1, h2⟩
    · exact hI.succ_lt q tq s h1 hs
    · rw [← h2] at hs; simp [new_f_t] at hs
  · intro q q' tq tq' s s' h h' hs hs' he
    rw [hall] at h h'
    rcases (getElem?_snoc_iff _ _ _ _).1 h with h1 | ⟨h1, h2⟩
    · rcases (getElem?_snoc_iff _ _ _ _).1 h' with h1' | ⟨h1', h2'⟩
      · exact hI.succ_uniq q q' tq tq' s s' h1 h1' hs hs' he
      · rw [← h2'] at hs'; simp [new_f_t] at hs'
    · rw [← h2] at hs; simp [new_f_t] at hs
  · intro t tt e h he
    rw [hall] at h
    rcases (getElem?_snoc_iff _ _ _ _).1 h with h1 | ⟨h1, h2⟩
    · exact hold _ _ (hI.pred_own t tt e h1 he)
    · rw [← h2] at he; simp [new_f_t] at he
  · intro A w h; exact hold _ _ (hI.out_own A w h)
  · intro A rs r h hr; exact hold _ _ (hI.in_own A rs r h hr)

theorem TInv_of_reach {h : List (List dep_s)} {st : TaskGraph × task_i}
    (hr : Reach h st) : TInv st := by
  induction hr with
  | init => exact TInv_init
  | step d _ ih => exact TInv_step _ d ih
  | next _ ih => exact TInv_next _ ih

/-! ### Tracer: reachability along predecessor edges -/

theorem recsOf_step (cur : List dep_s) (done : List (List dep_s)) (d : dep_s) (k : Nat) :
    recsOf ((d :: cur) :: done) k =
      if k = done.length then d :: recsOf (cur :: done) k else recsOf (cur :: done) k := by
  unfold recsOf
  simp only [List.reverse_cons, List.getD_eq_getElem?_getD]
  rcases Nat.lt_trichotomy k done.length with h | h | h
  · rw [if_neg (by omega), List.getElem?_append_left (by simpa using h),
      List.getElem?_append_left (by simpa using h)]
  · subst h
    have e : done.length = done.reverse.length := by simp
    rw [if_pos rfl]
    conv_lhs => rw [e, List.getElem?_concat_length]
    conv_rhs => rw [e, List.getElem?_concat_length]
    rfl
  · rw [if_neg (by omega), List.getElem?_eq_none (by simp; omega),
      List.getElem?_eq_none (by simp; omega)]

theorem recsOf_next (h : List (List dep_s)) (k : Nat) :
    recsOf ([] :: h) k = recsOf h k := by
  unfold recsOf
  simp only [List.reverse_cons, List.getD_eq_getElem?_getD]
  rcases Nat.lt_trichotomy k h.length with h1 | h1 | h1
  · rw [List.getElem?_append_left (by simpa using h1)]
  · subst h1
    have e : h.length = h.reverse.length := by simp
    conv_lhs => rw [e, List.getElem?_concat_length]
    rw [List.getElem?_eq_none (by simp)]
    rfl
  · rw [List.getElem?_eq_none (by simp; omega), List.getElem?_eq_none (by simp; omega)]

theorem recsOf_lt (h : List (List dep_s)) (k : Nat) (r : dep_s) (hr : r ∈ recsOf h k) :
    k < h.length := by
  by_contra hk
  unfold recsOf at hr
  rw [List.getD_eq_getElem?_getD, List.getElem?_eq_none (by simp; omega)] at hr
  simp at hr

theorem predEdge_snoc (T : List task_i) (x x' : task_i)
    (hsub : ∀ e ∈ x.predecessors, e ∈ x'.predecessors) (a b : Nat)
    (h : predEdge (T ++ [x]) a b) : predEdge (T ++ [x']) a b := by
  obtain ⟨tj, htj, e, he, hb⟩ := h
  rcases (getElem?_snoc_iff _ _ _ _).1 htj with h1 | ⟨h1, h2⟩
  · exact ⟨tj, (getElem?_snoc_iff _ _ _ _).2 (Or.inl h1), e, he, hb⟩
  · subst h2
    exact ⟨x', (getElem?_snoc_iff _ _ _ _).2 (Or.inr ⟨h1, rfl⟩), e, hsub e he, hb⟩

theorem predEdge_add_dep (st : TaskGraph × task_i) (d : dep_s) (a b : Nat)
    (h : predEdge (allT st) a b) : predEdge (allT (add_dep st d)) a b := by
  rw [allT_add_dep]
  refine predEdge_snoc st.1.tasks st.2 _ ?_ a b h
  intro e he; rw [add_dep_predecessors]; simp [he]

theorem predEdge_new (st : TaskGraph × task_i) (hI : TInv st) (d : dep_s) (r : dep_i)
    (hr : r ∈ hazard_srcs st.1 d) : predEdge (allT (add_dep st d)) st.2.tID r.task := by
  have ht : st.2.tID = st.1.tasks.length := hI.tid _ _ (f_t_last st)
  refine ⟨(add_dep st d).2, ?_, ⟨r.task, d.mode, r.dID, rec_var st.1 d⟩, ?_, rfl⟩
  · rw [allT_add_dep, ht]; simp
  · rw [add_dep_predecessors]
    exact List.mem_append_right _ (List.mem_map.2 ⟨r, hr, rfl⟩)

theorem RInv_init : RInv [[]] (TaskGraph.empty, new_f_t TaskGraph.empty) := by
  have hW : ∀ A k, ¬ Wr [[]] A k := by
    rintro A k ⟨r, hr, -⟩
    have := recsOf_lt _ _ _ hr
    simp at this; subst this; simp [recsOf] at hr
  have hR : ∀ A k, ¬ Rd [[]] A k := by
    rintro A k ⟨r, hr, -⟩
    have := recsOf_lt _ _ _ hr
    simp at this; subst this; simp [recsOf] at hr
  refine ⟨rfl, ?_, ?_, ?_, ?_⟩
  · intro A rs r w h; simp [TaskGraph.empty, TaskGraph.new] at h
  · intro A k h; exact absurd h (hW A k)
  · intro A k h; exact absurd h (hR A k)
  · rintro A i j - (⟨h, -⟩ | ⟨h, -⟩)
    · exact absurd h (hW A i)
    · exact absurd h (hR A i)

theorem RInv_next (h : List (List dep_s)) (st : TaskGraph × task_i) (hR : RInv h st) :
    RInv ([] :: h) (push st, new_f_t (push st)) := by
  have hall : allT (push st, new_f_t (push st)) = allT st ++ [new_f_t (push st)] := rfl
  have mono : ∀ a b, predEdge (allT st) a b →
      predEdge (allT (push st, new_f_t (push st))) a b := by
    rintro a b ⟨tj, htj, he⟩
    exact ⟨tj, by rw [hall]; exact (getElem?_snoc_iff _ _ _ _).2 (Or.inl htj), he⟩
  have hW : ∀ A k, Wr ([] :: h) A k → Wr h A k := by
    rintro A k ⟨r, hr, h2⟩; rw [recsOf_next] at hr; exact ⟨r, hr, h2⟩
  have hRd : ∀ A k, Rd ([] :: h) A k → Rd h A k := by
    rintro A k ⟨r, hr, h2⟩; rw [recsOf_next] at hr; exact ⟨r, hr, h2⟩
  refine ⟨?_, ?_, ?_, ?_, ?_⟩
  · simp [push, hR.hlen]
  · intro A rs r w h1 h2 h3
    exact ReflTransGen.mono mono (hR.rd A rs r w h1 h2 h3)
  · intro A k hk
    obtain ⟨w, hw, hp⟩ := hR.wr A k (hW A k hk)
    exact ⟨w, hw, ReflTransGen.mono mono hp⟩
  · intro A k hk
    rcases hR.re A k (hRd A k hk) with h1 | ⟨w, hw, hp⟩
    · exact Or.inl h1
    · exact Or.inr ⟨w, hw, ReflTransGen.mono mono hp⟩
  · intro A i j hij hh
    refine TransGen.mono mono (hR.haz A i j hij ?_)
    rcases hh with ⟨h1, h2 | h2⟩ | ⟨h1, h2⟩
    · exact Or.inl ⟨hW _ _ h1, Or.inl (hW _ _ h2)⟩
    · exact Or.inl ⟨hW _ _ h1, Or.inr (hRd _ _ h2)⟩
    · exact Or.inr ⟨hRd _ _ h1, hW _ _ h2⟩

theorem Wr_step (cur : List dep_s) (done : List (List dep_s)) (d : dep_s) (A k : Nat)
    (h : Wr ((d :: cur) :: done) A k) :
    Wr (cur :: done) A k ∨ (k = done.length ∧ d.varptr = A ∧ d.mode ≠ IN) := by
  obtain ⟨r, hr, hA, hm⟩ := h
  rw [recsOf_step] at hr
  split at hr
  · next hk =>
      rcases List.mem_cons.1 hr with h1 | h1
      · right; subst h1; exact ⟨hk, hA, hm⟩
      · left; exact ⟨r, h1, hA, hm⟩
  · left; exact ⟨r, hr, hA, hm⟩

theorem Rd_step (cur : List dep_s) (done : List (List dep_s)) (d : dep_s) (A k : Nat)
    (h : Rd ((d :: cur) :: done) A k) :
    Rd (cur :: done) A k ∨ (k = done.length ∧ d.varptr = A ∧ d.mode = IN) := by
  obtain ⟨r, hr, hA, hm⟩ := h
  rw [recsOf_step] at hr
  split at hr
  · next hk =>
      rcases List.mem_cons.1 hr with h1 | h1
      · right; subst h1; exact ⟨hk, hA, hm⟩
      · left; exact ⟨r, h1, hA, hm⟩
  · left; exact ⟨r, hr, hA, hm⟩

theorem Wr_le (h : List (List dep_s)) (A k : Nat) (hk : Wr h A k) : k < h.length := by
  obtain ⟨r, hr, -⟩ := hk; exact recsOf_lt h k r hr

theorem Rd_le (h : List (List dep_s)) (A k : Nat) (hk : Rd h A k) : k < h.length := by
  obtain ⟨r, hr, -⟩ := hk; exact recsOf_lt h k r hr

theorem RInv_step_writer (cur : List dep_s) (done : List (List dep_s))
    (st : TaskGraph × task_i) (d : dep_s) (hI : TInv st) (hR : RInv (cur :: done) st)
    (hm : d.mode ≠ IN) : RInv ((d :: cur) :: done) (add_dep st d) := by
  have hdl : done.length = st.1.tasks.length := by have := hR.hlen; simpa using this
  have ht : st.2.tID = done.length := (hI.tid _ _ (f_t_last st)).trans hdl.symm
  have mono := predEdge_add_dep st d
  have rmono : ∀ {a b}, ReflTransGen (predEdge (allT st)) a b →
      ReflTransGen (predEdge (allT (add_dep st d))) a b := fun h => ReflTransGen.mono mono h
  have hin : (add_dep st d).1.in_map = mapSet st.1.in_map d.varptr none := by
    rw [add_dep_in_map, if_pos hm]
  have hout : (add_dep st d).1.out_map = mapSet st.1.out_map d.varptr
      (some ⟨st.2.tID, d.mode, st.1.ndeps, rec_var st.1 d⟩) := by
    rw [add_dep_out_map, if_pos hm]
  have hsrc : ∀ rs, st.1.in_map d.varptr = some rs → hazard_srcs st.1 d = rs := by
    intro rs hrs; unfold hazard_srcs; rw [if_pos hm, hrs]
  have KEY : ∀ w, st.1.out_map d.varptr = some w →
      TransGen (predEdge (allT (add_dep st d))) st.2.tID w.task := by
    intro w hw
    cases hi : st.1.in_map d.varptr with
    | none =>
        refine TransGen.single (predEdge_new st hI d w ?_)
        unfold hazard_srcs; rw [if_pos hm, hi, hw]; simp
    | some rs =>
        obtain ⟨r, hr⟩ := List.exists_mem_of_ne_nil rs (hI.in_ne _ rs hi).1
        exact TransGen.head' (predEdge_new st hI d r (by rw [hsrc rs hi]; exact hr))
          (rmono (hR.rd _ rs r w hi hr hw))
  have hnew : (add_dep st d).1.out_map d.varptr =
      some ⟨st.2.tID, d.mode, st.1.ndeps, rec_var st.1 d⟩ := by
    rw [hout]; simp [mapSet]
  have hiW : ∀ A i, i < done.length → Wr ((d :: cur) :: done) A i → Wr (cur :: done) A i := by
    intro A i hi h
    rcases Wr_step _ _ _ _ _ h with h1 | ⟨h1, -⟩
    · exact h1
    · omega
  have hiR : ∀ A i, Rd ((d :: cur) :: done) A i → Rd (cur :: done) A i := by
    intro A i h
    rcases Rd_step _ _ _ _ _ h with h1 | ⟨-, -, h1⟩
    · exact h1
    · exact absurd h1 hm
  refine ⟨?_, ?_, ?_, ?_, ?_⟩
  · rw [add_dep_tasks]; simpa using hR.hlen
  · intro A rs r w h1 h2 h3
    rw [hin] at h1
    rcases mapSet_eq_some _ _ _ _ _ h1 with ⟨_, h⟩ | ⟨hne, h⟩
    · cases h
    · rw [hout] at h3
      unfold mapSet at h3; rw [if_neg hne] at h3
      exact rmono (hR.rd A rs r w h h2 h3)
  · intro A k hk
    by_cases hA : A = d.varptr
    · subst hA
      refine ⟨_, hnew, ?_⟩
      rcases Wr_step _ _ _ _ _ hk with hold | ⟨hk', -, -⟩
      · obtain ⟨w, hw, hp⟩ := hR.wr _ k hold
        exact (KEY w hw).to_reflTransGen.trans (rmono hp)
      · show ReflTransGen _ st.2.tID k
        rw [hk', ht]
    · rcases Wr_step _ _ _ _ _ hk with hold | ⟨-, h', -⟩
      · obtain ⟨w, hw, hp⟩ := hR.wr A k hold
        refine ⟨w, ?_, rmono hp⟩
        rw [hout]; unfold mapSet; rw [if_neg hA]; exact hw
      · exact absurd h'.symm hA
  · intro A k hk
    have hold := hiR A k hk
    by_cases hA : A = d.varptr
    · subst hA
      right
      refine ⟨_, hnew, ?_⟩
      show ReflTransGen _ st.2.tID k
      rcases hR.re _ k hold with ⟨rs, hrs, r, hr, hrk⟩ | ⟨w, hw, hp⟩
      · rw [← hrk]
        exact ReflTransGen.single (predEdge_new st hI d r (by rw [hsrc rs hrs]; exact hr))
      · exact (KEY w hw).to_reflTransGen.trans (rmono hp)
    · rcases hR.re A k hold with ⟨rs, hrs, hx⟩ | ⟨w, hw, hp⟩
      · left
        refine ⟨rs, ?_, hx⟩
        rw [hin]; unfold mapSet; rw [if_neg hA]; exact hrs
      · right
        refine ⟨w, ?_, rmono hp⟩
        rw [hout]; unfold mapSet; rw [if_neg hA]; exact hw
  · intro A i j hij hh
    have hjl : j ≤ done.length := by
      have : j < ((d :: cur) :: done).length := by
        rcases hh with ⟨-, h | h⟩ | ⟨-, h⟩
        · exact Wr_le _ _ _ h
        · exact Rd_le _ _ _ h
        · exact Wr_le _ _ _ h
      simpa [Nat.lt_succ_iff] using this
    have hil : i < done.length := by omega
    rcases hh with ⟨hi, hj | hj⟩ | ⟨hi, hj⟩
    · rcases Wr_step _ _ _ _ _ hj with hjo | ⟨hjt, hA, -⟩
      · exact TransGen.mono mono (hR.haz A i j hij (Or.inl ⟨hiW A i hil hi, Or.inl hjo⟩))
      · subst hA
        obtain ⟨w, hw, hp⟩ := hR.wr _ i (hiW _ i hil hi)
        rw [hjt, ← ht]
        exact (KEY w hw).trans_left (rmono hp)
    · exact TransGen.mono mono (hR.haz A i j hij (Or.inl ⟨hiW A i hil hi, Or.inr (hiR A j hj)⟩))
    · rcases Wr_step _ _ _ _ _ hj with hjo | ⟨hjt, hA, -⟩
      · exact TransGen.mono mono (hR.haz A i j hij (Or.inr ⟨hiR A i hi, hjo⟩))
      · subst hA
        rw [hjt, ← ht]
        rcases hR.re _ i (hiR _ i hi) with ⟨rs, hrs, r, hr, hrk⟩ | ⟨w, hw, hp⟩
        · rw [← hrk]
          exact TransGen.single (predEdge_new st hI d r (by rw [hsrc rs hrs]; exact hr))
        · exact (KEY w hw).trans_left (rmono hp)

theorem RInv_step_reader (cur : List dep_s) (done : List (List dep_s))
    (st : TaskGraph × task_i) (d : dep_s) (hI : TInv st) (hR : RInv (cur :: done) st)
    (hm : d.mode = IN) : RInv ((d :: cur) :: done) (add_dep st d) := by
  have hdl : done.length = st.1.tasks.length := by have := hR.hlen; simpa using this
  have ht : st.2.tID = done.length := (hI.tid _ _ (f_t_last st)).trans hdl.symm
  have mono := predEdge_add_dep st d
  have rmono : ∀ {a b}, ReflTransGen (predEdge (allT st)) a b →
      ReflTransGen (predEdge (allT (add_dep st d))) a b := fun h => ReflTransGen.mono mono h
  have hm' : ¬ d.mode ≠ IN := fun h => h hm
  have hin : (add_dep st d).1.in_map = mapSet st.1.in_map d.varptr
      (some (((st.1.in_map d.varptr).getD []) ++
        [⟨st.2.tID, d.mode, st.1.ndeps, rec_var st.1 d⟩])) := by
    rw [add_dep_in_map, if_neg hm']
  have hout : (add_dep st d).1.out_map = st.1.out_map := by
    rw [add_dep_out_map, if_neg hm']
  have EDGE : ∀ w, st.1.out_map d.varptr = some w →
      predEdge (allT (add_dep st d)) st.2.tID w.task := by
    intro w hw
    refine predEdge_new st hI d w ?_
    unfold hazard_srcs; rw [if_neg hm', hw]; simp
  have hnew : (add_dep st d).1.in_map d.varptr =
      some (((st.1.in_map d.varptr).getD []) ++
        [⟨st.2.tID, d.mode, st.1.ndeps, rec_var st.1 d⟩]) := by
    rw [hin]; simp [mapSet]
  have hiW : ∀ A i, Wr ((d :: cur) :: done) A i → Wr (cur :: done) A i := by
    intro A i h
    rcases Wr_step _ _ _ _ _ h with h1 | ⟨-, -, h1⟩
    · exact h1
    · exact absurd hm h1
  have hiR : ∀ A i, i < done.length → Rd ((d :: cur) :: done) A i → Rd (cur :: done) A i := by
    intro A i hi h
    rcases Rd_step _ _ _ _ _ h with h1 | ⟨h1, -⟩
    · exact h1
    · omega
  refine ⟨?_, ?_, ?_, ?_, ?_⟩
  · rw [add_dep_tasks]; simpa using hR.hlen
  · intro A rs r w h1 h2 h3
    rw [hout] at h3
    rw [hin] at h1
    rcases mapSet_eq_some _ _ _ _ _ h1 with ⟨hA, h⟩ | ⟨hne, h⟩
    · cases h
      subst hA
      rcases List.mem_append.1 h2 with hr | hr
      · cases hi : st.1.in_map d.varptr with
        | none => rw [hi] at hr; simp at hr
        | some rs0 =>
            rw [hi] at hr
            exact rmono (hR.rd _ rs0 r w hi hr h3)
      · rw [List.mem_singleton.1 hr]
        exact ReflTransGen.single (EDGE w h3)
    · exact rmono (hR.rd A rs r w h h2 h3)
  · intro A k hk
    obtain ⟨w, hw, hp⟩ := hR.wr A k (hiW A k hk)
    exact ⟨w, by rw [hout]; exact hw, rmono hp⟩
  · intro A k hk
    rcases Rd_step _ _ _ _ _ hk with hold | ⟨hk', hA, -⟩
    · rcases hR.re A k hold with ⟨rs, hrs, r, hr, hrk⟩ | ⟨w, hw, hp⟩
      · left
        by_cases hA : A = d.varptr
        · subst hA
          refine ⟨_, hnew, r, ?_, hrk⟩
          rw [hrs]; simp [hr]
        · exact ⟨rs, by rw [hin]; unfold mapSet; rw [if_neg hA]; exact hrs, r, hr, hrk⟩
      · right
        exact ⟨w, by rw [hout]; exact hw, rmono hp⟩
    · left
      subst hA
      refine ⟨_, hnew, ⟨st.2.tID, d.mode, st.1.ndeps, rec_var st.1 d⟩, by simp, ?_⟩
      show st.2.tID = k
      rw [hk', ht]
  · intro A i j hij hh
    have hjl : j ≤ done.length := by
      have : j < ((d :: cur) :: done).length := by
        rcases hh with ⟨-, h | h⟩ | ⟨-, h⟩
        · exact Wr_le _ _ _ h
        · exact Rd_le _ _ _ h
        · exact Wr_le _ _ _ h
      simpa [Nat.lt_succ_iff] using this
    have hil : i < done.length := by omega
    rcases hh with ⟨hi, hj | hj⟩ | ⟨hi, hj⟩
    · exact TransGen.mono mono (hR.haz A i j hij (Or.inl ⟨hiW A i hi, Or.inl (hiW A j hj)⟩))
    · rcases Rd_step _ _ _ _ _ hj with hjo | ⟨hjt, hA, -⟩
      · exact TransGen.mono mono (hR.haz A i j hij (Or.inl ⟨hiW A i hi, Or.inr hjo⟩))
      · subst hA
        obtain ⟨w, hw, hp⟩ := hR.wr _ i (hiW _ i hi)
        rw [hjt, ← ht]
        exact TransGen.head' (EDGE w hw) (rmono hp)
    · exact TransGen.mono mono (hR.haz A i j hij (Or.inr ⟨hiR A i hil hi, hiW A j hj⟩))

theorem RInv_of_reach {h : List (List dep_s)} {st : TaskGraph × task_i}
    (hr : Reach h st) : RInv h st := by
  induction hr with
  | init => exact RInv_init
  | @step cur done st d hprev ih =>
      by_cases hm : d.mode = IN
      · exact RInv_step_reader cur done st d (TInv_of_reach hprev) ih hm
      · exact RInv_step_writer cur done st d (TInv_of_reach hprev) ih hm
  | next _ ih => exact RInv_next _ _ ih

/-! ### Tracer: claims -/

theorem Owned_lt (st : TaskGraph × task_i) (hI : TInv st) (q k : Nat)
    (h : Owned (allT st) q k) : k < st.1.ndeps := by
  obtain ⟨tp, htp, s, hs, hk⟩ := h
  rw [← hk]; exact hI.succ_lt q tp s htp hs

/-- Reader entries and writer entries of the hazard maps never share a
dependency id. -/
theorem in_out_ne_of_reach {h : List (List dep_s)} {st : TaskGraph × task_i}
    (hr : Reach h st) :
    ∀ (A A' : Nat) (rs : List dep_i) (r w : dep_i), st.1.in_map A = some rs → r ∈ rs →
      st.1.out_map A' = some w → r.dID ≠ w.dID := by
  induction hr with
  | init => intro A A' rs r w h1; simp [TaskGraph.empty, TaskGraph.new] at h1
  | @step cur done st d hprev ih =>
      have hI := TInv_of_reach hprev
      intro A A' rs r w h1 h2 h3
      rw [add_dep_in_map] at h1
      rw [add_dep_out_map] at h3
      by_cases hm : d.mode ≠ IN
      · rw [if_pos hm] at h1 h3
        rcases mapSet_eq_some _ _ _ _ _ h1 with ⟨_, h⟩ | ⟨_, h⟩
        · cases h
        · have hlt := Owned_lt st hI _ _ (hI.in_own A rs r h h2)
          rcases mapSet_eq_some _ _ _ _ _ h3 with ⟨_, h'⟩ | ⟨_, h'⟩
          · cases h'; exact Nat.ne_of_lt hlt
          · exact ih A A' rs r w h h2 h'
      · rw [if_neg hm] at h1 h3
        have hlt := Owned_lt st hI _ _ (hI.out_own A' w h3)
        rcases mapSet_eq_some _ _ _ _ _ h1 with ⟨_, h⟩ | ⟨_, h⟩
        · cases h
          rcases List.mem_append.1 h2 with hr | hr
          · cases hi : st.1.in_map d.varptr with
            | none => rw [hi] at hr; simp at hr
            | some rs0 => rw [hi] at hr; exact ih _ A' rs0 r w hi hr h3
          · rw [List.mem_singleton.1 hr]; exact (Nat.ne_of_lt hlt).symm
        · exact ih A A' rs r w h h2 h3
  | next _ ih => exact ih

theorem add_deps_ntasks (g : TaskGraph) (recs : List dep_s) :
    (add_deps g recs).1.ntasks = g.ntasks := by
  induction recs using List.reverseRecOn with
  | nil => rfl
  | append_singleton recs d ih => rw [add_deps_snoc, add_dep_ntasks, ih]

theorem add_deps_tID (g : TaskGraph) (recs : List dep_s) :
    (add_deps g recs).2.tID = g.ntasks := by
  induction recs using List.reverseRecOn with
  | nil => rfl
  | append_singleton recs d ih => rw [add_deps_snoc, add_dep_tID, ih]

theorem add_deps_tasks (g : TaskGraph) (recs : List dep_s) :
    (add_deps g recs).1.tasks = g.tasks := by
  induction recs using List.reverseRecOn with
  | nil => rfl
  | append_singleton recs d ih => rw [add_deps_snoc, add_dep_tasks, ih]

/-- C1 (hazard soundness of the tracer): in the graph traced from any stream of
submissions, if tasks `i < j` both carry a record on the same `varptr` and at
least one of the two records is a writer (mode other than `IN`), then task `i`
is reachable from task `j` along predecessor edges. -/
theorem C1_hazard_soundness (ts : List task_s) (i j : Nat) (ti tj : task_s) (ri rj : dep_s)
    (hij : i < j) (hi : ts[i]? = some ti) (hj : ts[j]? = some tj)
    (hri : ri ∈ ti.deparr) (hrj : rj ∈ tj.deparr) (hA : ri.varptr = rj.varptr)
    (hw : ri.mode ≠ IN ∨ rj.mode ≠ IN) :
    TransGen (predEdge (trace ts).tasks) j i := by
  have hreach := reach_add_deps ts []
  have hR := RInv_of_reach hreach
  have hrec : ∀ (k : Nat) (tk : task_s) (r : dep_s), ts[k]? = some tk → r ∈ tk.deparr →
      r ∈ recsOf ([].reverse :: (ts.map (fun t => t.deparr.reverse)).reverse) k := by
    intro k tk r hk hr
    have hlt : k < ts.length := (List.getElem?_eq_some_iff.1 hk).1
    unfold recsOf
    simp only [List.reverse_cons, List.reverse_reverse, List.getD_eq_getElem?_getD]
    rw [List.getElem?_append_left (by simpa using hlt), List.getElem?_map, hk]
    simpa using hr
  have hfact : ∀ (k : Nat) (tk : task_s) (r : dep_s), ts[k]? = some tk → r ∈ tk.deparr →
      (r.mode ≠ IN → Wr ([].reverse :: (ts.map (fun t => t.deparr.reverse)).reverse) r.varptr k) ∧
      (r.mode = IN → Rd ([].reverse :: (ts.map (fun t => t.deparr.reverse)).reverse) r.varptr k) :=
    fun k tk r hk hr => ⟨fun hm => ⟨r, hrec k tk r hk hr, rfl, hm⟩,
      fun hm => ⟨r, hrec k tk r hk hr, rfl, hm⟩⟩
  have hfi := hfact i ti ri hi hri
  have hfj := hfact j tj rj hj hrj
  rw [← hA] at hfj
  have key : TransGen (predEdge (allT (add_deps (trace ts) []))) j i := by
    refine hR.haz ri.varptr i j hij ?_
    by_cases hmi : ri.mode = IN
    · rcases hw with h | h
      · exact absurd hmi h
      · exact Or.inr ⟨hfi.2 hmi, hfj.1 h⟩
    · by_cases hmj : rj.mode = IN
      · exact Or.inl ⟨hfi.1 hmi, Or.inr (hfj.2 hmj)⟩
      · exact Or.inl ⟨hfi.1 hmi, Or.inl (hfj.1 hmj)⟩
  refine TransGen.mono ?_ key
  rintro a b ⟨ta, hta, e, he, hb⟩
  rcases (getElem?_snoc_iff _ _ _ _).1 hta with h1 | ⟨-, h2⟩
  · exact ⟨ta, h1, e, he, hb⟩
  · rw [← h2] at he; simp [add_deps, new_f_t] at he

theorem C1_hazard_soundness_witness :
    (0 : Nat) < 2 ∧ TransGen (predEdge (trace scenario3).tasks) 2 0 :=
  ⟨by decide,
    C1_hazard_soundness scenario3 0 2 ⟨0, 0, [⟨7, OUT⟩]⟩ ⟨2, 0, [⟨7, OUT⟩]⟩ ⟨7, OUT⟩ ⟨7, OUT⟩
      (by decide) (by decide) (by decide) (by decide) (by decide) rfl (Or.inl (by decide))⟩

/-- C10 (var-id flow on reads): when `add_task` processes an `IN` record on an
address that has a last writer `w`, it appends exactly one predecessor edge,
which names `w`'s task id and dependency id and carries `w`'s var id; the
record's own successor edge carries the same var id; `nvar` is unchanged; and
the record is appended to the reader set of the address. -/
theorem C10_read_after_write (ts : List task_s) (recs : List dep_s) (d : dep_s) (w : dep_i)
    (hm : d.mode = IN)
    (hw : (add_deps (trace ts) recs).1.out_map d.varptr = some w) :
    (add_dep (add_deps (trace ts) recs) d).2.predecessors =
      (add_deps (trace ts) recs).2.predecessors ++ [⟨w.task, IN, w.dID, w.var⟩] ∧
    (add_dep (add_deps (trace ts) recs) d).2.successors =
      (add_deps (trace ts) recs).2.successors ++
        [⟨0, IN, (add_deps (trace ts) recs).1.ndeps, w.var⟩] ∧
    (add_dep (add_deps (trace ts) recs) d).1.nvar = (add_deps (trace ts) recs).1.nvar ∧
    (add_dep (add_deps (trace ts) recs) d).1.in_map d.varptr =
      some (((add_deps (trace ts) recs).1.in_map d.varptr).getD [] ++
        [⟨(trace ts).ntasks, IN, (add_deps (trace ts) recs).1.ndeps, w.var⟩]) := by
  have hreach := reach_add_deps ts recs
  have hI := TInv_of_reach hreach
  have hm' : ¬ d.mode ≠ IN := fun h => h hm
  have hv : rec_var (add_deps (trace ts) recs).1 d = w.var := by
    unfold rec_var; rw [if_neg hm', hw]
  have hlt := hI.out_var _ w hw
  refine ⟨?_, ?_, ?_, ?_⟩
  · rw [add_dep_predecessors, hv]
    unfold hazard_srcs; rw [if_neg hm', hw, hm]; rfl
  · rw [add_dep_successors, hv, hm]
  · rw [add_dep_nvar, hv, if_neg (Nat.ne_of_lt hlt)]
  · rw [add_dep_in_map, if_neg hm', hv, hm, add_deps_tID]; simp [mapSet]

theorem C10_read_after_write_witness :
    (add_deps (trace scenario4_readers) []).1.out_map 7 = some ⟨0, OUT, 0, 0⟩ ∧
    (add_dep (add_deps (trace scenario4_readers) []) ⟨7, IN⟩).2.predecessors =
      (add_deps (trace scenario4_readers) []).2.predecessors ++ [⟨0, IN, 0, 0⟩] :=
  ⟨by decide,
    (C10_read_after_write scenario4_readers [] ⟨7, IN⟩ ⟨0, OUT, 0, 0⟩ rfl (by decide)).1⟩

/-! ### Dispatcher: soundness and detection for one graph -/

theorem run_bodies_eq (g : TaskGraph) (order : List Nat) (s : RunState) :
    run_bodies g order s = order.foldl (body g) s := rfl

theorem check_preds_eq_true (dc : Nat → Bool) (ps : List Nat) :
    check_preds dc ps = true ↔ ∀ p ∈ ps, dc p = true := by
  induction ps with
  | nil => simp [check_preds]
  | cons p ps ih =>
      unfold check_preds
      by_cases h : dc p = true
      · simp [h, ih]
      · simp [h]

theorem set_succs_apply (cur : Bool) (ss : List Nat) (dc : Nat → Bool) (k : Nat) :
    set_succs cur ss dc k = if k ∈ ss then cur else dc k := by
  induction ss generalizing dc with
  | nil => simp [set_succs]
  | cons s ss ih =>
      unfold set_succs
      rw [ih]
      by_cases h1 : k ∈ ss
      · simp [h1]
      · by_cases h2 : k = s
        · simp [h1, h2]
        · simp [h1, h2]

theorem body_some (g : TaskGraph) (s : RunState) (i : Nat) (t : task_i)
    (h : g.tasks[i]? = some t) : body g s i = f (mk_param t) s := by
  unfold body; rw [h]

/-- Soundness of the verifier for one graph: if every predecessor edge names a
task that runs earlier and that owns the edge's `dep_chk` cell, every body
computes `cur = true`. -/
theorem run_sound_aux (g : TaskGraph) (order : List Nat)
    (Htid : ∀ (q : Nat) (tq : task_i), g.tasks[q]? = some tq → tq.tID = q)
    (Hpred : ∀ (t : Nat) (tt : task_i) (d : dep_i), g.tasks[t]? = some tt →
      d ∈ tt.predecessors → before order d.task t ∧
        ∃ tp, g.tasks[d.task]? = some tp ∧ d.dID ∈ tp.successors.map (fun e => e.dID)) :
    ∀ (rest done : List Nat) (s : RunState), order = done ++ rest →
      (∀ i ∈ rest, i < g.tasks.length) → s.r_error = false →
      s.curs = done.map (fun i => (i, true)) →
      (∀ q ∈ done, ∀ tq, g.tasks[q]? = some tq →
        ∀ k ∈ tq.successors.map (fun e => e.dID), s.dep_chk k = true) →
      (rest.foldl (body g) s).curs = order.map (fun i => (i, true)) ∧
      (rest.foldl (body g) s).r_error = false := by
  intro rest
  induction rest with
  | nil =>
      intro done s ho _ he hc _
      simp only [List.foldl_nil]
      rw [ho, List.append_nil]
      exact ⟨hc, he⟩
  | cons t rest ih =>
      intro done s ho hin he hc hdc
      have htl : t < g.tasks.length := hin t (List.mem_cons_self _ _)
      obtain ⟨tt, htt⟩ : ∃ tt, g.tasks[t]? = some tt :=
        ⟨g.tasks[t], List.getElem?_eq_getElem htl⟩
      have hcur : check_preds s.dep_chk (tt.predecessors.map (fun d => d.dID)) = true := by
        rw [check_preds_eq_true]
        intro p hp
        obtain ⟨d, hd, hdp⟩ := List.mem_map.1 hp
        obtain ⟨hb, tp, htp, hk⟩ := Hpred t tt d htt hd
        have hmem : d.task ∈ done := by
          by_contra hnot
          have h1 : List.indexOf d.task order = done.length + List.indexOf d.task (t :: rest) := by
            rw [ho]; exact List.indexOf_append_of_not_mem hnot
          have h2 : List.indexOf t order ≤ done.length := by
            rw [ho]
            by_cases htd : t ∈ done
            · rw [List.indexOf_append_of_mem htd]
              exact le_of_lt (List.indexOf_lt_length.2 htd)
            · rw [List.indexOf_append_of_not_mem htd, List.indexOf_cons_self]; simp
          unfold before at hb
          omega
        rw [← hdp]
        exact hdc d.task hmem tp htp d.dID hk
      simp only [List.foldl_cons]
      rw [body_some g s t tt htt]
      refine ih (done ++ [t]) (f (mk_param tt) s) (by rw [ho]; simp)
        (fun i hi => hin i (List.mem_cons_of_mem _ hi)) ?_ ?_ ?_
      · simp [f, mk_param, hcur, he]
      · simp [f, hcur, hc, mk_param, Htid t tt htt]
      · intro q hq tq htq k hk
        simp only [f, mk_param, hcur, set_succs_apply]
        split
        · rfl
        · rcases List.mem_append.1 hq with hq | hq
          · exact hdc q hq tq htq k hk
          · rw [List.mem_singleton.1 hq, htt] at htq
            cases htq
            next h => exact absurd hk h

theorem run_sound (g : TaskGraph) (order : List Nat)
    (Htid : ∀ (q : Nat) (tq : task_i), g.tasks[q]? = some tq → tq.tID = q)
    (Hin : ∀ i ∈ order, i < g.tasks.length)
    (Hpred : ∀ (t : Nat) (tt : task_i) (d : dep_i), g.tasks[t]? = some tt →
      d ∈ tt.predecessors → before order d.task t ∧
        ∃ tp, g.tasks[d.task]? = some tp ∧ d.dID ∈ tp.successors.map (fun e => e.dID)) :
    (run_bodies g order RunState.init).curs = order.map (fun i => (i, true)) ∧
    (run_bodies g order RunState.init).r_error = false := by
  rw [run_bodies_eq]
  exact run_sound_aux g order Htid Hpred order [] RunState.init rfl Hin rfl rfl
    (fun q hq => absurd hq (List.not_mem_nil q))

theorem written_by_executed (g : TaskGraph) (l : List Nat) (s : RunState) (k : Nat)
    (h : (l.foldl (body g) s).dep_chk k = true) :
    s.dep_chk k = true ∨
      ∃ q ∈ l, ∃ tq, g.tasks[q]? = some tq ∧ k ∈ tq.successors.map (fun e => e.dID) := by
  induction l generalizing s with
  | nil => exact Or.inl h
  | cons t l ih =>
      simp only [List.foldl_cons] at h
      rcases ih _ h with h1 | ⟨q, hq, tq, htq, hk⟩
      · cases htt : g.tasks[t]? with
        | none =>
            unfold body at h1; rw [htt] at h1
            exact Or.inl h1
        | some tt =>
            rw [body_some g s t tt htt] at h1
            simp only [f, set_succs_apply] at h1
            split at h1
            · next hmem => exact Or.inr ⟨t, List.mem_cons_self _ _, tt, htt, hmem⟩
            · exact Or.inl h1
      · exact Or.inr ⟨q, List.mem_cons_of_mem _ hq, tq, htq, hk⟩

theorem r_error_mono (g : TaskGraph) (l : List Nat) (s : RunState) (h : s.r_error = true) :
    (l.foldl (body g) s).r_error = true := by
  induction l generalizing s with
  | nil => exact h
  | cons t l ih =>
      simp only [List.foldl_cons]
      apply ih
      unfold body
      split
      · simp [f, h]
      · exact h

theorem curs_mono (g : TaskGraph) (l : List Nat) (s : RunState) (e : Nat × Bool)
    (h : e ∈ s.curs) : e ∈ (l.foldl (body g) s).curs := by
  induction l generalizing s with
  | nil => exact h
  | cons t l ih =>
      simp only [List.foldl_cons]
      apply ih
      unfold body
      split
      · simp [f, h]
      · exact h

/-- Detection by the verifier for one graph in which the `dep_chk` cell of an
edge is written only by the two endpoints of the edge: a consumer that runs
before its producer computes `cur = false`. -/
theorem run_detect (g : TaskGraph) (order : List Nat)
    (Htid : ∀ (q : Nat) (tq : task_i), g.tasks[q]? = some tq → tq.tID = q)
    (Hown : ∀ (q t : Nat) (tq tt : task_i) (d : dep_i), g.tasks[t]? = some tt →
      d ∈ tt.predecessors → g.tasks[q]? = some tq →
      d.dID ∈ tq.successors.map (fun e => e.dID) → q = t ∨ q = d.task)
    (t : Nat) (tt : task_i) (d : dep_i) (ht : g.tasks[t]? = some tt)
    (hd : d ∈ tt.predecessors) (hb : before order t d.task) :
    (t, false) ∈ (run_bodies g order RunState.init).curs ∧
    (run_bodies g order RunState.init).r_error = true := by
  unfold before at hb
  have htmem : t ∈ order :=
    List.indexOf_lt_length.1 (lt_of_lt_of_le hb List.indexOf_le_length)
  obtain ⟨l1, l2, ho, hnot⟩ := List.eq_append_cons_of_mem htmem
  have hit : List.indexOf t order = l1.length := by
    rw [ho, List.indexOf_append_of_not_mem hnot, List.indexOf_cons_self]; simp
  have hp : d.task ∉ l1 := by
    intro hmem
    have : List.indexOf d.task order < l1.length := by
      rw [ho, List.indexOf_append_of_mem hmem]
      exact List.indexOf_lt_length.2 hmem
    omega
  have hfalse : (l1.foldl (body g) RunState.init).dep_chk d.dID = false := by
    cases hv : (l1.foldl (body g) RunState.init).dep_chk d.dID with
    | false => rfl
    | true =>
        exfalso
        rcases written_by_executed g l1 RunState.init d.dID hv with h1 | ⟨q, hq, tq, htq, hk⟩
        · simp [RunState.init] at h1
        · rcases Hown q t tq tt d ht hd htq hk with h2 | h2
          · exact hnot (h2 ▸ hq)
          · exact hp (h2 ▸ hq)
  have hcur : check_preds (l1.foldl (body g) RunState.init).dep_chk
      (tt.predecessors.map (fun d => d.dID)) = false := by
    cases hc : check_preds (l1.foldl (body g) RunState.init).dep_chk
      (tt.predecessors.map (fun d => d.dID)) with
    | false => rfl
    | true =>
        rw [check_preds_eq_true] at hc
        have := hc d.dID (List.mem_map.2 ⟨d, hd, rfl⟩)
        rw [hfalse] at this; cases this
  rw [run_bodies_eq, ho, List.foldl_append, List.foldl_cons, body_some g _ t tt ht]
  constructor
  · apply curs_mono
    simp [f, hcur, mk_param, Htid t tt ht]
  · apply r_error_mono
    simp [f, mk_param, hcur]

/-! ### Dispatcher: the conflict test -/

/-- The test `conflict` is the condition on var ids: the parameter slot (slot 0)
is never an output slot and never shares its address with a variable slot. -/
theorem conflict_iff (a b : task_i) :
    conflict a b = true ↔
      ∃ x ∈ a.successors, ∃ y ∈ b.successors,
        x.var = y.var ∧ (x.type ≠ IN ∨ y.type ≠ IN) := by
  unfold conflict dep_list
  simp only [List.any_eq_true, Bool.and_eq_true, Bool.or_eq_true, decide_eq_true_eq,
    List.mem_cons, List.mem_map]
  constructor
  · rintro ⟨sx, hsx, sy, hsy, he, ho⟩
    rcases hsx with hsx | ⟨x, hx, hsx⟩ <;> rcases hsy with hsy | ⟨y, hy, hsy⟩
    · subst hsx hsy; simp at ho
    · subst hsx hsy; simp at he
    · subst hsx hsy; simp at he
    · subst hsx hsy
      simp only [Addr.varptr.injEq, bne_iff_ne, ne_eq] at he ho
      exact ⟨x, hx, y, hy, he, ho⟩
  · rintro ⟨x, hx, y, hy, h1, h2⟩
    refine ⟨_, Or.inr ⟨x, hx, rfl⟩, _, Or.inr ⟨y, hy, rfl⟩, ?_, ?_⟩
    · simp [h1]
    · simpa using h2

/-! ### Generator: the edge log -/

theorem pick_task_spec (min max : Nat) (results draws rest : List Nat) (c : Nat)
    (hw : max - min ≠ 0) (h : pick_task min max results draws = some (c, rest)) :
    min ≤ c ∧ c < max ∧ c ∉ results := by
  induction draws with
  | nil => simp [pick_task] at h
  | cons r rs ih =>
      unfold pick_task at h
      simp only at h
      split at h
      · exact ih h
      · next hnot =>
          simp only [Option.some.injEq, Prod.mk.injEq] at h
          obtain ⟨hc, -⟩ := h
          subst hc
          have := Nat.mod_lt r (Nat.pos_of_ne_zero hw)
          exact ⟨Nat.le_add_right _ _, by omega, hnot⟩

theorem range_min_eq (dep_r i : Nat) : range_min dep_r i = i - dep_r := by
  unfold range_min; split <;> omega

theorem range_max_eq (dep_r i : Nat) : range_max dep_r i = i := by
  unfold range_max; rw [range_min_eq]; split <;> omega

theorem GInv_describe_step (dep_r i p ty D : Nat) (todo done : List dep_i) (x : dep_i)
    (tasks : List task_i) (E : List (Nat × dep_i))
    (hI : GInv dep_r i (x :: todo) tasks D E)
    (hdone : done = (E.filter (fun e => decide (e.1 = i))).map (fun e => e.2))
    (hp1 : p < i) (hp2 : i - dep_r ≤ p) (hty : ty < 2) :
    GInv dep_r i todo
      ((tasks.modify (fun t => { t with
            predecessors := done ++ (⟨p, ty, D, D⟩ : dep_i) :: todo
            successors := t.successors ++ [⟨0, ty, D, D⟩] }) i).modify
        (fun t => { t with successors := t.successors ++ [⟨i, OUT, D, D⟩] }) p)
      (D + 1) (E ++ [(i, ⟨p, ty, D, D⟩)]) := by
  have hpi : p ≠ i := Nat.ne_of_lt hp1
  refine ⟨?_, ?_, ?_, ?_, ?_⟩
  · rw [List.map_append, hI.ids, List.range_succ]; rfl
  · intro e he
    rcases List.mem_append.1 he with he | he
    · exact hI.edge e he
    · rw [List.mem_singleton.1 he]
      exact ⟨hp1, hp2, le_refl _, rfl, hty⟩
  · intro q tq hq
    rw [List.getElem?_modify, List.getElem?_modify] at hq
    cases h0 : tasks[q]? with
    | none => rw [h0] at hq; simp at hq
    | some t0 =>
        rw [h0] at hq
        simp only [Option.map_eq_map, Option.map_some', Option.some.injEq] at hq
        have hp0 := hI.preds q t0 h0
        by_cases hqi : q = i
        · subst hqi
          rw [if_neg hpi, if_pos rfl] at hq
          rw [← hq]
          simp [List.filter_append, hdone]
        · have hiq : ¬ i = q := fun h => hqi h.symm
          rw [if_neg hiq] at hq
          rw [if_neg hqi] at hp0
          have : tq.predecessors = t0.predecessors := by
            rw [← hq]; split <;> rfl
          rw [this, hp0]
          simp [List.filter_append, hiq, hqi]
  · intro q tq hq
    rw [List.getElem?_modify, List.getElem?_modify] at hq
    cases h0 : tasks[q]? with
    | none => rw [h0] at hq; simp at hq
    | some t0 =>
        rw [h0] at hq
        simp only [Option.map_eq_map, Option.map_some', Option.some.injEq] at hq
        have hs0 := hI.succs q t0 h0
        by_cases hqi : q = i
        · subst hqi
          rw [if_neg hpi, if_pos rfl] at hq
          rw [← hq]
          simp [List.filterMap_append, succ_of, hs0]
        · have hiq : ¬ i = q := fun h => hqi h.symm
          rw [if_neg hiq] at hq
          by_cases hpq : p = q
          · rw [if_pos hpq] at hq
            rw [← hq]
            simp [List.filterMap_append, succ_of, hs0, hiq, hpq]
          · rw [if_neg hpq] at hq
            rw [← hq]
            simp [List.filterMap_append, succ_of, hs0, hiq, hpq]
  · intro q tq hq hle
    rw [List.getElem?_modify, List.getElem?_modify] at hq
    cases h0 : tasks[q]? with
    | none => rw [h0] at hq; simp at hq
    | some t0 =>
        rw [h0] at hq
        simp only [Option.map_eq_map, Option.map_some', Option.some.injEq] at hq
        have ht0 := hI.tid q t0 h0 hle
        rw [← hq, ← ht0]
        split <;> split <;> rfl

theorem describe_loop_inv (dep_r i min max : Nat) (hmin : i - dep_r ≤ min) (hmax : max ≤ i) :
    ∀ (todo done : List dep_i) (results : List Nat) (s s' : GenState) (E : List (Nat × dep_i)),
      describe_loop i min max todo done results s = some s' →
      GInv dep_r i todo s.tasks s.dep_id E →
      done = (E.filter (fun e => decide (e.1 = i))).map (fun e => e.2) →
      ∃ E', GInv dep_r i [] s'.tasks s'.dep_id E' ∧ s'.tasks.length = s.tasks.length ∧
        s'.dep_id = s.dep_id + todo.length := by
  intro todo
  induction todo with
  | nil =>
      intro done results s s' E h hI _
      simp only [describe_loop, Option.some.injEq] at h
      subst h
      exact ⟨E, hI, rfl, rfl⟩
  | cons x todo ih =>
      intro done results s s' E h hI hdone
      unfold describe_loop at h
      split at h
      · cases h
      · next hw =>
          split at h
          · cases h
          · next p draws1 hpick =>
              split at h
              · cases h
              · next r draws2 hrand =>
                  obtain ⟨hp1, hp2, -⟩ := pick_task_spec min max results s.draws draws1 p hw hpick
                  have hstep := GInv_describe_step dep_r i p (r % 2) s.dep_id todo done x
                    s.tasks E hI hdone (by omega) (by omega) (Nat.mod_lt _ (by decide))
                  obtain ⟨E', hE', hlen, hid⟩ := ih _ _ _ _ _ h hstep (by
                    simp [List.filter_append, hdone])
                  refine ⟨E', hE', ?_, ?_⟩
                  · rw [hlen]; simp
                  · rw [hid]; simp; omega

theorem resize_nil (n : Nat) : resize [] n = List.replicate n ⟨0, 0, 0, 0⟩ := by
  simp [resize]

theorem create_step_inv (max_dep n i : Nat) (s s' : CreateState) (E : List (Nat × dep_i))
    (hi : i + 1 < n) (h : create_step max_dep (i + 1) s = some s') (hI : CInv n i s E) :
    ∃ E', CInv n (i + 1) s' E' ∧ s'.g.dep_r = s.g.dep_r := by
  unfold create_step at h
  simp only at h
  split at h
  · cases h
  · next e d1 hexec =>
      split at h
      · cases h
      · next npred d2 hnp =>
          split at h
          · cases h
          · next s1 hdesc =>
              simp only [Option.some.injEq] at h
              subst h
              unfold describe_deps at hdesc
              simp only at hdesc
              have hlt : i + 1 < s.g.tasks.length := by rw [hI.len]; exact hi
              obtain ⟨t0, ht0⟩ : ∃ t0, s.g.tasks[i + 1]? = some t0 :=
                ⟨s.g.tasks[i + 1], List.getElem?_eq_getElem hlt⟩
              have hnone : ∀ e ∈ E, ¬ e.1 = i + 1 := by
                intro e he h1
                have := (hI.ginv.edge e he).2.2.1
                omega
              have hfil : E.filter (fun e => decide (e.1 = i + 1)) = [] := by
                rw [List.filter_eq_nil_iff]
                intro e he; simpa using hnone e he
              have hp0 : t0.predecessors = [] := by
                have := hI.ginv.preds (i + 1) t0 ht0
                rw [if_neg (by omega)] at this
                have hf0 : E.filter (fun e => decide (e.1 = i + 1)) = [] := hfil
                rw [this, hf0]; rfl
              have hget : (s.g.tasks.modify
                    (fun t => { t with tID := i + 1, exec := e,
                                       predecessors := resize t.predecessors npred })
                    (i + 1))[i + 1]? =
                  some { t0 with tID := i + 1, exec := e,
                                 predecessors := List.replicate npred ⟨0, 0, 0, 0⟩ } := by
                rw [List.getElem?_modify_eq, ht0]
                simp only [Option.map_eq_map, Option.map_some', hp0, resize_nil]
              rw [hget] at hdesc
              simp only at hdesc
              have hG : GInv s.g.dep_r (i + 1) (List.replicate npred ⟨0, 0, 0, 0⟩)
                  (s.g.tasks.modify
                    (fun t => { t with tID := i + 1, exec := e,
                                       predecessors := resize t.predecessors npred })
                    (i + 1)) s.dep_id E := by
                refine ⟨hI.ginv.ids, ?_, ?_, ?_, ?_⟩
                · intro e he
                  obtain ⟨h1, h2, h3, h4⟩ := hI.ginv.edge e he
                  exact ⟨h1, h2, by omega, h4⟩
                · intro q tq hq
                  rw [List.getElem?_modify] at hq
                  cases h0 : s.g.tasks[q]? with
                  | none => rw [h0] at hq; simp at hq
                  | some tq0 =>
                      rw [h0] at hq
                      simp only [Option.map_eq_map, Option.map_some', Option.some.injEq] at hq
                      by_cases hq1 : q = i + 1
                      · subst hq1
                        rw [ht0] at h0; cases h0
                        rw [if_pos rfl] at hq
                        rw [← hq, if_pos rfl, hfil, hp0, resize_nil]; rfl
                      · rw [if_neg (fun h => hq1 h.symm)] at hq
                        have := hI.ginv.preds q tq0 h0
                        rw [← hq, if_neg hq1, this]
                        by_cases hq2 : q = i
                        · rw [if_pos hq2]
                        · rw [if_neg hq2]
                · intro q tq hq
                  rw [List.getElem?_modify] at hq
                  cases h0 : s.g.tasks[q]? with
                  | none => rw [h0] at hq; simp at hq
                  | some tq0 =>
                      rw [h0] at hq
                      simp only [Option.map_eq_map, Option.map_some', Option.some.injEq] at hq
                      rw [← hq, ← hI.ginv.succs q tq0 h0]
                      split <;> rfl
                · intro q tq hq hle
                  rw [List.getElem?_modify] at hq
                  cases h0 : s.g.tasks[q]? with
                  | none => rw [h0] at hq; simp at hq
                  | some tq0 =>
                      rw [h0] at hq
                      simp only [Option.map_eq_map, Option.map_some', Option.some.injEq] at hq
                      by_cases hq1 : q = i + 1
                      · rw [if_pos hq1.symm] at hq
                        rw [← hq, hq1]
                      · rw [if_neg (fun h => hq1 h.symm)] at hq
                        rw [← hq]
                        exact hI.ginv.tid q tq0 h0 (by omega)
              obtain ⟨E', hE', hlen, hid⟩ := describe_loop_inv s.g.dep_r (i + 1)
                (range_min s.g.dep_r (i + 1)) (range_max s.g.dep_r (i + 1))
                (by rw [range_min_eq]) (by rw [range_max_eq]) _ [] [] _ s1 E hdesc hG
                (by rw [hfil]; rfl)
              refine ⟨E', ⟨hE', ?_, hI.ntasks, ?_, rfl⟩, rfl⟩
              · show s1.tasks.length = n
                rw [hlen]; simp [hI.len]
              · show s.g.ndeps + npred = s1.dep_id
                rw [hid, hI.ndeps]; simp

theorem create_loop_inv (max_dep n : Nat) :
    ∀ (k i : Nat) (s s' : CreateState) (E : List (Nat × dep_i)), i + k + 1 = n →
      create_loop max_dep k (i + 1) s = some s' → CInv n i s E →
      ∃ E', CInv n (n - 1) s' E' ∧ s'.g.dep_r = s.g.dep_r := by
  intro k
  induction k with
  | zero =>
      intro i s s' E hn h hI
      simp only [create_loop, Option.some.injEq] at h
      subst h
      have : n - 1 = i := by omega
      rw [this]
      exact ⟨E, hI, rfl⟩
  | succ k ih =>
      intro i s s' E hn h hI
      unfold create_loop at h
      split at h
      · cases h
      · next s1 hs1 =>
          obtain ⟨E1, hI1, hd1⟩ := create_step_inv max_dep n i s s1 E (by omega) hs1 hI
          obtain ⟨E', hI', hd'⟩ := ih (i + 1) s1 s' E1 (by omega) h hI1
          exact ⟨E', hI', hd'.trans hd1⟩

/-- What `generate` builds: a task vector described by an edge log. -/
theorem generate_inv (n m d t : Nat) (r : ℚ) (draws : List Nat) (g : TaskGraph)
    (h : generate n m d t r draws = some g) :
    ∃ E, GInv d (n - 1) [] g.tasks g.ndeps E ∧ g.tasks.length = n ∧ g.ntasks = n ∧
      g.nvar = g.ndeps ∧ g.dep_r = d ∧ 1 ≤ n := by
  unfold generate TaskGraph.create_tasks at h
  cases n with
  | zero => simp [TaskGraph.new] at h
  | succ n =>
      simp only [TaskGraph.new, List.replicate_succ] at h
      split at h
      · cases h
      · next e d1 hexec =>
          split at h
          · cases h
          · next s hs =>
              simp only [Option.some.injEq] at h
              subst h
              have h0 : CInv (n + 1) 0 ⟨{ (TaskGraph.new (n + 1) d t r) with
                  tasks := (task_i.zero :: List.replicate n task_i.zero).modify
                    (fun t => { t with tID := 0, exec := e }) 0 }, 0, d1⟩ [] := by
                refine ⟨⟨rfl, ?_, ?_, ?_, ?_⟩, ?_, rfl, rfl, rfl⟩
                · intro e he; simp at he
                · intro q tq hq
                  cases q with
                  | zero =>
                      simp [task_i.zero] at hq
                      rw [← hq]; rfl
                  | succ q =>
                      simp only [List.modify, List.modifyHead, List.modifyTailIdx,
                        List.getElem?_cons_succ] at hq
                      rw [List.getElem?_replicate] at hq
                      split at hq
                      · rw [← Option.some.inj hq]; simp [task_i.zero]
                      · cases hq
                · intro q tq hq
                  cases q with
                  | zero =>
                      simp [task_i.zero] at hq
                      rw [← hq]; rfl
                  | succ q =>
                      simp only [List.modify, List.modifyHead, List.modifyTailIdx,
                        List.getElem?_cons_succ] at hq
                      rw [List.getElem?_replicate] at hq
                      split at hq
                      · rw [← Option.some.inj hq]; simp [task_i.zero]
                      · cases hq
                · intro q tq hq hle
                  have : q = 0 := by omega
                  subst this
                  simp [task_i.zero] at hq
                  rw [← hq]
                · simp
              obtain ⟨E', hI', hd'⟩ := create_loop_inv m (n + 1) n 0 _ s [] (by omega) hs h0
              refine ⟨E', ?_, hI'.len, hI'.ntasks, hI'.nvar, hd', by omega⟩
              have hg := hI'.ginv
              rw [hd', hI'.ndeps.symm] at hg
              exact hg

/-! ### Generator and dispatcher: claims -/

theorem log_nodup (dep_r i D : Nat) (tasks : List task_i) (E : List (Nat × dep_i))
    (hI : GInv dep_r i [] tasks D E) : (E.map (fun e => e.2.dID)).Nodup := by
  rw [hI.ids]; exact List.nodup_range D

theorem log_inj (E : List (Nat × dep_i)) (hnd : (E.map (fun e => e.2.dID)).Nodup)
    (e e' : Nat × dep_i) (he : e ∈ E) (he' : e' ∈ E) (h : e.2.dID = e'.2.dID) : e = e' :=
  List.inj_on_of_nodup_map hnd he he' h

theorem pred_mem_log (dep_r i D : Nat) (tasks : List task_i) (E : List (Nat × dep_i))
    (hI : GInv dep_r i [] tasks D E) (q : Nat) (tq : task_i) (d : dep_i)
    (hq : tasks[q]? = some tq) (hd : d ∈ tq.predecessors) : (q, d) ∈ E := by
  rw [hI.preds q tq hq] at hd
  simp only [ite_self, List.append_nil, List.mem_map, List.mem_filter,
    decide_eq_true_eq] at hd
  obtain ⟨e, ⟨he, hq1⟩, hd1⟩ := hd
  have : e = (q, d) := by rw [← hq1, ← hd1]
  rw [← this]; exact he

theorem succ_of_dID (q : Nat) (e : Nat × dep_i) (x : dep_i) (h : succ_of q e = some x) :
    x.dID = e.2.dID ∧ (e.1 = q ∨ e.2.task = q) := by
  unfold succ_of at h
  split at h
  · next h1 => cases h; exact ⟨rfl, Or.inl h1⟩
  · split at h
    · next h2 => cases h; exact ⟨rfl, Or.inr h2⟩
    · cases h

theorem filterMap_filter_unique (E : List (Nat × dep_i)) (q : Nat)
    (hnd : (E.map (fun e => e.2.dID)).Nodup) (e : Nat × dep_i) (he : e ∈ E) :
    (E.filterMap (succ_of q)).filter (fun s => decide (s.dID = e.2.dID)) =
      (succ_of q e).toList := by
  induction E with
  | nil => simp at he
  | cons a E ih =>
      simp only [List.map_cons, List.nodup_cons, List.mem_map, not_exists, not_and] at hnd
      obtain ⟨hna, hnd'⟩ := hnd
      have hrest : ∀ e' ∈ E, e'.2.dID = a.2.dID → False := fun e' he' h => hna e' he' h
      rcases List.mem_cons.1 he with hea | hea
      · subst hea
        have htail : (E.filterMap (succ_of q)).filter (fun s => decide (s.dID = e.2.dID)) = [] := by
          rw [List.filter_eq_nil_iff]
          intro s hs
          obtain ⟨e', he', hse'⟩ := List.mem_filterMap.1 hs
          have := (succ_of_dID q e' s hse').1
          simp only [decide_eq_true_eq]
          intro h1
          exact hrest e' he' (by rw [← this, h1])
        cases hso : succ_of q e with
        | none => simp [List.filterMap_cons, hso, htail]
        | some x =>
            have := (succ_of_dID q e x hso).1
            simp [List.filterMap_cons, hso, htail, this]
      · have hne : a.2.dID ≠ e.2.dID := fun h => hrest e hea h.symm
        cases hso : succ_of q a with
        | none => simp [List.filterMap_cons, hso, ih hnd' hea]
        | some x =>
            have := (succ_of_dID q a x hso).1
            simp [List.filterMap_cons, hso, ih hnd' hea, this, hne]

/-- C7 (symmetry of generated graphs): for every graph produced by `generate`
and every predecessor edge `e` of a task `q`, the producer `tasks[e.task]`
exists and has exactly one successor edge with dependency id `e.dID`; that
edge names `q` as its task and carries the var id of `e`. -/
theorem C7_generated_symmetry (n m d t : Nat) (r : ℚ) (draws : List Nat) (g : TaskGraph)
    (h : generate n m d t r draws = some g) (q : Nat) (tq : task_i) (e : dep_i)
    (hq : g.tasks[q]? = some tq) (he : e ∈ tq.predecessors) :
    ∃ tp, g.tasks[e.task]? = some tp ∧
      tp.successors.filter (fun s => decide (s.dID = e.dID)) = [⟨q, OUT, e.dID, e.var⟩] := by
  obtain ⟨E, hI, hlen, -⟩ := generate_inv n m d t r draws g h
  have hmem := pred_mem_log _ _ _ _ _ hI q tq e hq he
  obtain ⟨h1, -, -, h4, -⟩ := hI.edge _ hmem
  simp only at h1 h4
  have hql : q < g.tasks.length := (List.getElem?_eq_some_iff.1 hq).1
  have hpl : e.task < g.tasks.length := by omega
  refine ⟨g.tasks[e.task], List.getElem?_eq_getElem hpl, ?_⟩
  rw [hI.succs e.task _ (List.getElem?_eq_getElem hpl)]
  have := filterMap_filter_unique E e.task (log_nodup _ _ _ _ _ hI) (q, e) hmem
  simp only at this
  rw [this]
  simp [succ_of, Nat.ne_of_gt h1, h4]

/-- C8 (locality window of generated graphs): for every graph produced by
`generate` with window `d`, every predecessor edge of task `i` names a task id
`p` with `i - d ≤ p` (truncated subtraction, i.e. `max(0, i - d) ≤ p`) and
`p < i`. -/
theorem C8_locality_window (n m d t : Nat) (r : ℚ) (draws : List Nat) (g : TaskGraph)
    (h : generate n m d t r draws = some g) (i : Nat) (ti : task_i) (e : dep_i)
    (hi : g.tasks[i]? = some ti) (he : e ∈ ti.predecessors) :
    i - d ≤ e.task ∧ e.task < i := by
  obtain ⟨E, hI, -⟩ := generate_inv n m d t r draws g h
  have hmem := pred_mem_log _ _ _ _ _ hI i ti e hi he
  obtain ⟨h1, h2, -⟩ := hI.edge _ hmem
  exact ⟨h2, h1⟩

theorem gen_tid (n m d t : Nat) (r : ℚ) (draws : List Nat) (g : TaskGraph)
    (h : generate n m d t r draws = some g) (q : Nat) (tq : task_i)
    (hq : g.tasks[q]? = some tq) : tq.tID = q := by
  obtain ⟨E, hI, hlen, -⟩ := generate_inv n m d t r draws g h
  have hql : q < g.tasks.length := (List.getElem?_eq_some_iff.1 hq).1
  exact hI.tid q tq hq (by omega)

theorem gen_own (n m d t : Nat) (r : ℚ) (draws : List Nat) (g : TaskGraph)
    (h : generate n m d t r draws = some g) (q t' : Nat) (tq tt : task_i) (e : dep_i)
    (ht : g.tasks[t']? = some tt) (he : e ∈ tt.predecessors) (hq : g.tasks[q]? = some tq)
    (hk : e.dID ∈ tq.successors.map (fun x => x.dID)) : q = t' ∨ q = e.task := by
  obtain ⟨E, hI, -⟩ := generate_inv n m d t r draws g h
  have hmem := pred_mem_log _ _ _ _ _ hI t' tt e ht he
  rw [hI.succs q tq hq] at hk
  obtain ⟨s, hs, hsd⟩ := List.mem_map.1 hk
  obtain ⟨e', he', hse'⟩ := List.mem_filterMap.1 hs
  obtain ⟨h1, h2⟩ := succ_of_dID q e' s hse'
  have : e' = (t', e) :=
    log_inj E (log_nodup _ _ _ _ _ hI) e' (t', e) he' hmem (by rw [← h1, hsd])
  subst this
  rcases h2 with h2 | h2
  · exact Or.inl h2.symm
  · exact Or.inr h2.symm

theorem gen_pred (n m d t : Nat) (r : ℚ) (draws : List Nat) (g : TaskGraph)
    (h : generate n m d t r draws = some g) (t' : Nat) (tt : task_i) (e : dep_i)
    (ht : g.tasks[t']? = some tt) (he : e ∈ tt.predecessors) :
    e.task < t' ∧ ∃ tp, g.tasks[e.task]? = some tp ∧
      e.dID ∈ tp.successors.map (fun x => x.dID) ∧ conflict tp tt = true := by
  obtain ⟨E, hI, hlen, -⟩ := generate_inv n m d t r draws g h
  have hmem := pred_mem_log _ _ _ _ _ hI t' tt e ht he
  obtain ⟨h1, -, -, h4, -⟩ := hI.edge _ hmem
  simp only at h1 h4
  have hql : t' < g.tasks.length := (List.getElem?_eq_some_iff.1 ht).1
  have hpl : e.task < g.tasks.length := by omega
  have hb : (⟨t', OUT, e.dID, e.dID⟩ : dep_i) ∈ (g.tasks[e.task]).successors := by
    rw [hI.succs e.task _ (List.getElem?_eq_getElem hpl)]
    refine List.mem_filterMap.2 ⟨(t', e), hmem, ?_⟩
    simp [succ_of, Nat.ne_of_gt h1]
  have hc : (⟨0, e.type, e.dID, e.dID⟩ : dep_i) ∈ tt.successors := by
    rw [hI.succs t' tt ht]
    refine List.mem_filterMap.2 ⟨(t', e), hmem, ?_⟩
    simp [succ_of]
  refine ⟨h1, g.tasks[e.task], List.getElem?_eq_getElem hpl, List.mem_map.2 ⟨_, hb, rfl⟩, ?_⟩
  unfold conflict
  rw [List.any_eq_true]
  refine ⟨⟨Addr.varptr e.dID, OUT != OUT, OUT != IN⟩, ?_, ?_⟩
  · unfold dep_list
    exact List.mem_cons_of_mem _ (List.mem_map.2 ⟨_, hb, rfl⟩)
  · rw [List.any_eq_true]
    refine ⟨⟨Addr.varptr e.dID, e.type != OUT, e.type != IN⟩, ?_, ?_⟩
    · unfold dep_list
      exact List.mem_cons_of_mem _ (List.mem_map.2 ⟨_, hc, rfl⟩)
    · simp

/-- C3 (dispatch soundness for generated graphs): for every graph produced by
`generate`, starting from an all-false `dep_chk` and a cleared failure flag,
and for every order of the task bodies (a permutation of the task ids) that
honours the declared dependencies, every body computes `cur = true`, the
failure flag stays `false` and the run reports success. -/
theorem C3_dispatch_sound_generated (n m d t : Nat) (r : ℚ) (draws : List Nat)
    (g : TaskGraph) (order : List Nat) (h : generate n m d t r draws = some g)
    (hperm : order.Perm (List.range g.ntasks)) (hh : honours g order) :
    (run_bodies g order RunState.init).curs = order.map (fun i => (i, true)) ∧
    (run_bodies g order RunState.init).r_error = false ∧
    run_verdict (run_bodies g order RunState.init) = true := by
  obtain ⟨E, hI, hlen, hnt, -⟩ := generate_inv n m d t r draws g h
  have hs := run_sound g order (gen_tid n m d t r draws g h)
    (fun i hi => by
      have := (hperm.mem_iff).1 hi
      rw [List.mem_range] at this
      omega)
    (fun t' tt e ht he => by
      obtain ⟨h1, tp, htp, hk, hc⟩ := gen_pred n m d t r draws g h t' tt e ht he
      have hql : t' < g.tasks.length := (List.getElem?_eq_some_iff.1 ht).1
      refine ⟨hh t' hql e.task h1 ?_, tp, htp, hk⟩
      rw [List.getD_eq_getElem?_getD, List.getD_eq_getElem?_getD, htp, ht]
      exact hc)
  exact ⟨hs.1, hs.2, by simp [run_verdict, hs.2]⟩

theorem trace_tid (ts : List task_s) (q : Nat) (tq : task_i)
    (hq : (trace ts).tasks[q]? = some tq) : tq.tID = q := by
  have hI := TInv_of_reach (reach_add_deps ts [])
  exact hI.tid q tq ((getElem?_snoc_iff _ _ _ _).2 (Or.inl hq))

theorem trace_own (ts : List task_s) (q t' : Nat) (tq tt : task_i) (e : dep_i)
    (ht : (trace ts).tasks[t']? = some tt) (he : e ∈ tt.predecessors)
    (hq : (trace ts).tasks[q]? = some tq)
    (hk : e.dID ∈ tq.successors.map (fun x => x.dID)) : q = t' ∨ q = e.task := by
  have hI := TInv_of_reach (reach_add_deps ts [])
  have ht' := (getElem?_snoc_iff (trace ts).tasks (new_f_t (trace ts)) tt t').2 (Or.inl ht)
  have hq' := (getElem?_snoc_iff (trace ts).tasks (new_f_t (trace ts)) tq q).2 (Or.inl hq)
  obtain ⟨tp, htp, s, hs, hsd⟩ := hI.pred_own t' tt e ht' he
  obtain ⟨s', hs', hsd'⟩ := List.mem_map.1 hk
  exact Or.inr (hI.succ_uniq q e.task tq tp s' s hq' htp hs' hs (by rw [hsd', hsd]))

/-- C5 (dispatch detection): for every graph built by the generator or by the
tracer, starting from an all-false `dep_chk` and a cleared failure flag, and
for every order of the task bodies, if the body of a task `t` runs before the
body of the task named by one of `t`'s predecessor edges, then `t` computes
`cur = false`, the failure flag is set and the run reports failure. -/
theorem C5_dispatch_detection (g : TaskGraph) (order : List Nat)
    (hsrc : (∃ n m d t r draws, generate n m d t r draws = some g) ∨ (∃ ts, g = trace ts))
    (t' : Nat) (tt : task_i) (e : dep_i) (ht : g.tasks[t']? = some tt)
    (he : e ∈ tt.predecessors) (hb : before order t' e.task) :
    (t', false) ∈ (run_bodies g order RunState.init).curs ∧
    (run_bodies g order RunState.init).r_error = true ∧
    run_verdict (run_bodies g order RunState.init) = false := by
  have key : (t', false) ∈ (run_bodies g order RunState.init).curs ∧
      (run_bodies g order RunState.init).r_error = true := by
    rcases hsrc with ⟨n, m, d, t, r, draws, h⟩ | ⟨ts, h⟩
    · exact run_detect g order (gen_tid n m d t r draws g h)
        (fun q t2 tq tt' e' h1 h2 h3 h4 => gen_own n m d t r draws g h q t2 tq tt' e' h1 h2 h3 h4)
        t' tt e ht he hb
    · subst h
      exact run_detect (trace ts) order (trace_tid ts)
        (fun q t2 tq tt' e' h1 h2 h3 h4 => trace_own ts q t2 tq tt' e' h1 h2 h3 h4)
        t' tt e ht he hb
  exact ⟨key.1, key.2, by simp [run_verdict, key.2]⟩

/-! ### Evaluations at concrete inputs -/

/-- C2 (acyclicity of traced graphs), evaluated at a submission that writes and
then reads the same address: the only task, task 0, receives a predecessor edge
that names task 0 itself, so the edge does not point to a task with a strictly
smaller id. -/
theorem C2_self_edge :
    (trace write_then_read).tasks =
      [⟨[⟨0, IN, 0, 0⟩], [⟨0, OUT, 0, 0⟩, ⟨0, IN, 1, 0⟩], 0, 0⟩] ∧
    ¬ (∀ t ∈ (trace write_then_read).tasks, ∀ e ∈ t.predecessors, e.task < t.tID) := by
  decide

/-- C4 (dispatch soundness for traced graphs), evaluated at `readers_first`:
the order `0, 2, 1` honours every declared dependency (tasks 1 and 2 declare
different var ids), yet task 2 computes `cur = false` and the run reports
failure. -/
theorem C4_false_alarm :
    [0, 2, 1].Perm (List.range (trace readers_first).ntasks) ∧
    honours (trace readers_first) [0, 2, 1] ∧
    (run_bodies (trace readers_first) [0, 2, 1] RunState.init).curs =
      [(0, true), (2, false), (1, true)] ∧
    run_verdict (run_bodies (trace readers_first) [0, 2, 1] RunState.init) = false := by
  decide

/-- C6 (symmetry of traced graphs), evaluated at `readers_first`: the
predecessor edge of task 2 names task 1 and dependency id 1 with var id 0,
while the successor edge of task 1 with dependency id 1 carries var id 1. -/
theorem C6_var_mismatch :
    (trace readers_first).tasks.map (fun t => t.predecessors) =
      [[], [], [⟨1, OUT, 1, 0⟩]] ∧
    (trace readers_first).tasks.map (fun t => t.successors) =
      [[⟨0, IN, 0, 0⟩], [⟨0, IN, 1, 1⟩], [⟨0, OUT, 2, 0⟩]] ∧
    ¬ (∀ t ∈ (trace readers_first).tasks, ∀ e ∈ t.predecessors,
        ∀ s ∈ ((trace readers_first).tasks.getD e.task default).successors,
          s.dID = e.dID → s.var = e.var) := by
  decide

theorem C3_dispatch_sound_generated_witness :
    generate 3 1 1 1000000 (1 / 4) draws3 = some gen3 ∧
    honours gen3 [0, 1, 2] ∧
    (run_bodies gen3 [0, 1, 2] RunState.init).curs = [(0, true), (1, true), (2, true)] :=
  ⟨rfl, by decide,
    (C3_dispatch_sound_generated 3 1 1 1000000 (1 / 4) draws3 gen3 [0, 1, 2] (by rfl)
      (by decide) (by decide)).1⟩

theorem C5_dispatch_detection_witness :
    before [1, 0, 2] 1 0 ∧
    (1, false) ∈ (run_bodies gen3 [1, 0, 2] RunState.init).curs ∧
    run_verdict (run_bodies gen3 [1, 0, 2] RunState.init) = false :=
  ⟨by decide,
    (C5_dispatch_detection gen3 [1, 0, 2]
      (Or.inl ⟨3, 1, 1, 1000000, 1 / 4, draws3, by rfl⟩) 1
      ⟨[⟨0, IN, 0, 0⟩], [⟨0, IN, 0, 0⟩, ⟨2, OUT, 1, 1⟩], 1, -7⟩ ⟨0, IN, 0, 0⟩
      rfl (by decide) (by decide)).1,
    (C5_dispatch_detection gen3 [1, 0, 2]
      (Or.inl ⟨3, 1, 1, 1000000, 1 / 4, draws3, by rfl⟩) 1
      ⟨[⟨0, IN, 0, 0⟩], [⟨0, IN, 0, 0⟩, ⟨2, OUT, 1, 1⟩], 1, -7⟩ ⟨0, IN, 0, 0⟩
      rfl (by decide) (by decide)).2.2⟩

theorem C7_generated_symmetry_witness :
    generate 3 1 1 1000000 (1 / 4) draws3 = some gen3 ∧
    ∃ tp, gen3.tasks[1]? = some tp ∧
      tp.successors.filter (fun s => decide (s.dID = 1)) = [⟨2, OUT, 1, 1⟩] :=
  ⟨rfl,
    C7_generated_symmetry 3 1 1 1000000 (1 / 4) draws3 gen3 (by rfl) 2
      ⟨[⟨1, IN, 1, 1⟩], [⟨0, IN, 1, 1⟩], 2, 9⟩ ⟨1, IN, 1, 1⟩ rfl (by decide)⟩

theorem C8_locality_window_witness :
    generate 3 1 1 1000000 (1 / 4) draws3 = some gen3 ∧ 2 - 1 ≤ 1 ∧ 1 < 2 :=
  ⟨rfl,
    C8_locality_window 3 1 1 1000000 (1 / 4) draws3 gen3 (by rfl) 2
      ⟨[⟨1, IN, 1, 1⟩], [⟨0, IN, 1, 1⟩], 2, 9⟩ ⟨1, IN, 1, 1⟩ rfl (by decide)⟩

/-! ### Generator: order, distinctness and fan-in of the edge log -/

theorem describe_loop_log (dep_r i min max : Nat) (hmin : i - dep_r ≤ min) (hmax : max ≤ i) :
    ∀ (todo done : List dep_i) (results : List Nat) (s s' : GenState) (E : List (Nat × dep_i)),
      describe_loop i min max todo done results s = some s' →
      GInv dep_r i todo s.tasks s.dep_id E →
      done = (E.filter (fun e => decide (e.1 = i))).map (fun e => e.2) →
      ∃ L : List dep_i, GInv dep_r i [] s'.tasks s'.dep_id (E ++ L.map (fun d => (i, d))) ∧
        L.length = todo.length ∧ (results.Nodup → (results ++ L.map (fun d => d.task)).Nodup) ∧
        s'.tasks.length = s.tasks.length ∧ s'.dep_id = s.dep_id + todo.length := by
  intro todo
  induction todo with
  | nil =>
      intro done results s s' E h hI _
      simp only [describe_loop, Option.some.injEq] at h
      subst h
      exact ⟨[], by simpa using hI, rfl, by simp, rfl, rfl⟩
  | cons x todo ih =>
      intro done results s s' E h hI hdone
      unfold describe_loop at h
      split at h
      · cases h
      · next hw =>
          split at h
          · cases h
          · next p draws1 hpick =>
              split at h
              · cases h
              · next r draws2 hrand =>
                  obtain ⟨hp1, hp2, hp3⟩ :=
                    pick_task_spec min max results s.draws draws1 p hw hpick
                  have hstep := GInv_describe_step dep_r i p (r % 2) s.dep_id todo done x
                    s.tasks E hI hdone (by omega) (by omega) (Nat.mod_lt _ (by decide))
                  obtain ⟨L, hL, hlen, hnd, hlen2, hid⟩ := ih _ _ _ _ _ h hstep (by
                    simp [List.filter_append, hdone])
                  refine ⟨⟨p, r % 2, s.dep_id, s.dep_id⟩ :: L, ?_, ?_, ?_, ?_, ?_⟩
                  · simpa [List.append_assoc] using hL
                  · simp [hlen]
                  · intro hres
                    have := hnd (by
                      rw [List.nodup_append]
                      refine ⟨hres, by simp, ?_⟩
                      intro a ha hb
                      rw [List.mem_singleton] at hb
                      exact hp3 (hb ▸ ha))
                    simpa [List.append_assoc] using this
                  · rw [hlen2]; simp
                  · rw [hid]; simp; omega

theorem GInv_start (dep_r i npred D : Nat) (e : Int) (tasks : List task_i)
    (E : List (Nat × dep_i)) (hI : GInv dep_r i [] tasks D E) :
    GInv dep_r (i + 1) (List.replicate npred ⟨0, 0, 0, 0⟩)
      (tasks.modify
        (fun t => { t with tID := i + 1, exec := e,
                           predecessors := resize t.predecessors npred })
        (i + 1)) D E := by
  have hnone : ∀ e ∈ E, ¬ e.1 = i + 1 := by
    intro e he h1
    have := (hI.edge e he).2.2.1
    omega
  have hfil : E.filter (fun e => decide (e.1 = i + 1)) = [] := by
    rw [List.filter_eq_nil_iff]
    intro e he; simpa using hnone e he
  refine ⟨hI.ids, ?_, ?_, ?_, ?_⟩
  · intro e he
    obtain ⟨h1, h2, h3, h4⟩ := hI.edge e he
    exact ⟨h1, h2, by omega, h4⟩
  · intro q tq hq
    rw [List.getElem?_modify] at hq
    cases h0 : tasks[q]? with
    | none => rw [h0] at hq; simp at hq
    | some tq0 =>
        rw [h0] at hq
        simp only [Option.map_eq_map, Option.map_some', Option.some.injEq] at hq
        have hp := hI.preds q tq0 h0
        by_cases hq1 : q = i + 1
        · subst hq1
          rw [if_pos rfl] at hq
          rw [if_neg (by omega), hfil] at hp
          rw [← hq, if_pos rfl, hfil]
          simp only [List.map_nil, List.append_nil, List.nil_append] at hp ⊢
          rw [hp, resize_nil]
        · rw [if_neg (fun h => hq1 h.symm)] at hq
          rw [← hq, if_neg hq1, hp]
          by_cases hq2 : q = i
          · rw [if_pos hq2]
          · rw [if_neg hq2]
  · intro q tq hq
    rw [List.getElem?_modify] at hq
    cases h0 : tasks[q]? with
    | none => rw [h0] at hq; simp at hq
    | some tq0 =>
        rw [h0] at hq
        simp only [Option.map_eq_map, Option.map_some', Option.some.injEq] at hq
        rw [← hq, ← hI.succs q tq0 h0]
        split <;> rfl
  · intro q tq hq hle
    rw [List.getElem?_modify] at hq
    cases h0 : tasks[q]? with
    | none => rw [h0] at hq; simp at hq
    | some tq0 =>
        rw [h0] at hq
        simp only [Option.map_eq_map, Option.map_some', Option.some.injEq] at hq
        by_cases hq1 : q = i + 1
        · rw [if_pos hq1.symm] at hq
          rw [← hq, hq1]
        · rw [if_neg (fun h => hq1 h.symm)] at hq
          rw [← hq]
          exact hI.tid q tq0 h0 (by omega)

theorem cur_dep_le (max_dep dep_r i : Nat) : cur_dep max_dep dep_r i ≤ max_dep := by
  unfold cur_dep
  split
  · exact le_trans (Nat.min_le_left _ _) (by omega)
  · exact Nat.min_le_left _ _

theorem LInv_extend (m i npred : Nat) (E : List (Nat × dep_i)) (L : List dep_i)
    (hE : ∀ e ∈ E, e.1 ≤ i) (hL : LInv m i E) (hlen : L.length = npred)
    (hnp : 1 ≤ npred ∧ npred ≤ max 1 m) (hnd : (L.map (fun d => d.task)).Nodup) :
    LInv m (i + 1) (E ++ L.map (fun d => (i + 1, d))) := by
  have hfilE : E.filter (fun e => decide (e.1 = i + 1)) = [] := by
    rw [List.filter_eq_nil_iff]
    intro e he
    have := hE e he
    simp only [decide_eq_true_eq]; omega
  have hfilL : ∀ q, (L.map (fun d => (i + 1, d))).filter (fun e => decide (e.1 = q)) =
      if q = i + 1 then L.map (fun d => (i + 1, d)) else [] := by
    intro q
    by_cases hq : q = i + 1
    · rw [if_pos hq, List.filter_eq_self]
      intro e he
      obtain ⟨d, -, hd⟩ := List.mem_map.1 he
      rw [← hd]; simp [hq]
    · rw [if_neg hq, List.filter_eq_nil_iff]
      intro e he
      obtain ⟨d, -, hd⟩ := List.mem_map.1 he
      rw [← hd]; simp only [decide_eq_true_eq]; omega
  refine ⟨?_, ?_, ?_⟩
  · rw [List.pairwise_append]
    refine ⟨hL.sorted, ?_, ?_⟩
    · rw [List.pairwise_map]
      exact List.pairwise_of_forall (fun _ _ => le_refl _)
    · intro a ha b hb
      obtain ⟨d, -, hd⟩ := List.mem_map.1 hb
      rw [← hd]
      have := hE a ha
      simp only; omega
  · intro q
    rw [List.filter_append, hfilL]
    by_cases hq : q = i + 1
    · rw [if_pos hq, hq, hfilE]
      simpa [List.map_map, Function.comp] using hnd
    · rw [if_neg hq, List.append_nil]
      exact hL.distinct q
  · intro q h1 h2
    rw [List.filter_append, hfilL]
    by_cases hq : q = i + 1
    · rw [if_pos hq, hq, hfilE]
      simp only [List.nil_append, List.length_map, hlen]
      exact hnp
    · rw [if_neg hq, List.append_nil]
      exact hL.fanin q h1 (by omega)

theorem create_step_log (max_dep n i : Nat) (s s' : CreateState) (E : List (Nat × dep_i))
    (hi : i + 1 < n) (h : create_step max_dep (i + 1) s = some s') (hI : CInv n i s E)
    (hL : LInv max_dep i E) :
    ∃ E', CInv n (i + 1) s' E' ∧ LInv max_dep (i + 1) E' ∧ s'.g.dep_r = s.g.dep_r := by
  unfold create_step at h
  simp only at h
  split at h
  · cases h
  · next e d1 hexec =>
      split at h
      · cases h
      · next npred d2 hnp =>
          split at h
          · cases h
          · next s1 hdesc =>
              simp only [Option.some.injEq] at h
              subst h
              have hnpb : 1 ≤ npred ∧ npred ≤ max 1 max_dep := by
                have hcd := cur_dep_le max_dep s.g.dep_r (i + 1)
                split at hnp
                · simp only [Option.some.injEq, Prod.mk.injEq] at hnp
                  omega
                · next hne =>
                    split at hnp
                    · cases hnp
                    · next r d3 _ =>
                        simp only [Option.some.injEq, Prod.mk.injEq] at hnp
                        have := Nat.mod_lt r (Nat.pos_of_ne_zero hne)
                        omega
              unfold describe_deps at hdesc
              simp only at hdesc
              have hlt : i + 1 < s.g.tasks.length := by rw [hI.len]; exact hi
              obtain ⟨t0, ht0⟩ : ∃ t0, s.g.tasks[i + 1]? = some t0 :=
                ⟨s.g.tasks[i + 1], List.getElem?_eq_getElem hlt⟩
              have hG := GInv_start s.g.dep_r i npred s.dep_id e s.g.tasks E hI.ginv
              have hget : (s.g.tasks.modify
                    (fun t => { t with tID := i + 1, exec := e,
                                       predecessors := resize t.predecessors npred })
                    (i + 1))[i + 1]? =
                  some { t0 with tID := i + 1, exec := e,
                                 predecessors := resize t0.predecessors npred } := by
                rw [List.getElem?_modify_eq, ht0]
                simp only [Option.map_eq_map, Option.map_some']
              have hp1 := hG.preds (i + 1) _ hget
              have hfil : E.filter (fun e => decide (e.1 = i + 1)) = [] := by
                rw [List.filter_eq_nil_iff]
                intro e he
                have := (hI.ginv.edge e he).2.2.1
                simp only [decide_eq_true_eq]; omega
              rw [if_pos rfl, hfil] at hp1
              simp only [List.map_nil, List.nil_append] at hp1
              rw [hget] at hdesc
              simp only at hdesc
              rw [hp1] at hdesc
              obtain ⟨L, hE', hlen, hnd, hlen2, hid⟩ := describe_loop_log s.g.dep_r (i + 1)
                (range_min s.g.dep_r (i + 1)) (range_max s.g.dep_r (i + 1))
                (by rw [range_min_eq]) (by rw [range_max_eq]) _ [] [] _ s1 E hdesc hG
                (by rw [hfil]; rfl)
              simp only [List.length_replicate, List.nil_append] at hlen hnd hid
              refine ⟨_, ⟨hE', ?_, hI.ntasks, ?_, rfl⟩, ?_, rfl⟩
              · show s1.tasks.length = n
                rw [hlen2]; simp [hI.len]
              · show s.g.ndeps + npred = s1.dep_id
                rw [hid, hI.ndeps]
              · exact LInv_extend max_dep i npred E L
                  (fun e he => (hI.ginv.edge e he).2.2.1) hL hlen hnpb (hnd List.nodup_nil)

theorem create_loop_log (max_dep n : Nat) :
    ∀ (k i : Nat) (s s' : CreateState) (E : List (Nat × dep_i)), i + k + 1 = n →
      create_loop max_dep k (i + 1) s = some s' → CInv n i s E → LInv max_dep i E →
      ∃ E', CInv n (n - 1) s' E' ∧ LInv max_dep (n - 1) E' ∧ s'.g.dep_r = s.g.dep_r := by
  intro k
  induction k with
  | zero =>
      intro i s s' E hn h hI hL
      simp only [create_loop, Option.some.injEq] at h
      subst h
      have : n - 1 = i := by omega
      rw [this]
      exact ⟨E, hI, hL, rfl⟩
  | succ k ih =>
      intro i s s' E hn h hI hL
      unfold create_loop at h
      split at h
      · cases h
      · next s1 hs1 =>
          obtain ⟨E1, hI1, hL1, hd1⟩ :=
            create_step_log max_dep n i s s1 E (by omega) hs1 hI hL
          obtain ⟨E', hI', hL', hd'⟩ := ih (i + 1) s1 s' E1 (by omega) h hI1 hL1
          exact ⟨E', hI', hL', hd'.trans hd1⟩

theorem CInv_init (n d t : Nat) (r : ℚ) (e : Int) (d1 : List Nat) :
    CInv (n + 1) 0 ⟨{ (TaskGraph.new (n + 1) d t r) with
        tasks := (task_i.zero :: List.replicate n task_i.zero).modify
          (fun t => { t with tID := 0, exec := e }) 0 }, 0, d1⟩ [] := by
  refine ⟨⟨rfl, ?_, ?_, ?_, ?_⟩, ?_, rfl, rfl, rfl⟩
  · intro e he; simp at he
  · intro q tq hq
    cases q with
    | zero =>
        simp [task_i.zero] at hq
        rw [← hq]; rfl
    | succ q =>
        simp only [List.modify, List.modifyHead, List.modifyTailIdx,
          List.getElem?_cons_succ] at hq
        rw [List.getElem?_replicate] at hq
        split at hq
        · rw [← Option.some.inj hq]; simp [task_i.zero]
        · cases hq
  · intro q tq hq
    cases q with
    | zero =>
        simp [task_i.zero] at hq
        rw [← hq]; rfl
    | succ q =>
        simp only [List.modify, List.modifyHead, List.modifyTailIdx,
          List.getElem?_cons_succ] at hq
        rw [List.getElem?_replicate] at hq
        split at hq
        · rw [← Option.some.inj hq]; simp [task_i.zero]
        · cases hq
  · intro q tq hq hle
    have : q = 0 := by omega
    subst this
    simp [task_i.zero] at hq
    rw [← hq]
  · simp

theorem LInv_nil (m : Nat) : LInv m 0 [] := by
  refine ⟨List.Pairwise.nil, fun q => by simp, ?_⟩
  intro q h1 h2; omega

/-- What `generate` builds, with the order, distinctness and fan-in properties
of the edge log. -/
theorem generate_log (n m d t : Nat) (r : ℚ) (draws : List Nat) (g : TaskGraph)
    (h : generate n m d t r draws = some g) :
    ∃ E, GInv d (n - 1) [] g.tasks g.ndeps E ∧ LInv m (n - 1) E ∧ g.tasks.length = n ∧
      g.ntasks = n ∧ g.nvar = g.ndeps ∧ g.dep_r = d ∧ 1 ≤ n := by
  unfold generate TaskGraph.create_tasks at h
  cases n with
  | zero => simp [TaskGraph.new] at h
  | succ n =>
      simp only [TaskGraph.new, List.replicate_succ] at h
      split at h
      · cases h
      · next e d1 hexec =>
          split at h
          · cases h
          · next s hs =>
              simp only [Option.some.injEq] at h
              subst h
              obtain ⟨E', hI', hL', hd'⟩ := create_loop_log m (n + 1) n 0 _ s [] (by omega) hs
                (CInv_init n d t r e d1) (LInv_nil m)
              refine ⟨E', ?_, hL', hI'.len, hI'.ntasks, hI'.nvar, hd', by omega⟩
              have hg := hI'.ginv
              rw [hd', hI'.ndeps.symm] at hg
              exact hg

theorem preds_eq_log (dep_r i D : Nat) (tasks : List task_i) (E : List (Nat × dep_i))
    (hI : GInv dep_r i [] tasks D E) (q : Nat) (tq : task_i) (hq : tasks[q]? = some tq) :
    tq.predecessors = (E.filter (fun e => decide (e.1 = q))).map (fun e => e.2) := by
  rw [hI.preds q tq hq]; simp

theorem sorted_split (E : List (Nat × dep_i)) (n : Nat)
    (hs : E.Pairwise (fun a b => a.1 ≤ b.1)) (hb : ∀ e ∈ E, e.1 ≤ n) :
    E.filter (fun e => decide (e.1 < n)) ++ E.filter (fun e => decide (e.1 = n)) = E := by
  induction E with
  | nil => rfl
  | cons a E ih =>
      rw [List.pairwise_cons] at hs
      obtain ⟨ha, hs'⟩ := hs
      have hb' : ∀ e ∈ E, e.1 ≤ n := fun e he => hb e (List.mem_cons_of_mem _ he)
      have han : a.1 ≤ n := hb a (List.mem_cons_self _ _)
      by_cases hlt : a.1 < n
      · rw [List.filter_cons_of_pos (by simpa using hlt),
          List.filter_cons_of_neg (by simp; omega), List.cons_append, ih hs' hb']
      · have hall : ∀ e ∈ E, e.1 = n := fun e he => by
          have := ha e he; have := hb' e he; omega
        have h1 : E.filter (fun e => decide (e.1 < n)) = [] := by
          rw [List.filter_eq_nil_iff]
          intro e he; have := hall e he; simp; omega
        have h2 : E.filter (fun e => decide (e.1 = n)) = E := by
          rw [List.filter_eq_self]
          intro e he; simpa using hall e he
        rw [List.filter_cons_of_neg (by simpa using hlt),
          List.filter_cons_of_pos (by simp; omega), h1, h2]
        rfl

theorem flatten_by_consumer (n : Nat) :
    ∀ (E : List (Nat × dep_i)), E.Pairwise (fun a b => a.1 ≤ b.1) → (∀ e ∈ E, e.1 < n) →
      ((List.range n).map (fun q => E.filter (fun e => decide (e.1 = q)))).flatten = E := by
  induction n with
  | zero =>
      intro E _ hb
      cases E with
      | nil => rfl
      | cons a E => exact absurd (hb a (List.mem_cons_self _ _)) (Nat.not_lt_zero _)
  | succ n ih =>
      intro E hs hb
      rw [List.range_succ, List.map_append, List.flatten_append]
      have h1 : (List.range n).map (fun q => E.filter (fun e => decide (e.1 = q))) =
          (List.range n).map (fun q =>
            (E.filter (fun e => decide (e.1 < n))).filter (fun e => decide (e.1 = q))) := by
        apply List.map_congr_left
        intro q hq
        rw [List.mem_range] at hq
        rw [List.filter_filter]
        apply List.filter_congr
        intro e _
        by_cases he : e.1 = q
        · simp [he, hq]
        · simp [he]
      rw [h1, ih _ (List.Pairwise.sublist (List.filter_sublist _) hs)
        (fun e he => by simpa using (List.mem_filter.1 he).2)]
      simp only [List.map_cons, List.map_nil, List.flatten_cons, List.flatten_nil,
        List.append_nil]
      exact sorted_split E n hs (fun e he => Nat.le_of_lt_succ (hb e he))

theorem map_eq_range_map {α β : Type} (l : List α) (f : α → β) (g : Nat → β)
    (h : ∀ (q : Nat) (a : α), l[q]? = some a → f a = g q) :
    l.map f = (List.range l.length).map g := by
  apply List.ext_getElem?
  intro k
  rw [List.getElem?_map, List.getElem?_map]
  by_cases hk : k < l.length
  · rw [List.getElem?_range hk, List.getElem?_eq_getElem hk]
    simp only [Option.map_some']
    rw [h k _ (List.getElem?_eq_getElem hk)]
  · rw [List.getElem?_eq_none (by omega), List.getElem?_eq_none (by simpa using hk)]
    rfl

/-! ### Generator: further claims -/

/-- C11 (no duplicate edges in generated graphs): for every graph produced by
`generate`, the predecessor edges of each task name pairwise distinct task
ids. -/
theorem C11_distinct_predecessors (n m d t : Nat) (r : ℚ) (draws : List Nat) (g : TaskGraph)
    (h : generate n m d t r draws = some g) (q : Nat) (tq : task_i)
    (hq : g.tasks[q]? = some tq) :
    (tq.predecessors.map (fun e => e.task)).Nodup := by
  obtain ⟨E, hI, hL, -⟩ := generate_log n m d t r draws g h
  rw [preds_eq_log _ _ _ _ _ hI q tq hq, List.map_map]
  exact hL.distinct q

theorem C11_distinct_predecessors_witness :
    generate 3 1 1 1000000 (1 / 4) draws3 = some gen3 ∧
    (([⟨1, IN, 1, 1⟩] : List dep_i).map (fun e => e.task)).Nodup :=
  ⟨by rfl,
    C11_distinct_predecessors 3 1 1 1000000 (1 / 4) draws3 gen3 (by rfl) 2
      ⟨[⟨1, IN, 1, 1⟩], [⟨0, IN, 1, 1⟩], 2, 9⟩ (by rfl)⟩

/-- C12, as stated, fails for `m = 0`: `generate 2 0 1` gives task 1 one
predecessor, which is more than `m`. -/
theorem C12_fan_in_counterexample :
    generate 2 0 1 1000000 (1 / 4) draws2 = some gen2_m0 ∧
    ¬ (∀ i < gen2_m0.tasks.length, 1 ≤ i →
        1 ≤ (gen2_m0.tasks.getD i default).predecessors.length ∧
        (gen2_m0.tasks.getD i default).predecessors.length ≤ 0) :=
  ⟨by rfl, by decide⟩

/-- C12 (fan-in bound, amended): for every graph produced by `generate n m d`,
task 0 has no predecessors and every task `i ≥ 1` has at least 1 and at most
`max 1 m` predecessors. -/
theorem C12_fan_in (n m d t : Nat) (r : ℚ) (draws : List Nat) (g : TaskGraph)
    (h : generate n m d t r draws = some g) :
    (∀ t0, g.tasks[0]? = some t0 → t0.predecessors = []) ∧
    (∀ (i : Nat) (ti : task_i), 1 ≤ i → g.tasks[i]? = some ti →
      1 ≤ ti.predecessors.length ∧ ti.predecessors.length ≤ max 1 m) := by
  obtain ⟨E, hI, hL, hlen, -⟩ := generate_log n m d t r draws g h
  constructor
  · intro t0 h0
    rw [preds_eq_log _ _ _ _ _ hI 0 t0 h0]
    have : E.filter (fun e => decide (e.1 = 0)) = [] := by
      rw [List.filter_eq_nil_iff]
      intro e he
      have := (hI.edge e he).1
      simp only [decide_eq_true_eq]; omega
    rw [this]; rfl
  · intro i ti hi hti
    have hil : i < g.tasks.length := (List.getElem?_eq_some_iff.1 hti).1
    rw [preds_eq_log _ _ _ _ _ hI i ti hti, List.length_map]
    exact hL.fanin i hi (by omega)

theorem C12_fan_in_witness :
    generate 2 0 1 1000000 (1 / 4) draws2 = some gen2_m0 ∧
    (∀ t0, gen2_m0.tasks[0]? = some t0 → t0.predecessors = []) :=
  ⟨by rfl, (C12_fan_in 2 0 1 1000000 (1 / 4) draws2 gen2_m0 (by rfl)).1⟩

/-- C13 (edge modes of generated graphs), evaluated at draws whose type draw is
even: the predecessor edge of task 1 is stored with type `0`, which is neither
`IN` (1) nor `INOUT` (3) in the numbering of `enum Type`; the successor edge on
the producer has type `OUT`. -/
theorem C13_type_zero :
    (generate 2 1 1 1000000 (1 / 4) draws2_even).map
        (fun g => g.tasks.map (fun t => t.predecessors)) =
      some [[], [⟨0, 0, 0, 0⟩]] ∧
    (generate 2 1 1 1000000 (1 / 4) draws2_even).map
        (fun g => g.tasks.map (fun t => t.successors)) =
      some [[⟨1, OUT, 0, 0⟩], [⟨0, 0, 0, 0⟩]] ∧
    (0 : Nat) ≠ IN ∧ (0 : Nat) ≠ INOUT := by
  decide

/-- C16 (id density of generated graphs): for every graph produced by
`generate`, reading the predecessor edges task by task in id order yields the
dependency ids `0, 1, ..., ndeps - 1` in that order, every edge's var id equals
its dependency id, `ndeps` is the total number of predecessor edges,
`nvar = ndeps`, and both are `0` when `n = 1`. -/
theorem C16_generated_id_density (n m d t : Nat) (r : ℚ) (draws : List Nat) (g : TaskGraph)
    (h : generate n m d t r draws = some g) :
    (g.tasks.map (fun tq => tq.predecessors.map (fun e => e.dID))).flatten =
      List.range g.ndeps ∧
    (∀ (q : Nat) (tq : task_i) (e : dep_i), g.tasks[q]? = some tq → e ∈ tq.predecessors →
      e.var = e.dID) ∧
    (g.tasks.map (fun tq => tq.predecessors.length)).sum = g.ndeps ∧
    g.nvar = g.ndeps ∧
    (n = 1 → g.ndeps = 0 ∧ g.nvar = 0) := by
  obtain ⟨E, hI, hL, hlen, hnt, hnv, hdr, hn⟩ := generate_log n m d t r draws g h
  have hflat : (g.tasks.map (fun tq => tq.predecessors.map (fun e => e.dID))).flatten =
      List.range g.ndeps := by
    rw [map_eq_range_map g.tasks (fun tq => tq.predecessors.map (fun e => e.dID))
      (fun q => (E.filter (fun e => decide (e.1 = q))).map (fun e => e.2.dID))
      (fun q tq hq => by
        show tq.predecessors.map (fun e => e.dID) = _
        rw [preds_eq_log _ _ _ _ _ hI q tq hq, List.map_map]; rfl)]
    have : (List.range g.tasks.length).map
        (fun q => (E.filter (fun e => decide (e.1 = q))).map (fun e => e.2.dID)) =
        ((List.range g.tasks.length).map
          (fun q => E.filter (fun e => decide (e.1 = q)))).map (List.map (fun e => e.2.dID)) := by
      rw [List.map_map]; rfl
    rw [this, ← List.map_flatten, flatten_by_consumer g.tasks.length E hL.sorted
      (fun e he => by have := (hI.edge e he).2.2.1; omega)]
    exact hI.ids
  refine ⟨hflat, ?_, ?_, hnv, ?_⟩
  · intro q tq e hq he
    exact (hI.edge _ (pred_mem_log _ _ _ _ _ hI q tq e hq he)).2.2.2.1
  · have := congrArg List.length hflat
    rw [List.length_flatten, List.length_range, List.map_map] at this
    rw [← this]
    congr 1
    apply List.map_congr_left
    intro a _
    simp
  · intro h1
    subst h1
    have hE : E = [] := by
      cases E with
      | nil => rfl
      | cons a E =>
          have := hI.edge a (List.mem_cons_self _ _)
          omega
    have hids := hI.ids
    rw [hE] at hids
    have h0 : g.ndeps = 0 := by
      have := congrArg List.length hids
      simpa using this.symm
    exact ⟨h0, by rw [hnv, h0]⟩

theorem C16_generated_id_density_witness :
    generate 3 1 1 1000000 (1 / 4) draws3 = some gen3 ∧
    (gen3.tasks.map (fun tq => tq.predecessors.map (fun e => e.dID))).flatten =
      List.range gen3.ndeps :=
  ⟨by rfl, (C16_generated_id_density 3 1 1 1000000 (1 / 4) draws3 gen3 (by rfl)).1⟩

/-! ### Tracer: dependency ids -/

theorem add_deps_ndeps (g : TaskGraph) (recs : List dep_s) :
    (add_deps g recs).1.ndeps = g.ndeps + recs.length := by
  induction recs using List.reverseRecOn with
  | nil => rfl
  | append_singleton recs d ih =>
      rw [add_deps_snoc, add_dep_ndeps, ih, List.length_append]; rfl

theorem add_deps_succ_types (g : TaskGraph) (recs : List dep_s) :
    (add_deps g recs).2.successors.map (fun s => s.type) = recs.map (fun d => d.mode) := by
  induction recs using List.reverseRecOn with
  | nil => rfl
  | append_singleton recs d ih =>
      rw [add_deps_snoc, add_dep_successors, List.map_append, ih, List.map_append]; rfl

theorem add_deps_succ_ids (g : TaskGraph) (recs : List dep_s) :
    (add_deps g recs).2.successors.map (fun s => s.dID) =
      List.range' g.ndeps recs.length := by
  induction recs using List.reverseRecOn with
  | nil => rfl
  | append_singleton recs d ih =>
      rw [add_deps_snoc, add_dep_successors, List.map_append, ih, add_deps_ndeps,
        List.length_append, List.length_singleton, List.range'_concat]
      simp

theorem trace_snoc_tasks (ts : List task_s) (t : task_s) :
    (trace (ts ++ [t])).tasks = (trace ts).tasks ++ [(add_deps (trace ts) t.deparr).2] := by
  rw [trace_snoc, add_task_eq]
  simp [push, add_deps_tasks]

theorem trace_snoc_ndeps (ts : List task_s) (t : task_s) :
    (trace (ts ++ [t])).ndeps = (trace ts).ndeps + t.deparr.length := by
  rw [trace_snoc, add_task_eq]
  simp [push, add_deps_ndeps]

/-- C14 (dep-id density of traced graphs): in the graph traced from any stream
of submissions, each task has one successor edge per record of its submission,
in record order and with the record's mode; reading the successor edges task by
task in id order yields the dependency ids `0, 1, ..., ndeps - 1` in that
order; and `ndeps` is the total number of records. -/
theorem C14_traced_dep_id_density (ts : List task_s) :
    (trace ts).tasks.map (fun t => t.successors.map (fun s => s.type)) =
      ts.map (fun t => t.deparr.map (fun d => d.mode)) ∧
    ((trace ts).tasks.map (fun t => t.successors.map (fun s => s.dID))).flatten =
      List.range (trace ts).ndeps ∧
    (trace ts).ndeps = (ts.map (fun t => t.deparr.length)).sum := by
  induction ts using List.reverseRecOn with
  | nil => exact ⟨rfl, rfl, rfl⟩
  | append_singleton ts t ih =>
      obtain ⟨h1, h2, h3⟩ := ih
      refine ⟨?_, ?_, ?_⟩
      · rw [trace_snoc_tasks, List.map_append, h1, List.map_append]
        simp [add_deps_succ_types]
      · rw [trace_snoc_tasks, trace_snoc_ndeps, List.map_append, List.flatten_append, h2]
        simp only [List.map_cons, List.map_nil, List.flatten_cons, List.flatten_nil,
          List.append_nil, add_deps_succ_ids]
        rw [List.range_eq_range', List.range_eq_range']
        have := List.range'_append_1 0 (trace ts).ndeps t.deparr.length
        rw [Nat.zero_add, Nat.add_comm] at this
        exact this
      · rw [trace_snoc_ndeps, h3]
        simp

/-! ### Tracer: var ids -/

theorem VInv_init : VInv (TaskGraph.empty, new_f_t TaskGraph.empty) := by
  refine ⟨?_, ?_, le_refl _⟩
  · intro q tq e h he
    simp only [allT, TaskGraph.empty, TaskGraph.new, List.replicate, List.nil_append] at h
    cases q with
    | zero =>
        simp [new_f_t] at h
        rw [← h] at he; simp at he
    | succ q => simp at h
  · intro v hv
    simp [TaskGraph.empty, TaskGraph.new] at hv

theorem VInv_step (st : TaskGraph × task_i) (d : dep_s) (hI : TInv st) (hV : VInv st) :
    VInv (add_dep st d) := by
  have hlast := f_t_last st
  have hmono := nvar_mono st d
  have hrv := rec_var_lt st hI d
  refine ⟨?_, ?_, ?_⟩
  · intro q tq e h he
    rw [allT_add_dep] at h
    rcases (getElem?_snoc_iff _ _ _ _).1 h with h1 | ⟨h1, h2⟩
    · exact lt_of_lt_of_le
        (hV.below q tq e ((getElem?_snoc_iff _ _ _ _).2 (Or.inl h1)) he) hmono
    · rw [← h2, add_dep_predecessors, add_dep_successors, List.mem_append, List.mem_append,
        List.mem_map, List.mem_singleton] at he
      rcases he with (he | ⟨r, -, he⟩) | (he | he)
      · exact lt_of_lt_of_le (hV.below _ _ e hlast (Or.inl he)) hmono
      · rw [← he]; exact hrv
      · exact lt_of_lt_of_le (hV.below _ _ e hlast (Or.inr he)) hmono
      · rw [he]; exact hrv
  · intro v hv
    by_cases hold : v < st.1.nvar
    · obtain ⟨q, tq, hq, s, hs, hsv⟩ := hV.used v hold
      rw [allT_add_dep]
      rcases (getElem?_snoc_iff _ _ _ _).1 hq with h1 | ⟨h1, h2⟩
      · exact ⟨q, tq, (getElem?_snoc_iff _ _ _ _).2 (Or.inl h1), s, hs, hsv⟩
      · refine ⟨q, (add_dep st d).2, (getElem?_snoc_iff _ _ _ _).2 (Or.inr ⟨h1, rfl⟩), s, ?_, hsv⟩
        rw [add_dep_successors, h2]
        exact List.mem_append_left _ hs
    · rw [add_dep_nvar] at hv
      split at hv
      · next heq =>
          have hv' : v = st.1.nvar := by omega
          rw [allT_add_dep]
          refine ⟨st.1.tasks.length, (add_dep st d).2,
            (getElem?_snoc_iff _ _ _ _).2 (Or.inr ⟨rfl, rfl⟩),
            ⟨0, d.mode, st.1.ndeps, rec_var st.1 d⟩, ?_, ?_⟩
          · rw [add_dep_successors]; simp
          · rw [hv']; exact heq
      · exact absurd hv hold
  · rw [add_dep_nvar, add_dep_ndeps]
    have := hV.le
    split <;> omega

theorem VInv_next (st : TaskGraph × task_i) (hV : VInv st) :
    VInv (push st, new_f_t (push st)) := by
  have hall : allT (push st, new_f_t (push st)) = allT st ++ [new_f_t (push st)] := rfl
  refine ⟨?_, ?_, hV.le⟩
  · intro q tq e h he
    rw [hall] at h
    rcases (getElem?_snoc_iff _ _ _ _).1 h with h1 | ⟨-, h2⟩
    · exact hV.below q tq e h1 he
    · rw [← h2] at he; simp [new_f_t] at he
  · intro v hv
    obtain ⟨q, tq, hq, hs⟩ := hV.used v hv
    exact ⟨q, tq, by rw [hall]; exact (getElem?_snoc_iff _ _ _ _).2 (Or.inl hq), hs⟩

theorem VInv_of_reach {h : List (List dep_s)} {st : TaskGraph × task_i}
    (hr : Reach h st) : VInv st := by
  induction hr with
  | init => exact VInv_init
  | step d hprev ih => exact VInv_step _ d (TInv_of_reach hprev) ih
  | next _ ih => exact VInv_next _ ih

/-- C15 (var-id density of traced graphs): in the graph traced from any stream
of submissions, every edge (predecessor or successor) carries a var id below
`nvar`, every value below `nvar` is the var id of some successor edge, and
`nvar ≤ ndeps`. -/
theorem C15_traced_var_id_density (ts : List task_s) :
    (∀ t ∈ (trace ts).tasks, ∀ e, e ∈ t.predecessors ∨ e ∈ t.successors →
      e.var < (trace ts).nvar) ∧
    (∀ v, v < (trace ts).nvar → ∃ t ∈ (trace ts).tasks, ∃ s ∈ t.successors, s.var = v) ∧
    (trace ts).nvar ≤ (trace ts).ndeps := by
  have hV := VInv_of_reach (reach_add_deps ts [])
  refine ⟨?_, ?_, hV.le⟩
  · intro t ht e he
    obtain ⟨q, hq⟩ := List.getElem?_of_mem ht
    exact hV.below q t e ((getElem?_snoc_iff _ _ _ _).2 (Or.inl hq)) he
  · intro v hv
    obtain ⟨q, tq, hq, s, hs, hsv⟩ := hV.used v hv
    rcases (getElem?_snoc_iff _ _ _ _).1 hq with h1 | ⟨-, h2⟩
    · exact ⟨tq, List.mem_iff_getElem?.2 ⟨q, h1⟩, s, hs, hsv⟩
    · rw [← h2] at hs; simp [add_deps, new_f_t] at hs

/-! ### Session: run and restore -/

theorem f_r_error_mono (p : tparam_t) (s : RunState) (h : s.r_error = true) :
    (f p s).r_error = true := by
  simp [f, h]

theorem verdict_inv_body (g : TaskGraph) (s : RunState) (i : Nat)
    (h : s.r_error = true ↔ ∃ e ∈ s.curs, e.2 = false) :
    (body g s i).r_error = true ↔ ∃ e ∈ (body g s i).curs, e.2 = false := by
  unfold body
  split
  · next t _ =>
      simp only [f]
      cases hc : check_preds s.dep_chk (mk_param t).pred with
      | true =>
          simp only [Bool.not_true, Bool.false_eq_true, if_false, List.mem_append,
            List.mem_singleton]
          rw [h]
          constructor
          · rintro ⟨e, he, h2⟩; exact ⟨e, Or.inl he, h2⟩
          · rintro ⟨e, he | he, h2⟩
            · exact ⟨e, he, h2⟩
            · rw [he] at h2; cases h2
      | false =>
          simp only [Bool.not_false, if_true, List.mem_append, List.mem_singleton, true_iff]
          exact ⟨_, Or.inr rfl, rfl⟩
  · exact h

theorem verdict_inv (g : TaskGraph) (order : List Nat) (s : RunState)
    (h : s.r_error = true ↔ ∃ e ∈ s.curs, e.2 = false) :
    (run_bodies g order s).r_error = true ↔
      ∃ e ∈ (run_bodies g order s).curs, e.2 = false := by
  rw [run_bodies_eq]
  induction order generalizing s with
  | nil => exact h
  | cons i order ih =>
      simp only [List.foldl_cons]
      exact ih _ (verdict_inv_body g s i h)

theorem empty_false (lab : Lab) (g : TaskGraph) (hg : lab.tg = some g) (hne : g.tasks ≠ []) :
    empty lab HTASK = false := by
  unfold empty
  rw [hg]
  simp [hne]

/-- C17 (run verdict): for a session that holds a non-empty graph and a runtime
whose four entry points resolve, `run` enters the parallel region, the bodies
start from a cleared failure flag, and `run` returns `true` exactly when no
body of this run computed `cur = false`; the flag is left cleared, a flag left
set before the call does not change the outcome, and a body never clears the
flag. -/
theorem C17_run_verdict (lab : Lab) (g : TaskGraph) (order : List Nat)
    (hg : lab.tg = some g) (hne : g.tasks ≠ []) :
    ∃ r, run lab MTSP env_ok order = some r ∧ r.entered = true ∧
      r.curs = (run_bodies g order RunState.init).curs ∧
      (r.ret = true ↔ ∀ e ∈ r.curs, e.2 = true) ∧
      r.lab.r_error = false ∧
      (∀ b, run { lab with r_error := b } MTSP env_ok order = some r) ∧
      (∀ (p : tparam_t) (s : RunState), s.r_error = true → (f p s).r_error = true) := by
  have hv := verdict_inv g order RunState.init (by simp [RunState.init])
  have hrun : ∀ b, run { lab with r_error := b } MTSP env_ok order =
      some (run_finish { lab with tg_t := lab.tg, binds := env_ok,
                                  r_error := (run_bodies g order RunState.init).r_error }
        true (run_bodies g order RunState.init).curs) := by
    intro b
    have he : empty { lab with r_error := b } HTASK = false :=
      empty_false _ g hg hne
    unfold run
    rw [he]
    simp [init_run, env_ok, hg, RunState.init, run_finish]
  have h0 := hrun lab.r_error
  refine ⟨_, h0, ?_, ?_, ?_, ?_, hrun, f_r_error_mono⟩
  · unfold run_finish; split <;> rfl
  · unfold run_finish; split <;> rfl
  · cases hr : (run_bodies g order RunState.init).r_error with
    | true =>
        have hex := hv.1 hr
        simp only [run_finish, hr, if_true, Bool.false_eq_true, false_iff]
        intro hall
        obtain ⟨e, he, h2⟩ := hex
        have := hall e he
        rw [h2] at this; cases this
    | false =>
        simp only [run_finish, hr, Bool.false_eq_true, if_false, true_iff]
        intro e he
        cases h2 : e.2 with
        | true => rfl
        | false =>
            have := hv.2 ⟨e, he, h2⟩
            rw [hr] at this; cases this
  · unfold run_finish; split
    · rfl
    · next h => simpa using h

theorem C17_run_verdict_witness :
    lab3.tg = some gen3 ∧
    ∃ r, run lab3 MTSP env_ok [0, 1, 2] = some r ∧ r.entered = true ∧
      r.curs = (run_bodies gen3 [0, 1, 2] RunState.init).curs ∧
      (r.ret = true ↔ ∀ e ∈ r.curs, e.2 = true) ∧
      r.lab.r_error = false ∧
      (∀ b, run { lab3 with r_error := b } MTSP env_ok [0, 1, 2] = some r) ∧
      (∀ (p : tparam_t) (s : RunState), s.r_error = true → (f p s).r_error = true) :=
  ⟨rfl, C17_run_verdict lab3 gen3 [0, 1, 2] rfl (by decide)⟩

/-- C18 (runtime bind error), evaluated at a runtime in which `fork_call` does
not resolve while the other three entry points do: `init_run` returns `true`,
and `run` does not return failure but calls `fork_call` through a null
pointer. -/
theorem C18_fork_call_unchecked :
    init_run MTSP env_no_fork lab3.binds = (true, env_no_fork) ∧
    (run lab3 MTSP env_no_fork [0, 1, 2]).isNone = true := by
  decide

/-- The part of C18 that the code implements: when one of `omp_task_alloc`,
`omp_task_with_deps`, `omp_taskwait` does not resolve, `init_run` returns
`false` and `run` returns `false` without entering the parallel region. -/
theorem run_unbound (lab : Lab) (g : TaskGraph) (env : Bindings) (order : List Nat)
    (hg : lab.tg = some g) (hne : g.tasks ≠ [])
    (h : env.omp_task_alloc = false ∨ env.omp_task_with_deps = false ∨
      env.omp_taskwait = false) :
    (init_run MTSP env lab.binds).1 = false ∧
    ∃ r, run lab MTSP env order = some r ∧ r.ret = false ∧ r.entered = false ∧
      r.curs = [] := by
  have hi : (init_run MTSP env lab.binds).1 = false := by
    unfold init_run
    rcases h with h | h | h <;> simp [h]
  refine ⟨hi, ?_⟩
  unfold run
  rw [empty_false lab g hg hne]
  simp [hi]

/-- C19, as stated, fails: a failed `restore` on a session that holds a graph
returns `false` but does not leave the graph in place. -/
theorem C19_restore_counterexample :
    ¬ ((restore lab3 none).1 = false ∧ (restore lab3 none).2.tg = lab3.tg) := by
  intro h
  have h2 := h.2
  simp [restore, lab3, empty, Lab.new] at h2

/-- C19 (failed restore, amended): when `restore` cannot open its target file
it returns `false` and the session holds no graph afterwards; the rest of the
session is unchanged. -/
theorem C19_failed_restore (lab : Lab) :
    restore lab none = (false, { lab with tg := none }) := by
  unfold restore
  by_cases h : empty lab NONE = true
  · simp [h]
  · simp [h]

/-- C20 (empty graph): when no graph is loaded, or the loaded graph has no
tasks, `run` returns `false`, the session (graph, flags and function pointers)
is unchanged, the parallel region is not entered and no body runs. -/
theorem C20_empty_graph (lab : Lab) (rt : Nat) (env : Bindings) (order : List Nat)
    (h : lab.tg = none ∨ ∃ g, lab.tg = some g ∧ g.tasks = []) :
    run lab rt env order = some ⟨false, lab, false, []⟩ := by
  have he : empty lab HTASK = true := by
    unfold empty
    rcases h with h | ⟨g, hg, ht⟩
    · rw [h]
    · rw [hg]; simp [ht]
  unfold run
  rw [he]; rfl

theorem C20_empty_graph_witness :
    lab_ll.tg.isSome = true ∧
    run lab_ll MTSP env_ok [0] = some ⟨false, lab_ll, false, []⟩ :=
  ⟨rfl, C20_empty_graph lab_ll MTSP env_ok [0] (Or.inr ⟨_, rfl, rfl⟩)⟩

/-! ### Event bus -/

theorem watchEvent_length (lab : Lab) (k : Nat) :
    (watchEvent lab k).t_e.length = lab.t_e.length := by
  unfold watchEvent; split <;> simp

theorem hasEvent_watchEvent (lab : Lab) (hl : lab.t_e.length = 3) (k j : Nat) :
    hasEvent (watchEvent lab k) j = (hasEvent lab j || (decide (j = k) && decide (k < 3))) := by
  unfold hasEvent watchEvent
  by_cases hk : k < EVENT_S
  · rw [if_pos hk]
    by_cases hj : j < EVENT_S
    · rw [if_pos hj, if_pos hj]
      simp only [List.getD_eq_getElem?_getD, List.getElem?_set]
      by_cases hjk : k = j
      · subst hjk
        have : k < lab.t_e.length := by rw [hl]; exact hk
        simp [this, hk]
      · have hjk' : ¬ j = k := fun h => hjk h.symm
        simp [hjk, hjk']
    · rw [if_neg hj, if_neg hj]
      have : ¬ j = k := fun h => hj (h ▸ hk)
      simp [this]
  · rw [if_neg hk]
    have : ¬ k < 3 := hk
    simp [this]

/-- What the code does for a sequence of `watchEvent` calls on a fresh session:
`hasEvent k` holds exactly when `k < EVENT_S` and `k` was watched. -/
theorem hasEvent_watch_all (ks : List Nat) (j : Nat) :
    hasEvent (watch_all Lab.new ks) j = true ↔ j < 3 ∧ j ∈ ks := by
  have key : ∀ (lab : Lab), lab.t_e.length = 3 →
      (hasEvent (watch_all lab ks) j = true ↔ hasEvent lab j = true ∨ (j < 3 ∧ j ∈ ks)) := by
    induction ks with
    | nil => intro lab _; simp [watch_all]
    | cons k ks ih =>
        intro lab hl
        have := ih (watchEvent lab k) (by rw [watchEvent_length, hl])
        simp only [watch_all, List.foldl_cons] at this ⊢
        rw [this, hasEvent_watchEvent lab hl]
        simp only [Bool.or_eq_true, Bool.and_eq_true, decide_eq_true_eq, List.mem_cons]
        constructor
        · rintro ((h | ⟨h1, h2⟩) | ⟨h1, h2⟩)
          · exact Or.inl h
          · exact Or.inr ⟨h1 ▸ h2, Or.inl h1⟩
          · exact Or.inr ⟨h1, Or.inr h2⟩
        · rintro (h | ⟨h1, h2 | h2⟩)
          · exact Or.inl (Or.inl h)
          · exact Or.inl (Or.inr ⟨h2, h2 ▸ h1⟩)
          · exact Or.inr ⟨h1, h2⟩
  rw [key Lab.new rfl]
  simp [hasEvent, Lab.new]
  intro h
  have : j = 0 ∨ j = 1 ∨ j = 2 := by
    unfold EVENT_S at h; omega
  rcases this with h | h | h <;> simp [h]

/-- C21 (event kinds are a closed set), evaluated at the kind `0`: the value
`0` is neither `HTASK` nor `LTASK`, yet `watchEvent 0` on a fresh session is
not ignored and `hasEvent 0` returns `true` afterwards. -/
theorem C21_event_zero :
    (0 : Nat) ≠ HTASK ∧ (0 : Nat) ≠ LTASK ∧
    hasEvent Lab.new 0 = false ∧
    hasEvent (watchEvent Lab.new 0) 0 = true := by
  decide

/-! ### Event delivery, submissions and the verifier -/

theorem add_dep_ll (st : TaskGraph × task_i) (d : dep_s) :
    (add_dep st d).1.ll = st.1.ll := by
  obtain ⟨g, f_t⟩ := st; rw [add_dep_fst]

theorem add_deps_ll (g : TaskGraph) (recs : List dep_s) : (add_deps g recs).1.ll = g.ll := by
  induction recs using List.reverseRecOn with
  | nil => rfl
  | append_singleton recs d ih => rw [add_deps_snoc, add_dep_ll, ih]

theorem add_task_ll (g : TaskGraph) (t : task_s) : (g.add_task t).ll = g.ll := by
  rw [add_task_eq]
  show (add_deps g t.deparr).1.ll = g.ll
  exact add_deps_ll g t.deparr

theorem empty_none_iff (lab : Lab) : empty lab NONE = true ↔ lab.tg = none := by
  unfold empty
  cases lab.tg with
  | none => simp
  | some g => simp [NONE, HTASK, LTASK]

/-- C22 (event delivery routing): with `g0` the session's graph, or the empty
default graph when no graph is loaded, `eventOccurred LTASK` appends the word
at the end of `ll` and changes no other field of the graph or the session;
`eventOccurred HTASK` replaces the graph by `g0.add_task t`, whose `ll` is that
of `g0`; any other kind changes nothing. -/
theorem C22_event_routing (lab : Lab) (t_p : event_payload) :
    eventOccurred lab LTASK t_p =
      { lab with tg := some { lab.tg.getD TaskGraph.empty with
                              ll := (lab.tg.getD TaskGraph.empty).ll ++ [t_p.word] } } ∧
    eventOccurred lab HTASK t_p =
      { lab with tg := some ((lab.tg.getD TaskGraph.empty).add_task t_p.task) } ∧
    ((lab.tg.getD TaskGraph.empty).add_task t_p.task).ll = (lab.tg.getD TaskGraph.empty).ll ∧
    (∀ k, k ≠ HTASK → k ≠ LTASK → eventOccurred lab k t_p = lab) := by
  refine ⟨?_, ?_, add_task_ll _ _, ?_⟩
  · unfold eventOccurred
    rw [if_neg (by decide), if_pos rfl]
    cases h : lab.tg with
    | none =>
        have := (empty_none_iff lab).2 h
        simp [this]
    | some g =>
        have : empty lab NONE = false := by
          cases he : empty lab NONE with
          | false => rfl
          | true => rw [(empty_none_iff lab).1 he] at h; cases h
        simp [this, h]
  · unfold eventOccurred
    rw [if_pos rfl]
    cases h : lab.tg with
    | none =>
        have := (empty_none_iff lab).2 h
        simp [this]
    | some g =>
        have : empty lab NONE = false := by
          cases he : empty lab NONE with
          | false => rfl
          | true => rw [(empty_none_iff lab).1 he] at h; cases h
        simp [this, h]
  · intro k h1 h2
    unfold eventOccurred
    rw [if_neg h1, if_neg h2]

theorem trace_ntasks (ts : List task_s) :
    (trace ts).ntasks = (trace ts).tasks.length :=
  (TInv_of_reach (reach_add_deps ts [])).len

/-- C23 (submission descriptor layout): `microtask` makes one submission per
task of the vector, in vector order; the array of a task has one slot more than
the task has successor edges; slot 0 references the parameter block of the
task, `params[tID]`, with `in = true`, `out = false`; slot `k + 1` belongs to
the `k`-th successor edge `s`, references `varptr[s.var]` and has
`in = (s.type != OUT)` and `out = (s.type != IN)`. In a graph built by the
generator or by the tracer the task at position `q` has `tID = q` and there
are `ntasks` tasks, so the submissions are made in ascending task-id order. -/
theorem C23_submission_layout (g : TaskGraph) :
    (microtask_submissions g).length = g.tasks.length ∧
    (∀ (q : Nat) (tq : task_i), g.tasks[q]? = some tq →
      ∃ l, (microtask_submissions g)[q]? = some l ∧
        l.length = tq.successors.length + 1 ∧
        l[0]? = some ⟨Addr.params tq.tID, true, false⟩ ∧
        ∀ (k : Nat) (s : dep_i), tq.successors[k]? = some s →
          l[k + 1]? = some ⟨Addr.varptr s.var, s.type != OUT, s.type != IN⟩) ∧
    (((∃ n m d t r draws, generate n m d t r draws = some g) ∨ (∃ ts, g = trace ts)) →
      g.tasks.length = g.ntasks ∧
      ∀ (q : Nat) (tq : task_i), g.tasks[q]? = some tq → tq.tID = q) := by
  refine ⟨by simp [microtask_submissions], ?_, ?_⟩
  · intro q tq hq
    refine ⟨dep_list tq, by simp [microtask_submissions, hq], ?_, ?_, ?_⟩
    · simp [dep_list]
    · simp [dep_list]
    · intro k s hs
      simp [dep_list, hs]
  · intro hsrc
    constructor
    · rcases hsrc with ⟨n, m, d, t, r, draws, h⟩ | ⟨ts, h⟩
      · obtain ⟨E, -, h1, h2, -⟩ := generate_inv n m d t r draws g h
        rw [h1, h2]
      · subst h; exact (trace_ntasks ts).symm
    · rcases hsrc with ⟨n, m, d, t, r, draws, h⟩ | ⟨ts, h⟩
      · exact gen_tid n m d t r draws g h
      · subst h; exact trace_tid ts

/-- The submissions for the three-task chain `gen3`: task 1 hands over its
parameter block and its two successor edges. -/
theorem microtask_submissions_gen3 :
    (microtask_submissions gen3).length = 3 ∧
    (microtask_submissions gen3)[1]? =
      some [⟨Addr.params 1, true, false⟩, ⟨Addr.varptr 0, true, false⟩,
            ⟨Addr.varptr 1, false, true⟩] := by
  decide

/-- C28 (per-task verifier): `f` computes `cur` as the conjunction of the
`dep_chk` cells of its predecessor slots (`true` when there are none), stores
`cur` into every cell of its successor slots, leaves every other cell as it
was, and sets the failure flag when `cur` is `false` (the flag keeps its value
when `cur` is `true`). -/
theorem C28_verifier_post (p : tparam_t) (s : RunState) :
    (f p s).curs = s.curs ++ [(p.tID, p.pred.all s.dep_chk)] ∧
    (p.pred = [] → (f p s).curs = s.curs ++ [(p.tID, true)]) ∧
    (∀ k, k ∈ p.succ → (f p s).dep_chk k = p.pred.all s.dep_chk) ∧
    (∀ k, k ∉ p.succ → (f p s).dep_chk k = s.dep_chk k) ∧
    (f p s).r_error = (s.r_error || !(p.pred.all s.dep_chk)) := by
  have hcur : check_preds s.dep_chk p.pred = p.pred.all s.dep_chk := by
    cases h : p.pred.all s.dep_chk with
    | true =>
        rw [check_preds_eq_true]
        rw [List.all_eq_true] at h
        exact h
    | false =>
        cases h2 : check_preds s.dep_chk p.pred with
        | false => rfl
        | true =>
            rw [check_preds_eq_true] at h2
            rw [← List.all_eq_true, h] at h2
            cases h2
  refine ⟨?_, ?_, ?_, ?_, ?_⟩
  · simp [f, hcur]
  · intro hp; simp [f, hp, check_preds]
  · intro k hk; simp [f, hcur, set_succs_apply, hk]
  · intro k hk; simp [f, set_succs_apply, hk]
  · simp only [f, hcur]
    cases p.pred.all s.dep_chk <;> cases s.r_error <;> rfl

/-! ### Generator: feasibility of the distinct pick -/

theorem fresh_in_window (min : Nat) :
    ∀ (w : Nat) (results : List Nat), results.length < w →
      ∃ c, min ≤ c ∧ c < min + w ∧ c ∉ results := by
  intro w
  induction w with
  | zero => intro results h; exact absurd h (Nat.not_lt_zero _)
  | succ w ih =>
      intro results h
      by_cases hc : min + w ∈ results
      · have hlen : (results.erase (min + w)).length < w := by
          rw [List.length_erase_of_mem hc]
          have : 0 < results.length := List.length_pos_of_mem hc
          omega
        obtain ⟨c, h1, h2, h3⟩ := ih (results.erase (min + w)) hlen
        refine ⟨c, h1, by omega, ?_⟩
        intro hmem
        exact h3 ((List.mem_erase_of_ne (by omega)).2 hmem)
      · exact ⟨min + w, by omega, by omega, hc⟩

theorem pick_task_hit (min max c : Nat) (results rest : List Nat)
    (h1 : min ≤ c) (h2 : c < max) (h3 : c ∉ results) :
    pick_task min max results ((c - min) :: rest) = some (c, rest) := by
  unfold pick_task
  have : min + (c - min) % (max - min) = c := by
    rw [Nat.mod_eq_of_lt (by omega)]; omega
  simp only [this, if_neg h3]

theorem describe_loop_feasible (tID min max : Nat) :
    ∀ (todo done : List dep_i) (results : List Nat) (tasks : List task_i) (dep_id : Nat),
      todo.length + results.length ≤ max - min →
      ∃ (used : List Nat) (tasks1 : List task_i) (dep_id1 : Nat),
        tasks1.length = tasks.length ∧
        ∀ rest, describe_loop tID min max todo done results ⟨tasks, dep_id, used ++ rest⟩ =
          some ⟨tasks1, dep_id1, rest⟩ := by
  intro todo
  induction todo with
  | nil =>
      intro done results tasks dep_id _
      exact ⟨[], tasks, dep_id, rfl, fun rest => rfl⟩
  | cons x todo ih =>
      intro done results tasks dep_id hlen
      simp only [List.length_cons] at hlen
      have hw : max - min ≠ 0 := by omega
      obtain ⟨c, h1, h2, h3⟩ := fresh_in_window min (max - min) results (by omega)
      have h2' : c < max := by omega
      obtain ⟨used, tasks1, dep_id1, hl, hrun⟩ := ih (done ++ [⟨c, 0 % 2, dep_id, dep_id⟩])
        (results ++ [c])
        ((tasks.modify
            (fun t => { t with
              predecessors := done ++ (⟨c, 0 % 2, dep_id, dep_id⟩ : dep_i) :: todo
              successors := t.successors ++ [⟨0, 0 % 2, dep_id, dep_id⟩] }) tID).modify
          (fun t => { t with successors := t.successors ++ [⟨tID, OUT, dep_id, dep_id⟩] }) c)
        (dep_id + 1) (by simp; omega)
      refine ⟨(c - min) :: 0 :: used, tasks1, dep_id1, by rw [hl]; simp, ?_⟩
      intro rest
      unfold describe_loop
      rw [if_neg hw]
      simp only [List.cons_append, pick_task_hit min max c results _ h1 h2' h3, rand]
      exact hrun rest

theorem resize_length (l : List dep_i) (n : Nat) : (resize l n).length = n := by
  simp [resize]; omega

theorem window_pos (dep_r i : Nat) (hd : 1 ≤ dep_r) (hi : 1 ≤ i) :
    1 ≤ range_max dep_r i - range_min dep_r i := by
  rw [range_max_eq, range_min_eq]; omega

theorem npred_le_window (max_dep dep_r i r : Nat) (hd : 1 ≤ dep_r) (hi : 1 ≤ i) :
    (if cur_dep max_dep dep_r i = 0 then 1 else r % cur_dep max_dep dep_r i + 1) ≤
      range_max dep_r i - range_min dep_r i := by
  split
  · exact window_pos dep_r i hd hi
  · next hne =>
      have h1 := Nat.mod_lt r (Nat.pos_of_ne_zero hne)
      have h2 : cur_dep max_dep dep_r i ≤ range_max dep_r i - range_min dep_r i := by
        unfold cur_dep; exact Nat.min_le_right _ _
      omega

theorem draw_exec_zero (rest : List Nat) : draw_exec (0 :: 0 :: rest) = some (0, rest) := by
  simp [draw_exec, rand]

theorem create_step_feasible (max_dep i : Nat) (g : TaskGraph) (dep_id : Nat)
    (hd : 1 ≤ g.dep_r) (hi : 1 ≤ i) (hlt : i < g.tasks.length) :
    ∃ (used : List Nat) (g1 : TaskGraph) (dep_id1 : Nat),
      g1.dep_r = g.dep_r ∧ g1.tasks.length = g.tasks.length ∧
      ∀ rest, create_step max_dep i ⟨g, dep_id, used ++ rest⟩ = some ⟨g1, dep_id1, rest⟩ := by
  obtain ⟨t0, ht0⟩ : ∃ t0, g.tasks[i]? = some t0 := ⟨g.tasks[i], List.getElem?_eq_getElem hlt⟩
  -- the draw for `npred` is `0`, which gives `npred = 1`
  have hnp := npred_le_window max_dep g.dep_r i 0 hd hi
  have hnp1 : (if cur_dep max_dep g.dep_r i = 0 then 1 else 0 % cur_dep max_dep g.dep_r i + 1)
      = 1 := by split <;> simp
  have hget : (g.tasks.modify
        (fun t => { t with tID := i, exec := 0,
                           predecessors := resize t.predecessors 1 }) i)[i]? =
      some { t0 with tID := i, exec := 0, predecessors := resize t0.predecessors 1 } := by
    rw [List.getElem?_modify_eq, ht0]; rfl
  obtain ⟨used, tasks1, dep_id1, hl, hrun⟩ := describe_loop_feasible i
    (range_min g.dep_r i) (range_max g.dep_r i) (resize t0.predecessors 1) [] []
    (g.tasks.modify
        (fun t => { t with tID := i, exec := 0,
                           predecessors := resize t.predecessors 1 }) i)
    dep_id (by rw [resize_length]; simpa using window_pos g.dep_r i hd hi)
  by_cases hcd : cur_dep max_dep g.dep_r i = 0
  · refine ⟨0 :: 0 :: used,
      { g with tasks := tasks1, ndeps := g.ndeps + 1, nvar := g.ndeps + 1 },
      dep_id1, rfl, by simpa using hl, ?_⟩
    intro rest
    unfold create_step
    simp only [List.cons_append, draw_exec_zero, hcd, if_true]
    simp only [describe_deps]
    rw [hget]
    simp only [hrun rest]
  · refine ⟨0 :: 0 :: 0 :: used,
      { g with tasks := tasks1, ndeps := g.ndeps + 1, nvar := g.ndeps + 1 },
      dep_id1, rfl, by simpa using hl, ?_⟩
    intro rest
    unfold create_step
    simp only [List.cons_append, draw_exec_zero, rand, hcd, if_false, Nat.zero_mod, Nat.zero_add]
    simp only [describe_deps]
    rw [hget]
    simp only [hrun rest]

theorem create_loop_feasible (max_dep : Nat) :
    ∀ (k i : Nat) (g : TaskGraph) (dep_id : Nat),
      1 ≤ g.dep_r → 1 ≤ i → i + k ≤ g.tasks.length →
      ∃ (used : List Nat) (g1 : TaskGraph) (dep_id1 : Nat),
        ∀ rest, create_loop max_dep k i ⟨g, dep_id, used ++ rest⟩ = some ⟨g1, dep_id1, rest⟩ := by
  intro k
  induction k with
  | zero =>
      intro i g dep_id _ _ _
      exact ⟨[], g, dep_id, fun rest => rfl⟩
  | succ k ih =>
      intro i g dep_id hd hi hlen
      obtain ⟨u1, g1, id1, hd1, hl1, h1⟩ :=
        create_step_feasible max_dep i g dep_id hd hi (by omega)
      obtain ⟨u2, g2, id2, h2⟩ := ih (i + 1) g1 id1 (by omega) (by omega) (by omega)
      refine ⟨u1 ++ u2, g2, id2, ?_⟩
      intro rest
      unfold create_loop
      rw [List.append_assoc, h1 (u2 ++ rest)]
      exact h2 rest

theorem generate_feasible (n m d t : Nat) (r : ℚ) (hn : 1 ≤ n) (hd : 1 ≤ d) :
    ∃ (draws : List Nat) (g : TaskGraph), generate n m d t r draws = some g := by
  obtain ⟨n, rfl⟩ : ∃ k, n = k + 1 := ⟨n - 1, by omega⟩
  obtain ⟨used, g1, id1, h⟩ := create_loop_feasible m n 1
    { TaskGraph.new (n + 1) d t r with
      tasks := (TaskGraph.new (n + 1) d t r).tasks.modify
        (fun t => { t with tID := 0, exec := 0 }) 0 } 0
    (by simpa [TaskGraph.new] using hd) (le_refl 1)
    (by simp [TaskGraph.new]; omega)
  refine ⟨0 :: 0 :: used, g1, ?_⟩
  have h0 := h []
  simp only [List.append_nil] at h0
  unfold generate TaskGraph.create_tasks
  simp only [TaskGraph.new, List.replicate_succ, draw_exec_zero]
  simp only [TaskGraph.new, List.replicate_succ] at h0
  simp only [Nat.add_sub_cancel]
  rw [h0]

/-- C29 (degenerate window): for every task `i ≥ 1` of `create_tasks` the
computed `range_max` is `i` and the window size `range_max - range_min` is
`min i dep_r`; so the divisor of `rand() % (max - min)` in `describe_deps` is
zero exactly when `dep_r = 0`, and then the first predecessor entry aborts the
loop of `describe_deps`; with `dep_r ≥ 1` the divisor is never zero. -/
theorem C29_degenerate_window (dep_r i : Nat) (hi : 1 ≤ i) :
    range_max dep_r i = i ∧
    range_max dep_r i - range_min dep_r i = min i dep_r ∧
    (range_max dep_r i - range_min dep_r i = 0 ↔ dep_r = 0) ∧
    (dep_r = 0 → ∀ (tID : Nat) (x : dep_i) (todo done : List dep_i) (results : List Nat)
        (s : GenState),
      describe_loop tID (range_min dep_r i) (range_max dep_r i) (x :: todo) done results s
        = none) ∧
    (1 ≤ dep_r → range_max dep_r i - range_min dep_r i ≠ 0) := by
  have h1 := range_max_eq dep_r i
  have h2 := range_min_eq dep_r i
  refine ⟨h1, ?_, ?_, ?_, ?_⟩
  · rw [h1, h2]; omega
  · rw [h1, h2]; omega
  · intro h0 tID x todo done results s
    unfold describe_loop
    rw [if_pos (by rw [h1, h2]; omega)]
  · intro hd; rw [h1, h2]; omega

theorem C29_degenerate_window_witness :
    (1 : Nat) ≤ 2 ∧ range_max 0 2 = 2 ∧ range_max 0 2 - range_min 0 2 = min 2 0 :=
  ⟨by decide, (C29_degenerate_window 0 2 (by decide)).1,
    (C29_degenerate_window 0 2 (by decide)).2.1⟩

/-- C30 (feasibility of the distinct pick): with `dep_r ≥ 1`, for task `i ≥ 1`
of `create_tasks` the number of predecessors `npred` never exceeds the window
size `range_max - range_min`, whatever the draw; while fewer ids than the
window holds have been picked, some id of the window is not picked yet and the
rejection loop of `describe_deps` returns it on the draw that names it; and
for every `n ≥ 1` there are draws on which `create_tasks` runs to the end. -/
theorem C30_pick_feasible (max_dep dep_r i : Nat) (hd : 1 ≤ dep_r) (hi : 1 ≤ i) :
    (∀ r : Nat, (if cur_dep max_dep dep_r i = 0 then 1 else r % cur_dep max_dep dep_r i + 1)
        ≤ range_max dep_r i - range_min dep_r i) ∧
    (∀ results : List Nat, results.length < range_max dep_r i - range_min dep_r i →
      ∃ c, range_min dep_r i ≤ c ∧ c < range_max dep_r i ∧ c ∉ results ∧
        ∀ rest, pick_task (range_min dep_r i) (range_max dep_r i) results
          ((c - range_min dep_r i) :: rest) = some (c, rest)) ∧
    (∀ (n t : Nat) (r : ℚ), 1 ≤ n →
      ∃ (draws : List Nat) (g : TaskGraph), generate n max_dep dep_r t r draws = some g) := by
  refine ⟨fun r => npred_le_window max_dep dep_r i r hd hi, ?_, ?_⟩
  · intro results hlen
    obtain ⟨c, h1, h2, h3⟩ := fresh_in_window (range_min dep_r i) _ results hlen
    have hle : range_min dep_r i ≤ range_max dep_r i := by
      rw [range_max_eq, range_min_eq]; omega
    have h2' : c < range_max dep_r i := by omega
    exact ⟨c, h1, h2', h3, fun rest => pick_task_hit _ _ c results rest h1 h2' h3⟩
  · intro n t r hn
    exact generate_feasible n max_dep dep_r t r hn hd

theorem C30_pick_feasible_witness :
    ((1 : Nat) ≤ 2 ∧ (1 : Nat) ≤ 3) ∧
    (∀ r : Nat, (if cur_dep 2 2 3 = 0 then 1 else r % cur_dep 2 2 3 + 1)
        ≤ range_max 2 3 - range_min 2 3) :=
  ⟨⟨by decide, by decide⟩, (C30_pick_feasible 2 2 3 (by decide) (by decide)).1⟩

/-! ### Generator: the chain for a window of one -/

theorem resize_one (l : List dep_i) : ∃ x, resize l 1 = [x] := by
  have h := resize_length l 1
  match hr : resize l 1 with
  | [] => rw [hr] at h; simp at h
  | [x] => exact ⟨x, rfl⟩
  | _ :: _ :: _ => rw [hr] at h; simp at h

theorem describe_loop_single (tID min max : Nat) (hw : max - min = 1) (x : dep_i)
    (done : List dep_i) (tasks : List task_i) (dep_id a b : Nat) (rest : List Nat) :
    ∃ tasks1, tasks1.length = tasks.length ∧
      describe_loop tID min max [x] done [] ⟨tasks, dep_id, a :: b :: rest⟩ =
        some ⟨tasks1, dep_id + 1, rest⟩ := by
  unfold describe_loop
  rw [if_neg (by omega)]
  simp only [pick_task, List.not_mem_nil, if_false, rand]
  unfold describe_loop
  exact ⟨_, by simp, rfl⟩

theorem cur_dep_chain (max_dep i : Nat) (hi : 1 ≤ i) :
    cur_dep max_dep 1 i = 0 ∨ cur_dep max_dep 1 i = 1 := by
  have h := window_pos 1 i (le_refl 1) hi
  have h2 : range_max 1 i - range_min 1 i = 1 := by
    rw [range_max_eq, range_min_eq]; omega
  unfold cur_dep; rw [h2]; omega

theorem create_step_chain (max_dep i : Nat) (g : TaskGraph) (dep_id : Nat) (draws : List Nat)
    (hd : g.dep_r = 1) (hi : 1 ≤ i) (hlt : i < g.tasks.length) (hlen : 5 ≤ draws.length) :
    ∃ s1, create_step max_dep i ⟨g, dep_id, draws⟩ = some s1 ∧ s1.g.dep_r = 1 ∧
      s1.g.tasks.length = g.tasks.length ∧ s1.g.ntasks = g.ntasks ∧
      draws.length ≤ s1.draws.length + 5 := by
  obtain ⟨a, b, c, d, e, rest, rfl⟩ : ∃ a b c d e rest, draws = a :: b :: c :: d :: e :: rest := by
    match draws, hlen with
    | a :: b :: c :: d :: e :: rest, _ => exact ⟨a, b, c, d, e, rest, rfl⟩
  obtain ⟨t0, ht0⟩ : ∃ t0, g.tasks[i]? = some t0 := ⟨g.tasks[i], List.getElem?_eq_getElem hlt⟩
  obtain ⟨x, hx⟩ := resize_one t0.predecessors
  have hw : range_max g.dep_r i - range_min g.dep_r i = 1 := by
    rw [range_max_eq, range_min_eq, hd]; omega
  have hget : ∀ ex : Int, (g.tasks.modify
        (fun t => { t with tID := i, exec := ex,
                           predecessors := resize t.predecessors 1 }) i)[i]? =
      some { t0 with tID := i, exec := ex, predecessors := [x] } := by
    intro ex
    rw [List.getElem?_modify_eq, ht0, ← hx]; rfl
  unfold create_step
  simp only [draw_exec, rand]
  rcases (by rw [hd]; exact cur_dep_chain max_dep i hi :
      cur_dep max_dep g.dep_r i = 0 ∨ cur_dep max_dep g.dep_r i = 1) with hcd | hcd
  · simp only [hcd, if_true, describe_deps]
    rw [hget]
    simp only
    obtain ⟨tasks1, hl, hrun⟩ := describe_loop_single i (range_min g.dep_r i)
      (range_max g.dep_r i) hw x [] (g.tasks.modify
        (fun t => { t with tID := i,
                           exec := (if a % 2 = 0 then 1 else -1) * ((b % 100 : Nat) : Int),
                           predecessors := resize t.predecessors 1 }) i) dep_id c d (e :: rest)
    rw [hrun]
    refine ⟨_, rfl, hd, ?_, rfl, ?_⟩
    · simpa using hl
    · simp
  · simp only [hcd, Nat.one_ne_zero, if_false, Nat.mod_one, Nat.zero_add, describe_deps]
    rw [hget]
    simp only
    obtain ⟨tasks1, hl, hrun⟩ := describe_loop_single i (range_min g.dep_r i)
      (range_max g.dep_r i) hw x [] (g.tasks.modify
        (fun t => { t with tID := i,
                           exec := (if a % 2 = 0 then 1 else -1) * ((b % 100 : Nat) : Int),
                           predecessors := resize t.predecessors 1 }) i) dep_id d e rest
    rw [hrun]
    refine ⟨_, rfl, hd, ?_, rfl, ?_⟩
    · simpa using hl
    · simp

theorem create_loop_chain (max_dep : Nat) :
    ∀ (k i : Nat) (s : CreateState),
      s.g.dep_r = 1 → 1 ≤ i → i + k ≤ s.g.tasks.length → 5 * k ≤ s.draws.length →
      ∃ s1, create_loop max_dep k i s = some s1 := by
  intro k
  induction k with
  | zero => intro i s _ _ _ _; exact ⟨s, rfl⟩
  | succ k ih =>
      intro i s hd hi hlen hdr
      obtain ⟨s1, h1, hd1, hl1, -, hdr1⟩ :=
        create_step_chain max_dep i s.g s.dep_id s.draws hd hi (by omega) (by omega)
      obtain ⟨s2, h2⟩ := ih (i + 1) s1 hd1 (by omega) (by omega) (by omega)
      refine ⟨s2, ?_⟩
      unfold create_loop
      rw [h1]
      exact h2

theorem generate_chain (n m t : Nat) (r : ℚ) (draws : List Nat) (hn : 1 ≤ n)
    (hlen : 5 * n ≤ draws.length) : ∃ g, generate n m 1 t r draws = some g := by
  obtain ⟨n, rfl⟩ : ∃ k, n = k + 1 := ⟨n - 1, by omega⟩
  obtain ⟨a, b, rest, rfl⟩ : ∃ a b rest, draws = a :: b :: rest := by
    match draws, hlen with
    | a :: b :: rest, _ => exact ⟨a, b, rest, rfl⟩
  unfold generate TaskGraph.create_tasks
  simp only [TaskGraph.new, List.replicate_succ, draw_exec, rand, Nat.add_sub_cancel]
  obtain ⟨s1, h1⟩ := create_loop_chain m n 1
    ⟨⟨List.modify (fun t => { t with tID := 0, exec := (if a % 2 = 0 then 1 else -1) * ((b % 100 : Nat) : Int) }) 0
          (task_i.zero :: List.replicate n task_i.zero),
       n + 1, 0, 0, 1, t, r, fun _ => none, fun _ => none, []⟩, 0, rest⟩
    rfl (le_refl 1) (by simp; omega) (by simp at hlen ⊢; omega)
  rw [h1]
  exact ⟨s1.g, rfl⟩

theorem chain_preds (n m t : Nat) (r : ℚ) (draws : List Nat) (g : TaskGraph)
    (h : generate n m 1 t r draws = some g) (i : Nat) (t_i : task_i)
    (hq : g.tasks[i]? = some t_i) :
    (i = 0 → t_i.predecessors = []) ∧
    (1 ≤ i → ∃ e : dep_i, t_i.predecessors = [e] ∧ e.task = i - 1) := by
  obtain ⟨E, hG, hL, hlen, -, -, -, hn⟩ := generate_log n m 1 t r draws g h
  have hil : i < g.tasks.length := (List.getElem?_eq_some_iff.1 hq).1
  have hp := preds_eq_log _ _ _ _ _ hG i t_i hq
  have htask : ∀ e ∈ E.filter (fun e => decide (e.1 = i)), e.2.task = i - 1 ∧ 1 ≤ i := by
    intro e he
    rw [List.mem_filter, decide_eq_true_eq] at he
    have := hG.edge e he.1
    omega
  constructor
  · intro hi0
    rw [hp]
    match hf : E.filter (fun e => decide (e.1 = i)) with
    | [] => rw [hf]; rfl
    | e :: _ =>
        have := htask e (by rw [hf]; exact List.mem_cons_self _ _)
        omega
  · intro hi1
    have hfan := hL.fanin i hi1 (by omega)
    have hnd := hL.distinct i
    rw [hp]
    match hf : E.filter (fun e => decide (e.1 = i)) with
    | [] => rw [hf] at hfan; simp at hfan
    | [e] =>
        exact ⟨e.2, by rw [hf]; rfl, (htask e (by rw [hf]; exact List.mem_cons_self _ _)).1⟩
    | e1 :: e2 :: l =>
        have h1 := (htask e1 (by rw [hf]; simp)).1
        have h2 := (htask e2 (by rw [hf]; simp)).1
        rw [hf] at hnd
        simp [h1, h2] at hnd

/-- C24 (chain for a window of one): for every `n ≥ 1`, every `m` and every
sequence of draws, `generate n m 1` returns a graph as soon as the sequence has
`5 * n` draws, and in every graph it returns there are `n` tasks, task 0 has
no predecessor, and every task `i ≥ 1` has exactly one predecessor edge, which
names task `i - 1`. -/
theorem C24_chain_window_one (n m t : Nat) (r : ℚ) (draws : List Nat) (hn : 1 ≤ n) :
    (5 * n ≤ draws.length → ∃ g, generate n m 1 t r draws = some g) ∧
    (∀ g, generate n m 1 t r draws = some g →
      g.tasks.length = n ∧
      ∀ (i : Nat) (t_i : task_i), g.tasks[i]? = some t_i →
        (i = 0 → t_i.predecessors = []) ∧
        (1 ≤ i → ∃ e : dep_i, t_i.predecessors = [e] ∧ e.task = i - 1)) := by
  refine ⟨fun hlen => generate_chain n m t r draws hn hlen, ?_⟩
  intro g h
  obtain ⟨E, -, -, hlen, -⟩ := generate_log n m 1 t r draws g h
  exact ⟨hlen, fun i t_i hq => chain_preds n m t r draws g h i t_i hq⟩

theorem C24_chain_window_one_witness :
    (1 : Nat) ≤ 3 ∧ 5 * 3 ≤ draws_chain.length ∧
    ∃ g, generate 3 1 1 0 0 draws_chain = some g :=
  ⟨by decide, by decide,
    (C24_chain_window_one 3 1 0 0 draws_chain (by decide)).1 (by decide)⟩

/-! ### Tracer: writer after writer, first touch -/

theorem steps_nvar {st st1 : TaskGraph × task_i} (h : Steps st st1) :
    st.1.nvar ≤ st1.1.nvar := by
  induction h with
  | refl => exact le_refl _
  | step d _ ih => exact le_trans ih (nvar_mono _ d)
  | next _ ih => exact ih

theorem first_touch_srcs (g : TaskGraph) (d : dep_s) (ho : g.out_map d.varptr = none)
    (hin : d.mode ≠ IN → g.in_map d.varptr = none) :
    hazard_srcs g d = [] ∧ rec_var g d = g.nvar := by
  unfold hazard_srcs rec_var
  by_cases hm : d.mode ≠ IN
  · rw [if_pos hm, if_pos hm, hin hm, ho]; exact ⟨rfl, rfl⟩
  · rw [if_neg hm, if_neg hm, ho]; exact ⟨rfl, rfl⟩

/-- C26 (writer after writer): in any reachable state of `add_task`, a writer
record (mode other than `IN`) on an address that has a last writer `w` and no
reader entry appends exactly one predecessor edge, which names `w`'s task id
and dependency id and carries `w`'s var id; the record's own successor edge
carries the same var id; `nvar` is unchanged; and the new task becomes the
last writer of the address, with that var id. -/
theorem C26_write_after_write (ts : List task_s) (recs : List dep_s) (d : dep_s) (w : dep_i)
    (hm : d.mode ≠ IN)
    (hw : (add_deps (trace ts) recs).1.out_map d.varptr = some w)
    (hr : (add_deps (trace ts) recs).1.in_map d.varptr = none) :
    (add_dep (add_deps (trace ts) recs) d).2.predecessors =
      (add_deps (trace ts) recs).2.predecessors ++ [⟨w.task, d.mode, w.dID, w.var⟩] ∧
    (add_dep (add_deps (trace ts) recs) d).2.successors =
      (add_deps (trace ts) recs).2.successors ++
        [⟨0, d.mode, (add_deps (trace ts) recs).1.ndeps, w.var⟩] ∧
    (add_dep (add_deps (trace ts) recs) d).1.nvar = (add_deps (trace ts) recs).1.nvar ∧
    (add_dep (add_deps (trace ts) recs) d).1.out_map d.varptr =
      some ⟨(trace ts).ntasks, d.mode, (add_deps (trace ts) recs).1.ndeps, w.var⟩ ∧
    (add_dep (add_deps (trace ts) recs) d).1.in_map d.varptr = none := by
  have hreach := reach_add_deps ts recs
  have hI := TInv_of_reach hreach
  have hv : rec_var (add_deps (trace ts) recs).1 d = w.var := by
    unfold rec_var; rw [if_pos hm, hr, hw]
  have hlt := hI.out_var _ w hw
  refine ⟨?_, ?_, ?_, ?_, ?_⟩
  · rw [add_dep_predecessors, hv]
    unfold hazard_srcs; rw [if_pos hm, hr, hw]; rfl
  · rw [add_dep_successors, hv]
  · rw [add_dep_nvar, hv, if_neg (Nat.ne_of_lt hlt)]
  · rw [add_dep_out_map, if_pos hm, hv, add_deps_tID]; simp [mapSet]
  · rw [add_dep_in_map, if_pos hm]; simp [mapSet]

theorem C26_write_after_write_witness :
    (add_deps (trace scenario3) []).1.out_map 7 = some ⟨2, OUT, 2, 0⟩ ∧
    (add_deps (trace scenario3) []).1.in_map 7 = none ∧
    (add_dep (add_deps (trace scenario3) []) ⟨7, OUT⟩).2.predecessors =
      (add_deps (trace scenario3) []).2.predecessors ++ [⟨2, OUT, 2, 0⟩] :=
  ⟨by decide, by decide,
    (C26_write_after_write scenario3 [] ⟨7, OUT⟩ ⟨2, OUT, 2, 0⟩ (by decide) (by decide)
      (by decide)).1⟩

/-- C27 (fresh variable on first touch): when `add_task` processes a record on
an address that has no last writer (and, for a writer record, no reader entry
either), the record adds no predecessor edge, its successor edge carries the
value of `nvar` before the record, and `nvar` grows by exactly one; so a later
record that is again the first to touch its address gets a successor edge with
a different (larger) var id. -/
theorem C27_first_touch (st st2 : TaskGraph × task_i) (d d2 : dep_s)
    (ho : st.1.out_map d.varptr = none)
    (hin : d.mode ≠ IN → st.1.in_map d.varptr = none)
    (hs : Steps (add_dep st d) st2)
    (ho2 : st2.1.out_map d2.varptr = none)
    (hin2 : d2.mode ≠ IN → st2.1.in_map d2.varptr = none) :
    (add_dep st d).2.predecessors = st.2.predecessors ∧
    (add_dep st d).2.successors = st.2.successors ++ [⟨0, d.mode, st.1.ndeps, st.1.nvar⟩] ∧
    (add_dep st d).1.nvar = st.1.nvar + 1 ∧
    (add_dep st2 d2).2.predecessors = st2.2.predecessors ∧
    (add_dep st2 d2).2.successors =
      st2.2.successors ++ [⟨0, d2.mode, st2.1.ndeps, st2.1.nvar⟩] ∧
    st.1.nvar < st2.1.nvar := by
  obtain ⟨hs1, hv1⟩ := first_touch_srcs st.1 d ho hin
  obtain ⟨hs2, hv2⟩ := first_touch_srcs st2.1 d2 ho2 hin2
  have hn : (add_dep st d).1.nvar = st.1.nvar + 1 := by
    rw [add_dep_nvar, hv1, if_pos rfl]
  have hmono := steps_nvar hs
  refine ⟨?_, ?_, hn, ?_, ?_, by omega⟩
  · rw [add_dep_predecessors, hs1]; simp
  · rw [add_dep_successors, hv1]
  · rw [add_dep_predecessors, hs2]; simp
  · rw [add_dep_successors, hv2]

theorem C27_first_touch_witness :
    (TaskGraph.empty.out_map 100 = none ∧
      (push (add_dep (TaskGraph.empty, new_f_t TaskGraph.empty) ⟨100, IN⟩)).out_map 200
        = none) ∧
    (add_dep (TaskGraph.empty, new_f_t TaskGraph.empty) ⟨100, IN⟩).2.successors
      = [⟨0, IN, 0, 0⟩] ∧
    (add_dep (push (add_dep (TaskGraph.empty, new_f_t TaskGraph.empty) ⟨100, IN⟩),
        new_f_t (push (add_dep (TaskGraph.empty, new_f_t TaskGraph.empty) ⟨100, IN⟩)))
        ⟨200, OUT⟩).2.successors = [⟨0, OUT, 1, 1⟩] :=
  ⟨⟨by decide, by decide⟩,
    (C27_first_touch (TaskGraph.empty, new_f_t TaskGraph.empty)
      (push (add_dep (TaskGraph.empty, new_f_t TaskGraph.empty) ⟨100, IN⟩),
        new_f_t (push (add_dep (TaskGraph.empty, new_f_t TaskGraph.empty) ⟨100, IN⟩)))
      ⟨100, IN⟩ ⟨200, OUT⟩ (by decide) (by decide) (Steps.next (Steps.refl _))
      (by decide) (by decide)).2.1,
    (C27_first_touch (TaskGraph.empty, new_f_t TaskGraph.empty)
      (push (add_dep (TaskGraph.empty, new_f_t TaskGraph.empty) ⟨100, IN⟩),
        new_f_t (push (add_dep (TaskGraph.empty, new_f_t TaskGraph.empty) ⟨100, IN⟩)))
      ⟨100, IN⟩ ⟨200, OUT⟩ (by decide) (by decide) (Steps.next (Steps.refl _))
      (by decide) (by decide)).2.2.2.2.1⟩

/-! ### Tracer: provenance of the hazard maps -/

theorem recsOf_step_mem (cur : List dep_s) (done : List (List dep_s)) (d r : dep_s) (k : Nat)
    (h : r ∈ recsOf (cur :: done) k) : r ∈ recsOf ((d :: cur) :: done) k := by
  rw [recsOf_step]
  split
  · exact List.mem_cons_of_mem _ h
  · exact h

theorem recsOf_step_new (cur : List dep_s) (done : List (List dep_s)) (d : dep_s) :
    d ∈ recsOf ((d :: cur) :: done) done.length := by
  rw [recsOf_step, if_pos rfl]
  exact List.mem_cons_self _ _

theorem MInv_of_reach {h : List (List dep_s)} {st : TaskGraph × task_i}
    (hr : Reach h st) : MInv h st := by
  induction hr with
  | init =>
      constructor
      · intro A w h1; simp [TaskGraph.empty, TaskGraph.new] at h1
      · intro A rs r h1; simp [TaskGraph.empty, TaskGraph.new] at h1
  | @step cur done st d hprev ih =>
      have hI := TInv_of_reach hprev
      have hR := RInv_of_reach hprev
      have hdl : done.length = st.1.tasks.length := by have := hR.hlen; simpa using this
      have ht : st.2.tID = done.length := (hI.tid _ _ (f_t_last st)).trans hdl.symm
      have wmono : ∀ A k, Wr (cur :: done) A k → Wr ((d :: cur) :: done) A k := by
        rintro A k ⟨r, hr, hA, hm⟩
        exact ⟨r, recsOf_step_mem cur done d r k hr, hA, hm⟩
      have rmono : ∀ A k, Rd (cur :: done) A k → Rd ((d :: cur) :: done) A k := by
        rintro A k ⟨r, hr, hA, hm⟩
        exact ⟨r, recsOf_step_mem cur done d r k hr, hA, hm⟩
      constructor
      · intro A w h1
        rw [add_dep_out_map] at h1
        by_cases hm : d.mode ≠ IN
        · rw [if_pos hm] at h1
          rcases mapSet_eq_some _ _ _ _ _ h1 with ⟨hA, h⟩ | ⟨_, h⟩
          · cases h
            show Wr _ A st.2.tID
            rw [ht, hA]
            exact ⟨d, recsOf_step_new cur done d, rfl, hm⟩
          · exact wmono A _ (ih.out A w h)
        · rw [if_neg hm] at h1
          exact wmono A _ (ih.out A w h1)
      · intro A rs r h1 h2
        rw [add_dep_in_map] at h1
        by_cases hm : d.mode ≠ IN
        · rw [if_pos hm] at h1
          rcases mapSet_eq_some _ _ _ _ _ h1 with ⟨_, h⟩ | ⟨_, h⟩
          · cases h
          · exact rmono A _ (ih.inn A rs r h h2)
        · rw [if_neg hm] at h1
          rcases mapSet_eq_some _ _ _ _ _ h1 with ⟨hA, h⟩ | ⟨_, h⟩
          · cases h
            rcases List.mem_append.1 h2 with hr | hr
            · cases hi : st.1.in_map d.varptr with
              | none => rw [hi] at hr; simp at hr
              | some rs0 =>
                  rw [hi] at hr
                  rw [hA]
                  exact rmono _ _ (ih.inn _ rs0 r hi hr)
            · rw [List.mem_singleton.1 hr]
              show Rd _ A st.2.tID
              rw [ht, hA]
              exact ⟨d, recsOf_step_new cur done d, rfl, not_not.1 hm⟩
          · exact rmono A _ (ih.inn A rs r h h2)
  | @next h st _ ih =>
      constructor
      · intro A w h1
        obtain ⟨r, hr, hA, hm⟩ := ih.out A w h1
        exact ⟨r, by rw [recsOf_next]; exact hr, hA, hm⟩
      · intro A rs r h1 h2
        obtain ⟨r', hr, hA, hm⟩ := ih.inn A rs r h1 h2
        exact ⟨r', by rw [recsOf_next]; exact hr, hA, hm⟩

/-- Records of task `k` in terms of the stream: the `k`-th submission of
`ts`, or the records `recs` of the submission in progress. -/
theorem recsOf_stream (ts : List task_s) (recs : List dep_s) (k : Nat) (r : dep_s)
    (h : r ∈ recsOf (recs.reverse :: (ts.map (fun t => t.deparr.reverse)).reverse) k) :
    ∃ sub, (ts.map (fun t => t.deparr) ++ [recs])[k]? = some sub ∧ r ∈ sub := by
  unfold recsOf at h
  simp only [List.reverse_cons, List.reverse_reverse, List.getD_eq_getElem?_getD] at h
  rcases Nat.lt_trichotomy k ts.length with hk | hk | hk
  · rw [List.getElem?_append_left (by simpa using hk), List.getElem?_map] at h
    obtain ⟨t, ht⟩ : ∃ t, ts[k]? = some t := ⟨ts[k], List.getElem?_eq_getElem hk⟩
    rw [ht] at h
    refine ⟨t.deparr, ?_, by simpa using h⟩
    rw [List.getElem?_append_left (by simpa using hk), List.getElem?_map, ht]; rfl
  · subst hk
    refine ⟨recs, by simp, ?_⟩
    have e : ts.length = (ts.map (fun t => t.deparr.reverse)).length := by simp
    rw [e, List.getElem?_concat_length] at h
    simpa using h
  · rw [List.getElem?_eq_none (by simp; omega)] at h
    simp at h

/-! ### Tracer: writer after readers -/

/-- C9, as stated, fails: after the submission `[(100, OUT), (100, IN)]` the
last writer of address 100 is task 0 and the reader set holds task 0 as well;
a writer record on 100 then appends the edge `⟨0, OUT, 1, 0⟩`, which names the
last writer's task. -/
theorem C9_writer_after_readers_counterexample :
    (add_deps (trace write_then_read) []).1.in_map 100 = some [⟨0, IN, 1, 0⟩] ∧
    (add_deps (trace write_then_read) []).1.out_map 100 = some ⟨0, OUT, 0, 0⟩ ∧
    (add_deps (trace write_then_read) []).2.predecessors = [] ∧
    (add_dep (add_deps (trace write_then_read) []) ⟨100, OUT⟩).2.predecessors =
      [⟨0, OUT, 1, 0⟩] ∧
    ¬ (∀ e ∈ (add_dep (add_deps (trace write_then_read) []) ⟨100, OUT⟩).2.predecessors,
        e.task ≠ 0) := by
  decide

/-- C9 (writer after readers, amended): when `add_task` processes a writer
record on an address whose reader set is present, it appends exactly one
predecessor edge per reader, in the order the readers were recorded, each with
that reader's task id and dependency id, and no other edge; none of these edges
carries the dependency id of the last writer, and one of them names the last
writer's task only when the submission of that task holds both a writer record
and an `IN` record on the address, so never when no submission names an
address twice; afterwards the reader set of the address is gone and the last
writer of the address is the new task with the new record's dependency id. -/
theorem C9_writer_after_readers (ts : List task_s) (recs : List dep_s) (d : dep_s)
    (readers : List dep_i) (hm : d.mode ≠ IN)
    (hr : (add_deps (trace ts) recs).1.in_map d.varptr = some readers) :
    readers ≠ [] ∧
    (∃ v, (add_dep (add_deps (trace ts) recs) d).2.predecessors =
        (add_deps (trace ts) recs).2.predecessors ++
          readers.map (fun r => (⟨r.task, d.mode, r.dID, v⟩ : dep_i)) ∧
      (add_dep (add_deps (trace ts) recs) d).1.out_map d.varptr =
        some ⟨(trace ts).ntasks, d.mode, (add_deps (trace ts) recs).1.ndeps, v⟩ ∧
      (add_dep (add_deps (trace ts) recs) d).2.successors =
        (add_deps (trace ts) recs).2.successors ++
          [⟨0, d.mode, (add_deps (trace ts) recs).1.ndeps, v⟩]) ∧
    (∀ w, (add_deps (trace ts) recs).1.out_map d.varptr = some w →
      (∀ r ∈ readers, r.dID ≠ w.dID) ∧
      (∀ r ∈ readers, r.task = w.task →
        ∃ sub, (ts.map (fun t => t.deparr) ++ [recs])[w.task]? = some sub ∧
          (∃ a ∈ sub, a.varptr = d.varptr ∧ a.mode ≠ IN) ∧
          (∃ b ∈ sub, b.varptr = d.varptr ∧ b.mode = IN)) ∧
      ((∀ sub ∈ ts.map (fun t => t.deparr) ++ [recs],
          (sub.map (fun a => a.varptr)).Nodup) →
        ∀ r ∈ readers, r.task ≠ w.task)) ∧
    (add_dep (add_deps (trace ts) recs) d).1.in_map d.varptr = none := by
  have hreach := reach_add_deps ts recs
  have hI := TInv_of_reach hreach
  have hM := MInv_of_reach hreach
  have hsame : ∀ w, (add_deps (trace ts) recs).1.out_map d.varptr = some w →
      ∀ r ∈ readers, r.task = w.task →
        ∃ sub, (ts.map (fun t => t.deparr) ++ [recs])[w.task]? = some sub ∧
          (∃ a ∈ sub, a.varptr = d.varptr ∧ a.mode ≠ IN) ∧
          (∃ b ∈ sub, b.varptr = d.varptr ∧ b.mode = IN) := by
    intro w hw r hr' hrw
    obtain ⟨a, ha, haA, ham⟩ := hM.out _ w hw
    obtain ⟨b, hb, hbA, hbm⟩ := hM.inn _ readers r hr hr'
    rw [hrw] at hb
    obtain ⟨sub, hsub, hasub⟩ := recsOf_stream ts recs w.task a ha
    obtain ⟨sub', hsub', hbsub⟩ := recsOf_stream ts recs w.task b hb
    rw [hsub] at hsub'
    cases hsub'
    exact ⟨sub, hsub, ⟨a, hasub, haA, ham⟩, ⟨b, hbsub, hbA, hbm⟩⟩
  refine ⟨(hI.in_ne _ _ hr).1, ⟨rec_var (add_deps (trace ts) recs).1 d, ?_, ?_, ?_⟩, ?_, ?_⟩
  · rw [add_dep_predecessors]
    unfold hazard_srcs; rw [if_pos hm, hr]
  · rw [add_dep_out_map, if_pos hm, add_deps_tID]; simp [mapSet]
  · rw [add_dep_successors]
  · intro w hw
    refine ⟨?_, hsame w hw, ?_⟩
    · intro r hr'
      exact in_out_ne_of_reach hreach _ _ readers r w hr hr' hw
    · intro hnd r hr' hrw
      obtain ⟨sub, hsub, ⟨a, ha, haA, ham⟩, ⟨b, hb, hbA, hbm⟩⟩ := hsame w hw r hr' hrw
      have hmem : sub ∈ ts.map (fun t => t.deparr) ++ [recs] := List.getElem?_mem hsub
      have hab : a = b :=
        List.inj_on_of_nodup_map (hnd sub hmem) ha hb (by rw [haA, hbA])
      rw [hab] at ham
      exact ham hbm
  · rw [add_dep_in_map, if_pos hm]; simp [mapSet]

theorem C9_writer_after_readers_witness :
    (add_deps (trace scenario4_readers) []).1.in_map 7 = some [⟨1, IN, 1, 0⟩, ⟨2, IN, 2, 0⟩] ∧
    (add_dep (add_deps (trace scenario4_readers) []) ⟨7, OUT⟩).1.in_map 7 = none :=
  ⟨by decide,
    (C9_writer_after_readers scenario4_readers [] ⟨7, OUT⟩ [⟨1, IN, 1, 0⟩, ⟨2, IN, 2, 0⟩]
      (by decide) (by decide)).2.2.2⟩

/-! ### Persistence: round trip of the archive -/

theorem load_save_items {α : Type} (put : α → Archive) (get : Archive → Option (α × Archive))
    (h : ∀ x rest, get (put x ++ rest) = some (x, rest)) :
    ∀ (l : List α) (rest : Archive),
      load_items get l.length (save_items put l ++ rest) = some (l, rest) := by
  intro l
  induction l with
  | nil => intro rest; rfl
  | cons x xs ih =>
      intro rest
      simp only [List.length_cons, save_items, load_items, List.append_assoc, h, ih]

theorem load_save_collection {α : Type} (put : α → Archive)
    (get : Archive → Option (α × Archive))
    (h : ∀ x rest, get (put x ++ rest) = some (x, rest)) (l : List α) (rest : Archive) :
    load_collection get (save_collection put l ++ rest) = some (l, rest) := by
  simp only [load_collection, save_collection, List.cons_append, load_nat]
  exact load_save_items put get h l rest

theorem load_save_dep (d : dep_i) (rest : Archive) :
    dep_i.serialize_load (d.serialize_save ++ rest) = some (d, rest) := rfl

theorem load_save_task (npred : Nat) (t : task_i) (rest : Archive) :
    task_i.serialize_load (t.serialize_save npred ++ rest) = some (t, rest) := by
  simp only [task_i.serialize_load, task_i.serialize_save, List.append_assoc,
    load_save_collection _ _ load_save_dep, List.cons_append, List.nil_append]

theorem load_save_tasks (np : Nat → Nat) :
    ∀ (l : List task_i) (i : Nat) (rest : Archive),
      load_items task_i.serialize_load l.length (save_tasks np i l ++ rest) = some (l, rest) := by
  intro l
  induction l with
  | nil => intro i rest; rfl
  | cons x xs ih =>
      intro i rest
      simp only [List.length_cons, save_tasks, load_items, List.append_assoc, load_save_task, ih]

theorem foldl_map_insert {β : Type} (ps : List (Nat × β)) :
    ∀ (m : Nat → Option β) (A : Nat),
      ps.foldl map_insert m A =
        match m A with
        | some v => some v
        | none => (ps.find? (fun p => decide (p.1 = A))).map (fun p => p.2) := by
  induction ps with
  | nil => intro m A; simp only [List.foldl_nil]; cases m A <;> rfl
  | cons p ps ih =>
      intro m A
      rw [List.foldl_cons, ih]
      unfold map_insert
      by_cases hp : (m p.1).isSome = true
      · rw [if_pos hp]
        cases hA : m A with
        | some v => rfl
        | none =>
            have hne : ¬ p.1 = A := by
              intro h; rw [h, hA] at hp; cases hp
            simp [List.find?_cons, hne]
      · rw [if_neg hp]
        by_cases hpa : p.1 = A
        · have hmA : m A = none := by
            rw [← hpa]; cases h : m p.1 with
            | none => rfl
            | some v => rw [h] at hp; exact absurd rfl hp
          simp [mapSet, hpa, hmA, List.find?_cons]
        · have hap : ¬ A = p.1 := fun h => hpa h.symm
          simp only [mapSet, if_neg hap]
          cases m A with
          | some v => rfl
          | none => simp [List.find?_cons, hpa]

theorem find_map_entries {β : Type} (m : Nat → Option β) (A : Nat) :
    ∀ keys : List Nat,
      ((map_entries keys m).find? (fun p => decide (p.1 = A))).map (fun p => p.2) =
        if A ∈ keys then m A else none := by
  intro keys
  induction keys with
  | nil => rfl
  | cons k ks ih =>
      unfold map_entries at ih ⊢
      rw [List.filterMap_cons]
      cases hk : m k with
      | none =>
          simp only [Option.map_none']
          rw [ih]
          by_cases hA : A = k
          · subst hA; simp [hk]
          · simp [hA]
      | some v =>
          simp only [Option.map_some', List.find?_cons]
          by_cases hA : k = A
          · subst hA; simp [hk]
          · have hA' : ¬ A = k := fun h => hA h.symm
            simp only [hA, decide_False]
            rw [ih]
            simp [hA']

theorem load_save_map {β : Type} (put : β → Archive) (get : Archive → Option (β × Archive))
    (h : ∀ x rest, get (put x ++ rest) = some (x, rest)) (keys : List Nat)
    (m : Nat → Option β) (hk : ∀ A, (m A).isSome = true → A ∈ keys) (rest : Archive) :
    load_map get (save_map put keys m ++ rest) = some (m, rest) := by
  have hc := load_save_collection (save_entry put) (load_entry get)
    (by intro p rest0; simp only [save_entry, load_entry, List.cons_append, load_nat, h])
    (map_entries keys m) rest
  unfold load_map save_map
  rw [hc]
  simp only [Option.some.injEq, Prod.mk.injEq, and_true]
  funext A
  rw [foldl_map_insert, find_map_entries]
  by_cases hA : A ∈ keys
  · rw [if_pos hA]
  · rw [if_neg hA]
    cases hm : m A with
    | none => rfl
    | some v => exact absurd (hk A (by rw [hm]; rfl)) hA

theorem load_save_task_vector (np : Nat → Nat) (l : List task_i) (rest : Archive) :
    load_collection task_i.serialize_load (Tok.nat l.length :: (save_tasks np 0 l ++ rest)) =
      some (l, rest) := by
  simp only [load_collection, load_nat]
  exact load_save_tasks np l 0 rest

/-- Round trip of `TaskGraph::serialize`: loading what was saved for a graph
gives the graph back, in every member, when `keys` lists every key of the two
hazard maps. -/
theorem load_save_graph (keys : List Nat) (np : Nat → Nat) (g : TaskGraph)
    (hin : ∀ A, (g.in_map A).isSome = true → A ∈ keys)
    (hout : ∀ A, (g.out_map A).isSome = true → A ∈ keys) (rest : Archive) :
    TaskGraph.serialize_load (g.serialize_save keys np ++ rest) = some (g, rest) := by
  unfold TaskGraph.serialize_load TaskGraph.serialize_save
  simp only [List.cons_append, List.append_assoc, List.nil_append]
  rw [load_save_task_vector]
  simp only []
  rw [load_save_map _ _ (load_save_collection _ _ load_save_dep) keys g.in_map hin]
  simp only []
  rw [load_save_map _ _ load_save_dep keys g.out_map hout]
  simp only []
  rw [load_save_collection save_word load_nat (fun x rest0 => rfl) g.ll rest]

theorem create_step_maps (max_dep i : Nat) (s s1 : CreateState)
    (h : create_step max_dep i s = some s1) :
    s1.g.in_map = s.g.in_map ∧ s1.g.out_map = s.g.out_map := by
  unfold create_step at h
  simp only at h
  split at h
  · cases h
  · split at h
    · cases h
    · split at h
      · cases h
      · simp only [Option.some.injEq] at h
        subst h
        exact ⟨rfl, rfl⟩

theorem create_loop_maps (max_dep : Nat) :
    ∀ (k i : Nat) (s s1 : CreateState), create_loop max_dep k i s = some s1 →
      s1.g.in_map = s.g.in_map ∧ s1.g.out_map = s.g.out_map := by
  intro k
  induction k with
  | zero => intro i s s1 h; cases h; exact ⟨rfl, rfl⟩
  | succ k ih =>
      intro i s s1 h
      unfold create_loop at h
      split at h
      · cases h
      · next s0 hs0 =>
          obtain ⟨h1, h2⟩ := create_step_maps max_dep i s s0 hs0
          obtain ⟨h3, h4⟩ := ih (i + 1) s0 s1 h
          exact ⟨h3.trans h1, h4.trans h2⟩

/-- The generator leaves the two hazard maps empty. -/
theorem gen_maps (n m d t : Nat) (r : ℚ) (draws : List Nat) (g : TaskGraph)
    (h : generate n m d t r draws = some g) (A : Nat) :
    g.in_map A = none ∧ g.out_map A = none := by
  unfold generate TaskGraph.create_tasks at h
  split at h
  · cases h
  · split at h
    · cases h
    · simp only at h
      split at h
      · cases h
      · next s hs =>
          simp only [Option.some.injEq] at h
          subst h
          obtain ⟨h1, h2⟩ := create_loop_maps _ _ _ _ _ hs
          rw [h1, h2]
          exact ⟨rfl, rfl⟩

/-- Every key of the hazard maps of a traced graph is an address named by a
record of the stream. -/
theorem trace_maps (ts : List task_s) (A : Nat)
    (h : ((trace ts).in_map A).isSome = true ∨ ((trace ts).out_map A).isSome = true) :
    ∃ t ∈ ts, ∃ a ∈ t.deparr, a.varptr = A := by
  have hreach := reach_add_deps ts []
  have hI := TInv_of_reach hreach
  have hM := MInv_of_reach hreach
  have key : ∀ k, (∃ a ∈ recsOf ([].reverse :: (ts.map (fun t => t.deparr.reverse)).reverse) k,
      a.varptr = A) → ∃ t ∈ ts, ∃ a ∈ t.deparr, a.varptr = A := by
    rintro k ⟨a, ha, haA⟩
    obtain ⟨sub, hsub, hasub⟩ := recsOf_stream ts [] k a ha
    have hmem := List.getElem?_mem hsub
    rcases List.mem_append.1 hmem with h1 | h1
    · obtain ⟨t, ht, rfl⟩ := List.mem_map.1 h1
      exact ⟨t, ht, a, hasub, haA⟩
    · rw [List.mem_singleton.1 h1] at hasub; cases hasub
  rcases h with h | h
  · cases hin : (trace ts).in_map A with
    | none => rw [hin] at h; cases h
    | some rs =>
        have hne := (hI.in_ne A rs hin).1
        obtain ⟨r, hr⟩ := List.exists_mem_of_ne_nil rs hne
        obtain ⟨a, ha, haA, -⟩ := hM.inn A rs r hin hr
        exact key r.task ⟨a, ha, haA⟩
  · cases hout : (trace ts).out_map A with
    | none => rw [hout] at h; cases h
    | some w =>
        obtain ⟨a, ha, haA, -⟩ := hM.out A w hout
        exact key w.task ⟨a, ha, haA⟩

theorem restore_some (lab : Lab) (g : TaskGraph) :
    restore lab (some g) = (true, { lab with tg := some g }) := by
  unfold restore
  by_cases h : empty lab NONE = true
  · simp [h]
  · simp [h]

/-- C25 (save/restore round trip): for every graph `g` built by the generator
or by the tracer, with `keys` listing the addresses of the traced stream,
loading what `TaskGraph::serialize` saved for `g` gives back `g` itself: the
task vector with every predecessor and successor list in order, `tID` and
`exec`, the counts, the parameters, both hazard maps and `ll`. So for a session
that holds `g`, `save` returns `true` and writes that archive, and `restore`
on it returns `true` and leaves the session holding `g`. -/
theorem C25_save_restore (g : TaskGraph) (keys : List Nat) (np : Nat → Nat)
    (hsrc : (∃ n m d t r draws, generate n m d t r draws = some g) ∨
      (∃ ts, g = trace ts ∧ ∀ t ∈ ts, ∀ a ∈ t.deparr, a.varptr ∈ keys)) :
    (∀ rest, TaskGraph.serialize_load (g.serialize_save keys np ++ rest) = some (g, rest)) ∧
    (∀ lab lab2 : Lab, lab.tg = some g →
      save lab true keys np = (true, some (g.serialize_save keys np)) ∧
      restore_archive lab2 (some (g.serialize_save keys np)) =
        some (true, { lab2 with tg := some g })) := by
  have hcover : ∀ A, ((g.in_map A).isSome = true → A ∈ keys) ∧
      ((g.out_map A).isSome = true → A ∈ keys) := by
    intro A
    rcases hsrc with ⟨n, m, d, t, r, draws, h⟩ | ⟨ts, rfl, hk⟩
    · obtain ⟨h1, h2⟩ := gen_maps n m d t r draws g h A
      rw [h1, h2]
      exact ⟨fun h => absurd h (by simp), fun h => absurd h (by simp)⟩
    · constructor
      · intro h
        obtain ⟨t, ht, a, ha, haA⟩ := trace_maps ts A (Or.inl h)
        rw [← haA]; exact hk t ht a ha
      · intro h
        obtain ⟨t, ht, a, ha, haA⟩ := trace_maps ts A (Or.inr h)
        rw [← haA]; exact hk t ht a ha
  have hrt := load_save_graph keys np g (fun A => (hcover A).1) (fun A => (hcover A).2)
  refine ⟨hrt, ?_⟩
  intro lab lab2 hlab
  constructor
  · have he : empty lab NONE = false := by
      unfold empty; rw [hlab]; simp [NONE, HTASK, LTASK]
    unfold save
    simp [he, hlab]
  · unfold restore_archive
    have h0 := hrt []
    rw [List.append_nil] at h0
    simp only [h0, restore_some]

theorem C25_save_restore_witness :
    (∀ t ∈ scenario3, ∀ a ∈ t.deparr, a.varptr ∈ [7]) ∧
    TaskGraph.serialize_load ((trace scenario3).serialize_save [7] (fun _ => 0) ++ []) =
      some (trace scenario3, []) :=
  ⟨by decide,
    (C25_save_restore (trace scenario3) [7] (fun _ => 0)
      (Or.inr ⟨scenario3, rfl, by decide⟩)).1 []⟩

end TaskLab
